import Mathlib

/-!
Verification of the Bond-Sequence-Optimiser core against its specification.

The development shallowly embeds the C++ sources:
  * `src/app/domain/BondReturnData.cpp`  (the Return Matrix),
  * `src/app/counter/PathCounter.cpp`    (the path counter and the top-k
    dynamic-programming optimiser `DynamicOptimiser::getOptimalSequences`),
  * `src/optimisers/DynamicOptimiser.cpp` (the scalar single-best optimiser).

IEEE-754 doubles are modelled by the type `D` below: a rational number
(doubles are dyadic rationals; rounding of in-range products is idealised
away) together with the two infinities, with multiplication and addition
saturating at the largest finite double `MAXD`.  The `-inf` sentinel used
by the engine and the `isinf` overflow checks are therefore representable
exactly.  Machine `int` values that can be negative (the decision table
sentinels, the requested result count) are modelled by `Int`; loop
counters, months and tenors, which the program never makes negative, by
`Nat`.
-/

/-- Model of an IEEE-754 double: a finite rational value or an infinity.
NaN never arises in the modelled code paths (products and sums of finite
values, with infinities trapped before reuse), so it is not represented. -/
inductive D where
  | ninf : D
  | fin : ℚ → D
  | pinf : D
deriving DecidableEq, Repr

/-- The largest finite double, `std::numeric_limits<double>::max()`,
that is `(2 ^ 53 - 1) * 2 ^ 971`, written as a numeral so that kernel
evaluation needs no iterated exponentiation (see `MAXD_eq`). -/
def MAXD : ℚ := 179769313486231570814527423731704356798070567525844996598917476803157260780028538760589558632766878171540458953514382464234321326889464182768467546703537516986049910576551282076245490090389328944075868508455133942304583236903222948165808559332123348274797826204144723168738177180919299881250404026184124858368

/-- Saturate a rational to the finite double range: results beyond
`±MAXD` become the corresponding infinity, as IEEE multiplication and
addition of finite doubles overflow to infinities. -/
def satD (q : ℚ) : D :=
  if MAXD < q then D.pinf else if q < -MAXD then D.ninf else D.fin q

/-- Double multiplication by a finite factor (the engine only ever
multiplies a stored CRF by the finite factor `1 + hpr`).  An infinite
first operand never occurs in the engine (every stored CRF is finite,
proved below); for totality those cases follow the IEEE sign rules, with
the unreachable `inf * 0` case mapped to `0`. -/
def mulD : D → ℚ → D
  | D.fin a, f => satD (a * f)
  | D.pinf, f => if 0 < f then D.pinf else if f < 0 then D.ninf else D.fin 0
  | D.ninf, f => if 0 < f then D.ninf else if f < 0 then D.pinf else D.fin 0

/-- Double addition (used by the path counter in approximate mode; both
operands there are non-negative, so the mixed-infinity NaN case is
unreachable and mapped to `0` for totality). -/
def addD : D → D → D
  | D.fin a, D.fin b => satD (a + b)
  | D.pinf, D.ninf => D.fin 0
  | D.ninf, D.pinf => D.fin 0
  | D.pinf, _ => D.pinf
  | _, D.pinf => D.pinf
  | D.ninf, _ => D.ninf
  | _, D.ninf => D.ninf

/-- `std::isinf`. -/
def isinfD : D → Bool
  | D.fin _ => false
  | _ => true

/-- `std::signbit` (rationals carry no `-0.0`, the only divergence). -/
def signbitD : D → Bool
  | D.ninf => true
  | D.pinf => false
  | D.fin q => decide (q < 0)

/-- The IEEE total order restricted to non-NaN doubles, as used by the
`operator<` comparator of the candidate priority queue. -/
def leD : D → D → Prop
  | D.ninf, _ => True
  | D.fin _, D.ninf => False
  | D.fin a, D.fin b => a ≤ b
  | D.fin _, D.pinf => True
  | D.pinf, D.pinf => True
  | D.pinf, _ => False

/-- Strict version of `leD`. -/
def ltD : D → D → Prop
  | _, D.ninf => False
  | D.ninf, _ => True
  | D.fin a, D.fin b => a < b
  | D.fin _, D.pinf => True
  | D.pinf, _ => False

instance instDecidableLeD : (x y : D) → Decidable (leD x y)
  | D.ninf, D.ninf => Decidable.isTrue trivial
  | D.ninf, D.fin _ => Decidable.isTrue trivial
  | D.ninf, D.pinf => Decidable.isTrue trivial
  | D.fin _, D.ninf => Decidable.isFalse (fun h => h)
  | D.fin a, D.fin b => inferInstanceAs (Decidable (a ≤ b))
  | D.fin _, D.pinf => Decidable.isTrue trivial
  | D.pinf, D.ninf => Decidable.isFalse (fun h => h)
  | D.pinf, D.fin _ => Decidable.isFalse (fun h => h)
  | D.pinf, D.pinf => Decidable.isTrue trivial

instance instDecidableLtD : (x y : D) → Decidable (ltD x y)
  | D.ninf, D.ninf => Decidable.isFalse (fun h => h)
  | D.fin _, D.ninf => Decidable.isFalse (fun h => h)
  | D.pinf, D.ninf => Decidable.isFalse (fun h => h)
  | D.ninf, D.fin _ => Decidable.isTrue trivial
  | D.ninf, D.pinf => Decidable.isTrue trivial
  | D.fin a, D.fin b => inferInstanceAs (Decidable (a < b))
  | D.fin _, D.pinf => Decidable.isTrue trivial
  | D.pinf, D.fin _ => Decidable.isFalse (fun h => h)
  | D.pinf, D.pinf => Decidable.isFalse (fun h => h)

/-- A `D` value is finite. -/
def isFinD : D → Prop
  | D.fin _ => True
  | _ => False

instance instDecidableIsFinD : (x : D) → Decidable (isFinD x)
  | D.ninf => Decidable.isFalse (fun h => h)
  | D.fin _ => Decidable.isTrue trivial
  | D.pinf => Decidable.isFalse (fun h => h)

namespace Domain

/-- Model of `Domain::BondReturnData` (src/app/domain/BondReturnData.cpp):
a sorted tenor list, a month count and a row-major grid of per-month
holding-period returns.  Tenors and months are C++ `int` values that are
non-negative in every modelled execution, so they are carried as `Nat`. -/
structure BondReturnData where
  tenors : List ℕ
  numMonths : ℕ
  grid : List ℚ
deriving DecidableEq, Repr

/-- Model of `BondReturnData::operator()(row, month)`:
`gridView_[row, month]` over the row-major grid, i.e.
`grid_[row * numMonths_ + month]` (unchecked access). -/
def BondReturnData.hpr (R : BondReturnData) (row month : ℕ) : ℚ :=
  R.grid.getD (row * R.numMonths + month) 0

/-- `std::numeric_limits<int>::max()`. -/
def intMax : ℤ := 2 ^ 31 - 1

/-- Model of the `Domain::BondReturnData` constructor
(src/app/domain/BondReturnData.cpp lines 13-31): the only validation it
performs is the tenor-count bound, `numMonths_ <= 0`, and the grid-size
check `grid_.size() != tenors_.size() * numMonths_`.  The argument `m`
is the C++ `int` parameter, hence `Int`. -/
def mkBondReturnData (t : List ℕ) (m : ℤ) (g : List ℚ) :
    Except String BondReturnData :=
  if intMax < (t.length : ℤ) then
    Except.error "BondReturnData: too many tenors provided"
  else if m ≤ 0 then
    Except.error "BondReturnData: must have at least 1 month"
  else if g.length ≠ t.length * m.toNat then
    Except.error "BondReturnData: size mismatch"
  else
    Except.ok { tenors := t, numMonths := m.toNat, grid := g }

/-- The Return Matrix validity invariant stated by the specification
(section 3): strictly ascending positive tenors, at least one tenor,
`M` at least the shortest tenor and a correctly-sized grid.  (Finiteness
of `1 + g(i,m)` is automatic: grid entries are rationals.) -/
def ValidData (R : BondReturnData) : Prop :=
  R.tenors ≠ [] ∧
  R.tenors.Pairwise (· < ·) ∧
  (∀ t ∈ R.tenors, 0 < t) ∧
  R.tenors.headI ≤ R.numMonths ∧
  R.grid.length = R.tenors.length * R.numMonths

instance instDecidableValidData (R : BondReturnData) :
    Decidable (ValidData R) := by
  unfold ValidData; infer_instance

end Domain

namespace PathCounter

/-- Model of `PathCounter::Detail::PathCount`:
`Exact(long long)` or `Approx(double)`. -/
inductive PathCount where
  | Exact : ℤ → PathCount
  | Approx : D → PathCount
deriving DecidableEq, Repr

/-- `std::numeric_limits<long long>::max()`. -/
def maxLL : ℤ := 2 ^ 63 - 1

/-- State of the counting loop: the exact `long long` table `numPaths`,
the `double` table `numPathsApprox` (empty until promotion), and the
`overflowed` flag. -/
structure CountState where
  numPaths : List ℤ
  numPathsApprox : List D
  overflowed : Bool
deriving DecidableEq, Repr

/-- The inner tenor loop of `PathCounter::Detail::countPaths` for month
`i`: for each tenor `t` (stopping at the first `t > i`), add
`numPaths[i - t]` into `numPaths[i]` after the headroom check
`max - numPaths[i] < numPaths[i - t]`; on the first failing check,
promote: allocate `numPathsApprox` of length `numMonths + 1` (zeroed),
copy the months before `i` exactly, seed month `i` with the sum that
overflowed, and stay in approximate mode for all later additions. -/
def countInner (numMonths i : ℕ) : List ℕ → CountState → CountState
  | [], st => st
  | t :: rest, st =>
    if i < t then st
    else if st.overflowed = false then
      if maxLL - st.numPaths.getD i 0 < st.numPaths.getD (i - t) 0 then
        -- switch to approximate mode
        let approx0 := (List.range (numMonths + 1)).map
          (fun j => if j < i then D.fin ((st.numPaths.getD j 0 : ℤ) : ℚ)
                    else D.fin 0)
        let approx1 := approx0.set i
          (addD (D.fin ((st.numPaths.getD i 0 : ℤ) : ℚ))
                (D.fin ((st.numPaths.getD (i - t) 0 : ℤ) : ℚ)))
        countInner numMonths i rest
          { numPaths := st.numPaths, numPathsApprox := approx1,
            overflowed := true }
      else
        let paths1 :=
          st.numPaths.set i (st.numPaths.getD i 0 + st.numPaths.getD (i - t) 0)
        countInner numMonths i rest { st with numPaths := paths1 }
    else
      let approx1 :=
        st.numPathsApprox.set i
          (addD (st.numPathsApprox.getD i (D.fin 0))
                (st.numPathsApprox.getD (i - t) (D.fin 0)))
      countInner numMonths i rest { st with numPathsApprox := approx1 }

/-- The counting state after the months `1 .. i` of
`PathCounter::Detail::countPaths` have been processed, starting from
`numPaths = {1, 0, ..., 0}`. -/
def countUpTo (tenorList : List ℕ) (numMonths : ℕ) : ℕ → CountState
  | 0 =>
    { numPaths := (1 : ℤ) :: List.replicate numMonths 0,
      numPathsApprox := [], overflowed := false }
  | i + 1 => countInner numMonths (i + 1) tenorList
      (countUpTo tenorList numMonths i)

/-- Model of `PathCounter::Detail::countPaths`: the tenor list gets `1`
inserted at the front (`tenorList.insert(tenorList.begin(), 1)`), the DP
runs over months `1 .. numMonths`, and the result is the last entry of
whichever table is active. -/
def countPaths (tenorListIn : List ℕ) (numMonths : ℕ) : PathCount :=
  let tenorList := 1 :: tenorListIn
  let st := countUpTo tenorList numMonths numMonths
  if st.overflowed then PathCount.Approx (st.numPathsApprox.getD numMonths (D.fin 0))
  else PathCount.Exact (st.numPaths.getD numMonths 0)

/-- One month of the ideal (unbounded-integer) path-count recurrence over
a tenor list `tl`: `P[m] = sum of P[m - t] over t in tl with t ≤ m`,
reading earlier values from the table `tbl`. -/
def pureRow (tl : List ℕ) (tbl : List ℤ) (m : ℕ) : ℤ :=
  (tl.map (fun t => if t ≤ m then tbl.getD (m - t) 0 else 0)).sum

/-- The table `[P[0], ..., P[m]]` of the ideal recurrence over `tl`. -/
def pureTable (tl : List ℕ) : ℕ → List ℤ
  | 0 => [1]
  | m + 1 =>
    let tbl := pureTable tl m
    tbl ++ [pureRow tl tbl (m + 1)]

/-- `P[m]` of the ideal recurrence over `tl`. -/
def pureP (tl : List ℕ) (m : ℕ) : ℤ := (pureTable tl m).getD m 0

/-- Modelled from the spec: the recurrence section 4.4 claims, namely
`P[m] = sum over the SET tenors ∪ {1}` with each distinct tenor counted
exactly once (so a tenor equal to 1 is merged with the wait step).  Used
to compare the specified recurrence with the implemented one. -/
def specUnionCount (tenors : List ℕ) (m : ℕ) : ℤ :=
  pureP ((1 :: tenors).dedup) m

/-- The per-month headroom checks of the exact DP, on ideal values: walk
the tenor list for month `m` with running sum `cur`, and report whether
every addition `cur + tbl[m - t]` keeps `max - cur` at least the addend
(stopping, like the code, at the first tenor exceeding `m`). -/
def rowChecks (tbl : List ℤ) (m : ℕ) : List ℕ → ℤ → Bool
  | [], _ => true
  | t :: rest, cur =>
    if m < t then true
    else if maxLL - cur < tbl.getD (m - t) 0 then false
    else rowChecks tbl m rest (cur + tbl.getD (m - t) 0)

/-- No addition during months `1 .. m` of the exact 64-bit DP over `tl`
would overflow. -/
def noOverflowUpTo (tl : List ℕ) : ℕ → Bool
  | 0 => true
  | m + 1 => noOverflowUpTo tl m && rowChecks (pureTable tl m) (m + 1) tl 0

/-- The running sum the exact inner loop accumulates for month `m`:
walk the tenor list, stopping at the first tenor exceeding `m`, adding
`tbl[m - t]` each time (proof-side mirror of the additions performed by
`countInner` in exact mode). -/
def rowFoldZ (tbl : List ℤ) (m : ℕ) : List ℕ → ℤ → ℤ
  | [], cur => cur
  | t :: rest, cur =>
    if m < t then cur
    else rowFoldZ tbl m rest (cur + tbl.getD (m - t) 0)

end PathCounter

namespace ScalarOptimiser

open Domain

/-- The inner tenor loop of `DynamicOptimiser::optimiseCRF`
(src/optimisers/DynamicOptimiser.cpp lines 42-63): fold the buy
candidates for month `m` over the tenor indices, breaking at the first
tenor exceeding `m`, and keep the strictly larger CRF each time. -/
def scalarFold (R : BondReturnData) (tbl : List D) (m : ℕ) :
    List ℕ → D → D
  | [], best => best
  | i :: rest, best =>
    let t := R.tenors.getD i 0
    if m < t then best
    else
      let factor : ℚ := 1 + R.hpr i (m - t)
      let cand := mulD (tbl.getD (m - t) D.ninf) factor
      scalarFold R tbl m rest (if ltD best cand then cand else best)

/-- The table `monthlyBestCRF[0 .. m]` of `DynamicOptimiser::optimiseCRF`:
month 0 holds `1.0`; each later month starts from the previous month's
best (waiting) and folds in the buy candidates. -/
def scalarTable (R : BondReturnData) : ℕ → List D
  | 0 => [D.fin 1]
  | m + 1 =>
    let tbl := scalarTable R m
    tbl ++ [scalarFold R tbl (m + 1) (List.range R.tenors.length)
      (tbl.getD m D.ninf)]

/-- The optimal CRF entry at month `m`. -/
def scalarBest (R : BondReturnData) (m : ℕ) : D :=
  (scalarTable R m).getD m D.ninf

/-- Model of the CRF component of `DynamicOptimiser::optimiseCRF`
(the returned `monthlyBestCRF.back()`); the choices-reconstruction half
of that function is not needed by any claim and is not modelled. -/
def optimiseCRF (R : BondReturnData) : D := scalarBest R R.numMonths

end ScalarOptimiser

namespace DynamicOptimiser

open Domain

/-- The error taxonomy of the engine as observable effects:
`invalidArg` models the `std::invalid_argument` thrown for a negative
request, `overflow` models `Detail::Overflow::throwCRFOverflow` (whether
the overflow was above or below, the finite bound surfaced in the message
and the month), `badAction` models the `std::invalid_argument` thrown by
the `Domain::InvestmentAction` constructor, and `internal` is the fuel
guard of the modelled reconstruction walk (the C++ loop needs no fuel;
this case is unreachable whenever the walk terminates within the
horizon). -/
inductive Err where
  | invalidArg : Err
  | overflow : Bool → ℚ → ℕ → Err
  | badAction : Err
  | internal : Err
deriving DecidableEq, Repr

/-- Model of `DynamicOptimiser::Detail::Overflow::throwCRFOverflow`:
a non-negative-signed value reports an overflow above with the maximum
finite double, a negative-signed value an overflow below with the lowest
finite double; both surface the month. -/
def throwCRFOverflow (value : D) (month : ℕ) : Err :=
  if signbitD value = false then Err.overflow true MAXD month
  else Err.overflow false (-MAXD) month

/-- Model of `Domain::InvestmentAction::Action`. -/
inductive ActKind where
  | Buy : ActKind
  | Wait : ActKind
deriving DecidableEq, Repr

/-- Model of `Domain::InvestmentAction`: kind, start month and length
(tenor or wait length), both C++ `int`. -/
structure InvestmentAction where
  action : ActKind
  startMonth : ℤ
  length : ℤ
deriving DecidableEq, Repr

/-- Model of the `Domain::InvestmentAction` constructor with its two
construction-time checks (negative month, non-positive length), which
throw `std::invalid_argument`. -/
def mkInvestmentAction (a : ActKind) (choiceMonth periodLength : ℤ) :
    Except Err InvestmentAction :=
  if choiceMonth < 0 then Except.error Err.badAction
  else if periodLength ≤ 0 then Except.error Err.badAction
  else Except.ok { action := a, startMonth := choiceMonth, length := periodLength }

/-- Model of `Detail::PriorityQueue::Candidate`. -/
structure Candidate where
  CRF : D
  tenor : ℕ
  prevRank : ℕ
  prevMonth : ℕ
  factor : ℚ
deriving DecidableEq, Repr

/-- Selection of a maximal element of `c :: l` (by `CRF`, the comparator
of the candidate priority queue) together with the remaining elements. -/
def popMax1 : Candidate → List Candidate → Candidate × List Candidate
  | c, [] => (c, [])
  | c, a :: rest =>
    match popMax1 a rest with
    | (m, r) => if ltD c.CRF m.CRF then (m, c :: r) else (c, a :: rest)

/-- Model of popping `std::priority_queue` with the comparator
`a.CRF < b.CRF`: return a maximal element and the remaining queue.  The
C++ tie order among bitwise-equal keys is unspecified; this model keeps
the earliest maximal element. -/
def popMax : List Candidate → Option (Candidate × List Candidate)
  | [] => none
  | c :: rest => some (popMax1 c rest)

/-- Read `CRFs[phys, rank]` from the windowed buffer. -/
def getCRF (rows : List (List D)) (phys rank : ℕ) : D :=
  (rows.getD phys []).getD rank D.ninf

/-- Write `CRFs[phys, rank] = v`. -/
def setCRF (rows : List (List D)) (phys rank : ℕ) (v : D) : List (List D) :=
  rows.set phys ((rows.getD phys []).set rank v)

/-- Read `(decisions[month, rank, 0], decisions[month, rank, 1])`.
Negative or out-of-range indices (undefined behaviour in C++, unreachable
under the engine invariants) read as the unfilled sentinel. -/
def getDec (decs : List (List (ℤ × ℤ))) (month rank : ℤ) : ℤ × ℤ :=
  if 0 ≤ month ∧ 0 ≤ rank then
    (decs.getD month.toNat []).getD rank.toNat (-1, -1)
  else (-1, -1)

/-- Write `decisions[month, rank, *] = v`. -/
def setDec (decs : List (List (ℤ × ℤ))) (month rank : ℕ) (v : ℤ × ℤ) :
    List (List (ℤ × ℤ)) :=
  decs.set month ((decs.getD month []).set rank v)

/-- The cyclic-buffer window length:
`min(maxTenor, numMonths) + 1` with `maxTenor = tenorList.back()`. -/
def window (R : BondReturnData) : ℕ :=
  min (R.tenors.getLastD 0) R.numMonths + 1

/-- The mutable state of `getOptimalSequences` between month updates. -/
structure EngState where
  crfRows : List (List D)
  decisions : List (List (ℤ × ℤ))
  rowIndex : List ℕ
  windowCounter : ℕ
  numResultsFound : ℕ
deriving DecidableEq, Repr

/-- The state before the month loop: the CRF window initialised to `-inf`
with `CRFs[0, 0] = 1.0`, the decisions buffer initialised to `(-1, -1)`
with `decisions[0, 0] = (0, -1)` (wait sentinel, no predecessor),
`rowIndex` zeroed, `windowCounter = 1`. -/
def initState (R : BondReturnData) (k : ℕ) : EngState :=
  { crfRows := setCRF (List.replicate (window R) (List.replicate k D.ninf)) 0 0 (D.fin 1),
    decisions := setDec (List.replicate (R.numMonths + 1) (List.replicate k ((-1 : ℤ), (-1 : ℤ)))) 0 0 (0, -1),
    rowIndex := List.replicate (R.numMonths + 1) 0,
    windowCounter := 1,
    numResultsFound := 0 }

/-- The tenor-head loop of the per-month update: for each tenor index
(skipping tenors exceeding the month), compute
`factor = 1 + R(i, m - t)`, `nextCRF = CRFs[rowIndex[m - t], 0] * factor`,
fail through `throwCRFOverflow` if it is infinite, and otherwise push the
candidate. -/
def buyHeadsAux (R : BondReturnData) (rows : List (List D))
    (rowIndex : List ℕ) (m : ℕ) :
    List ℕ → List Candidate → Except Err (List Candidate)
  | [], acc => Except.ok acc
  | i :: rest, acc =>
    let t := R.tenors.getD i 0
    if m < t then buyHeadsAux R rows rowIndex m rest acc
    else
      let pm := m - t
      let factor : ℚ := 1 + R.hpr i pm
      let prevCRF := getCRF rows (rowIndex.getD pm 0) 0
      let nextCRF := mulD prevCRF factor
      if isinfD nextCRF then Except.error (throwCRFOverflow nextCRF m)
      else
        buyHeadsAux R rows rowIndex m rest
          ({ CRF := nextCRF, tenor := t, prevRank := 0, prevMonth := pm,
             factor := factor } :: acc)

/-- The extraction loop of the per-month update: while fewer than `k`
results have been written and the queue is non-empty, pop the maximal
candidate, record its CRF and decision at the next free rank, and advance
the list it came from (guarded by the rank bound, the `-inf` sentinel and
the overflow check).  `fuel` is `k - numResults`. -/
def extractLoop (k : ℕ) (rowIndex : List ℕ) (m : ℕ) :
    ℕ → List Candidate → List (List D) → List (List (ℤ × ℤ)) → ℕ →
    Except Err (List (List D) × List (List (ℤ × ℤ)) × ℕ)
  | 0, _, rows, decs, nr => Except.ok (rows, decs, nr)
  | fuel + 1, heap, rows, decs, nr =>
    match popMax heap with
    | none => Except.ok (rows, decs, nr)
    | some (c, heap1) =>
      let rows1 := setCRF rows (rowIndex.getD m 0) nr c.CRF
      let decs1 := setDec decs m nr ((c.tenor : ℤ), (c.prevRank : ℤ))
      let nextRank := c.prevRank + 1
      if nextRank < k then
        let prevCRF := getCRF rows1 (rowIndex.getD c.prevMonth 0) nextRank
        if prevCRF = D.ninf then
          extractLoop k rowIndex m fuel heap1 rows1 decs1 (nr + 1)
        else
          let nextCRF := mulD prevCRF c.factor
          if isinfD nextCRF then Except.error (throwCRFOverflow nextCRF m)
          else
            extractLoop k rowIndex m fuel
              ({ CRF := nextCRF, tenor := c.tenor, prevRank := nextRank,
                 prevMonth := c.prevMonth, factor := c.factor } :: heap1)
              rows1 decs1 (nr + 1)
      else extractLoop k rowIndex m fuel heap1 rows1 decs1 (nr + 1)

/-- One iteration of the month loop of `getOptimalSequences` for month
`m ≥ 1`: record the cyclic row index, reset the (possibly stale) row,
build the candidate heap from the wait head and the tenor heads, then
extract up to `k` maxima. -/
def processMonth (R : BondReturnData) (k : ℕ) (st : EngState) (m : ℕ) :
    Except Err EngState := do
  let rowIndex1 := st.rowIndex.set m st.windowCounter
  let wc1 := if st.windowCounter + 1 = window R then 0 else st.windowCounter + 1
  let rows0 := st.crfRows.set st.windowCounter (List.replicate k D.ninf)
  let waitHead : Candidate :=
    { CRF := getCRF rows0 (rowIndex1.getD (m - 1) 0) 0, tenor := 0,
      prevRank := 0, prevMonth := m - 1, factor := 1 }
  let heads ← buyHeadsAux R rows0 rowIndex1 m (List.range R.tenors.length) [waitHead]
  let (rows1, decs1, nr) ← extractLoop k rowIndex1 m k heads rows0 st.decisions 0
  Except.ok { crfRows := rows1, decisions := decs1, rowIndex := rowIndex1,
              windowCounter := wc1, numResultsFound := nr }

/-- The engine state after months `1 .. m` of the month loop. -/
def runMonths (R : BondReturnData) (k : ℕ) : ℕ → Except Err EngState
  | 0 => Except.ok (initState R k)
  | m + 1 => do
    let st ← runMonths R k m
    processMonth R k st (m + 1)

/-- The backward walk of
`Detail::PathReconstruction::reconstructPaths` for one rank: while the
month is positive, read the decision, extend the wait streak on the wait
sentinel, and otherwise flush any pending streak as a single wait action
starting at the current month, followed by the buy action, which the
code records with start month equal to the CURRENT month (the maturity
month, src/app/counter/PathCounter.cpp lines 210-215) before stepping
the month down by the tenor; finally flush a trailing streak at month 0
and reverse.  Each loop iteration decreases the month, so fuel
`numMonths + 1` always suffices (the `internal` case is unreachable). -/
def walkPath (decs : List (List (ℤ × ℤ))) :
    ℕ → ℤ → ℤ → ℕ → List InvestmentAction → Except Err (List InvestmentAction)
  | 0, _, _, _, _ => Except.error Err.internal
  | fuel + 1, currentMonth, prevRank, waitStreak, acc =>
    if currentMonth ≤ 0 then
      if 0 < waitStreak then do
        let w ← mkInvestmentAction ActKind.Wait 0 waitStreak
        Except.ok (acc ++ [w]).reverse
      else Except.ok acc.reverse
    else
      let e := getDec decs currentMonth prevRank
      if e.1 = 0 then
        walkPath decs fuel (currentMonth - 1) e.2 (waitStreak + 1) acc
      else do
        let acc1 ←
          if 0 < waitStreak then do
            let w ← mkInvestmentAction ActKind.Wait currentMonth waitStreak
            pure (acc ++ [w])
          else pure acc
        let b ← mkInvestmentAction ActKind.Buy currentMonth e.1
        walkPath decs fuel (currentMonth - e.1) e.2 0 (acc1 ++ [b])

/-- The rank loop of `reconstructPaths`: walk each rank below
`numResultsFound`, stopping early at an unfilled final-month decision. -/
def reconPathsAux (decs : List (List (ℤ × ℤ))) (numMonths : ℕ) :
    List ℕ → List (List InvestmentAction) →
    Except Err (List (List InvestmentAction))
  | [], acc => Except.ok acc
  | r :: rest, acc =>
    if (getDec decs (numMonths : ℤ) (r : ℤ)).1 = -1 then Except.ok acc
    else do
      let p ← walkPath decs (numMonths + 1) (numMonths : ℤ) (r : ℤ) 0 []
      reconPathsAux decs numMonths rest (acc ++ [p])

/-- Model of `Detail::PathReconstruction::reconstructPaths`. -/
def reconstructPaths (decs : List (List (ℤ × ℤ))) (numMonths numResultsFound : ℕ) :
    Except Err (List (List InvestmentAction)) :=
  reconPathsAux decs numMonths (List.range numResultsFound) []

/-- Model of `DynamicOptimiser::OptimalResults`. -/
structure OptimalResults where
  CRFs : List D
  decisions : List (List InvestmentAction)
deriving DecidableEq, Repr

/-- Model of `DynamicOptimiser::getOptimalSequences`
(src/app/counter/PathCounter.cpp lines 237-382): validate the request,
return empty results when nothing is requested or the matrix is empty,
otherwise run the month loop, reconstruct the paths, and read the final
month's CRFs through the rolling window. -/
def getOptimalSequences (R : BondReturnData) (numResultsRequested : ℤ) :
    Except Err OptimalResults :=
  if numResultsRequested < 0 then Except.error Err.invalidArg
  else if numResultsRequested = 0 ∨ R.numMonths = 0 ∨ R.tenors.length = 0 then
    Except.ok { CRFs := [], decisions := [] }
  else do
    let k := numResultsRequested.toNat
    let st ← runMonths R k R.numMonths
    let paths ← reconstructPaths st.decisions R.numMonths st.numResultsFound
    let finalRowPos := st.rowIndex.getD R.numMonths 0
    Except.ok
      { CRFs := (List.range st.numResultsFound).map
          (fun i => getCRF st.crfRows finalRowPos i),
        decisions := paths }

/-- The rank-`rank` CRF the engine records for `month`, read through the
rolling window of a state. -/
def readCRF (st : EngState) (month rank : ℕ) : D :=
  getCRF st.crfRows (st.rowIndex.getD month 0) rank

/-- The properties of the engine row recorded for month `j` with `c`
filled ranks: at least one rank filled (waiting is always feasible), at
most `k`, the rank-0 entry equal to the scalar DP optimum, every filled
entry a finite double within range, every unfilled entry the `-inf`
sentinel, and the decision row filled (tenor at least the wait sentinel
`0`) on exactly the same prefix. -/
def RowOK (R : Domain.BondReturnData) (k j c : ℕ) (row : List D)
    (drow : List (ℤ × ℤ)) : Prop :=
  1 ≤ c ∧ c ≤ k ∧
  row.getD 0 D.ninf = ScalarOptimiser.scalarBest R j ∧
  (∀ r, r < c → ∃ q, row.getD r D.ninf = D.fin q ∧ -MAXD ≤ q ∧ q ≤ MAXD) ∧
  (∀ r, c ≤ r → row.getD r D.ninf = D.ninf) ∧
  (∀ r, r < c → 0 ≤ (drow.getD r (-1, -1)).1) ∧
  (∀ r, c ≤ r → drow.getD r (-1, -1) = (-1, -1))

/-- The structural invariant of the month loop after month `m`: buffer
shapes, the `rowIndex` and `windowCounter` bookkeeping, untouched future
decision rows, and `RowOK` for every month still retained by the cyclic
window (with the filled count of the current month recorded in
`numResultsFound`). -/
def InvBase (R : Domain.BondReturnData) (k m : ℕ) (st : EngState) : Prop :=
  st.crfRows.length = window R ∧
  (∀ row ∈ st.crfRows, row.length = k) ∧
  st.rowIndex.length = R.numMonths + 1 ∧
  (∀ j, j ≤ m → st.rowIndex.getD j 0 = j % window R) ∧
  st.windowCounter = (m + 1) % window R ∧
  st.decisions.length = R.numMonths + 1 ∧
  (∀ drow ∈ st.decisions, drow.length = k) ∧
  (∀ j, m < j → j ≤ R.numMonths → st.decisions.getD j [] = List.replicate k (-1, -1)) ∧
  (∀ j, j ≤ m → m < j + window R →
    ∃ c, RowOK R k j c (st.crfRows.getD (j % window R) [])
      (st.decisions.getD j [])) ∧
  (1 ≤ m → ∃ c, c = st.numResultsFound ∧
    RowOK R k m c (st.crfRows.getD (m % window R) []) (st.decisions.getD m []))

/-- A CRF row is non-increasing in rank. -/
def RowSorted (row : List D) : Prop :=
  ∀ r1 r2, r1 ≤ r2 → leD (row.getD r2 D.ninf) (row.getD r1 D.ninf)

/-- The non-increasing-row invariant for every retained month. -/
def InvSort (R : Domain.BondReturnData) (m : ℕ) (st : EngState) : Prop :=
  ∀ j, j ≤ m → m < j + window R →
    RowSorted (st.crfRows.getD (j % window R) [])

/-- The candidate `buyHeadsAux` pushes for tenor index `i` at month `m`
(proof-side name for the record built in the loop body). -/
def buyCand (R : Domain.BondReturnData) (rows : List (List D))
    (rowIndex : List ℕ) (m i : ℕ) : Candidate :=
  let t := R.tenors.getD i 0
  let pm := m - t
  let factor : ℚ := 1 + R.hpr i pm
  { CRF := mulD (getCRF rows (rowIndex.getD pm 0) 0) factor, tenor := t,
    prevRank := 0, prevMonth := pm, factor := factor }

/-- Every return factor `1 + g(i, j)` of the matrix is non-negative; the
hypothesis under which the k-way merge emits a sorted frontier. -/
def FactorsNonneg (R : Domain.BondReturnData) : Prop :=
  ∀ i, i < R.tenors.length → ∀ j, j < R.numMonths → 0 ≤ 1 + R.hpr i j

instance instDecFactorsNonneg (R : Domain.BondReturnData) :
    Decidable (FactorsNonneg R) :=
  inferInstanceAs (Decidable (∀ i, i < R.tenors.length → ∀ j, j < R.numMonths →
    0 ≤ 1 + R.hpr i j))

/-- A well-formed filled decision entry `e = (tenor, prevRank)` recorded
at month `j`: the tenor is between the wait sentinel `0` and `j`, the
predecessor rank is in `0 .. k-1`, and the predecessor entry (at month
`j - 1` for a wait, `j - tenor` for a buy) is itself filled. -/
def GoodDec (k : ℕ) (decs : List (List (ℤ × ℤ))) (j : ℕ) (e : ℤ × ℤ) : Prop :=
  0 ≤ e.1 ∧ e.1 ≤ (j : ℤ) ∧ 0 ≤ e.2 ∧ e.2 < (k : ℤ) ∧
  0 ≤ (((decs.getD (if e.1 = 0 then j - 1 else j - e.1.toNat) []).getD
    e.2.toNat (-1, -1)).1)

/-- The decision-chain invariant after month `m`: every filled decision
entry of months `1 .. m` is well formed, so the backward reconstruction
walk always lands on filled entries and non-negative months. -/
def InvChain (k m : ℕ) (st : EngState) : Prop :=
  ∀ j, 1 ≤ j → j ≤ m → ∀ r : ℕ,
    0 ≤ ((st.decisions.getD j []).getD r (-1, -1)).1 →
    GoodDec k st.decisions j ((st.decisions.getD j []).getD r (-1, -1))

/-- No two consecutive actions of a path are both waits. -/
def NoAdjacentWaits : List InvestmentAction → Prop
  | [] => True
  | [_] => True
  | a :: b :: rest =>
    ¬(a.action = ActKind.Wait ∧ b.action = ActKind.Wait) ∧
    NoAdjacentWaits (b :: rest)

/-- Modelled from the spec (sections 3 and 8, scenario F): expand every
wait of length `l` into `l` unit waits at consecutive start months; the
underlying decision chain of a path. -/
def expandUnit : List InvestmentAction → List InvestmentAction
  | [] => []
  | a :: rest =>
    if a.action = ActKind.Wait then
      ((List.range a.length.toNat).map
        (fun j : ℕ => InvestmentAction.mk ActKind.Wait (a.startMonth + (j : ℤ)) 1)) ++
        expandUnit rest
    else a :: expandUnit rest

/-- Modelled from the spec (sections 3 and 8, scenario F): merge every
maximal run of adjacent waits into a single wait starting at the first
one and of the summed length. -/
def mergeWaits : List InvestmentAction → List InvestmentAction
  | [] => []
  | [a] => [a]
  | a :: b :: rest =>
    if a.action = ActKind.Wait ∧ b.action = ActKind.Wait then
      mergeWaits ({ action := ActKind.Wait, startMonth := a.startMonth,
                    length := a.length + b.length : InvestmentAction } :: rest)
    else a :: mergeWaits (b :: rest)
termination_by l => l.length
decreasing_by all_goals simp [List.length_cons]

end DynamicOptimiser

/-- A CRF list sorted in non-increasing order. -/
def CRFsSortedDesc (l : List D) : Prop := l.Chain' (fun a b => leD b a)

instance instDecCRFsSortedDesc (l : List D) : Decidable (CRFsSortedDesc l) :=
  inferInstanceAs (Decidable (l.Chain' (fun a b => leD b a)))

/-- Whether an `Except` is a success. -/
def isOkExcept {ε α : Type} : Except ε α → Bool
  | Except.ok _ => true
  | Except.error _ => false

instance instDecEqExcept {ε α : Type} [DecidableEq ε] [DecidableEq α] :
    DecidableEq (Except ε α)
  | Except.error x, Except.error y =>
    if h : x = y then Decidable.isTrue (congrArg Except.error h)
    else Decidable.isFalse (fun hc => h (Except.error.inj hc))
  | Except.error _, Except.ok _ =>
    Decidable.isFalse (fun hc => Except.noConfusion hc)
  | Except.ok _, Except.error _ =>
    Decidable.isFalse (fun hc => Except.noConfusion hc)
  | Except.ok x, Except.ok y =>
    if h : x = y then Decidable.isTrue (congrArg Except.ok h)
    else Decidable.isFalse (fun hc => h (Except.ok.inj hc))

section OrderLemmas

theorem leD_refl (x : D) : leD x x := by
  cases x <;> simp [leD]

theorem leD_trans {x y z : D} (h1 : leD x y) (h2 : leD y z) : leD x z := by
  cases x <;> cases y <;> cases z <;> simp_all [leD] <;> linarith

theorem leD_total (x y : D) : leD x y ∨ leD y x := by
  cases x <;> cases y <;> simp [leD] <;> exact le_total _ _

theorem not_ltD_iff {x y : D} : ¬ ltD x y ↔ leD y x := by
  cases x <;> cases y <;> simp [leD, ltD]

theorem ltD_irrefl (x : D) : ¬ ltD x x := by
  cases x <;> simp [ltD]

theorem leD_of_ltD {x y : D} (h : ltD x y) : leD x y := by
  cases x <;> cases y <;> simp_all [leD, ltD] <;> linarith

theorem leD_ninf (x : D) : leD D.ninf x := by trivial

end OrderLemmas

section PopMaxLemmas

open DynamicOptimiser

/-- The selected element together with the rest is a permutation of the
input. -/
theorem popMax1_perm :
    ∀ (l : List Candidate) (c : Candidate),
      (c :: l).Perm ((popMax1 c l).1 :: (popMax1 c l).2) := by
  intro l
  induction l with
  | nil => intro c; simp [popMax1]
  | cons a rest ih =>
    intro c
    have hperm := ih a
    rcases hrec : popMax1 a rest with ⟨m, r⟩
    rw [hrec] at hperm
    rw [popMax1, hrec]
    by_cases hlt : ltD c.CRF m.CRF
    · simp only [hlt, if_true]
      exact (List.Perm.cons c hperm).trans (List.Perm.swap m c r)
    · simp only [hlt, if_false]
      exact List.Perm.refl _

/-- The selected element is maximal. -/
theorem popMax1_max :
    ∀ (l : List Candidate) (c : Candidate),
      ∀ x ∈ c :: l, leD x.CRF (popMax1 c l).1.CRF := by
  intro l
  induction l with
  | nil =>
    intro c x hx
    simp at hx
    subst hx
    simp [popMax1, leD_refl]
  | cons a rest ih =>
    intro c x hx
    have hmax := ih a
    rcases hrec : popMax1 a rest with ⟨m, r⟩
    rw [hrec] at hmax
    rw [popMax1, hrec]
    by_cases hlt : ltD c.CRF m.CRF
    · simp only [hlt, if_true]
      rcases List.mem_cons.mp hx with hx | hx
      · subst hx; exact leD_of_ltD hlt
      · exact hmax x hx
    · simp only [hlt, if_false]
      rcases List.mem_cons.mp hx with hx | hx
      · subst hx; exact leD_refl _
      · exact leD_trans (hmax x hx) (not_ltD_iff.mp hlt)

/-- Popping returns a maximal element together with a permutation of the
rest of the queue. -/
theorem popMax_perm {l : List Candidate} {c : Candidate} {r : List Candidate}
    (h : popMax l = some (c, r)) : l.Perm (c :: r) := by
  cases l with
  | nil => simp [popMax] at h
  | cons a rest =>
    simp only [popMax] at h
    injection h with h
    have := popMax1_perm rest a
    rw [h] at this
    exact this

/-- Popping returns an element at least as large as every element of the
queue. -/
theorem popMax_max {l : List Candidate} {c : Candidate} {r : List Candidate}
    (h : popMax l = some (c, r)) : ∀ x ∈ l, leD x.CRF c.CRF := by
  cases l with
  | nil => simp [popMax] at h
  | cons a rest =>
    simp only [popMax] at h
    injection h with h
    have := popMax1_max rest a
    rw [h] at this
    exact this

/-- Popping a non-empty queue succeeds. -/
theorem popMax_ne_none {l : List Candidate} (h : l ≠ []) :
    popMax l ≠ none := by
  cases l with
  | nil => exact absurd rfl h
  | cons a rest => simp [popMax]

end PopMaxLemmas

section ClaimC7

open Domain

/-- C7 counterexample: the `Domain::BondReturnData` constructor accepts a
matrix whose month count is below the smallest tenor (`M = 1 < 2 = t0`),
although the claim says construction must fail with a too-few-months
error; it also performs no emptiness check on the tenor list and no
sortedness check. -/
theorem C7_counterexample :
    mkBondReturnData [2] 1 [0] =
      Except.ok { tenors := [2], numMonths := 1, grid := [0] } ∧
    (1 : ℤ) < 2 ∧
    isOkExcept (mkBondReturnData [] 1 []) = true ∧
    isOkExcept (mkBondReturnData [3, 2] 1 [0, 0]) = true := by
  refine ⟨?_, by norm_num, by decide, by decide⟩
  decide

/-- C7, amended: the `Domain::BondReturnData` constructor succeeds if and
only if the tenor count fits in `int`, the month count is positive, and
the grid has exactly `n * M` entries; it checks neither `n = 0`, nor
`M ≥ tenors[0]`, nor sortedness of the tenors (the CSV loader performs
those checks before calling it). -/
theorem C7_construct_iff (t : List ℕ) (m : ℤ) (g : List ℚ) :
    isOkExcept (mkBondReturnData t m g) = true ↔
      ((t.length : ℤ) ≤ intMax ∧ 0 < m ∧ g.length = t.length * m.toNat) := by
  constructor
  · intro h
    unfold mkBondReturnData at h
    split_ifs at h with h1 h2 h3
    · simp [isOkExcept] at h
    · simp [isOkExcept] at h
    · simp [isOkExcept] at h
    · exact ⟨le_of_not_lt h1, by omega, by omega⟩
  · rintro ⟨hA, hB, hC⟩
    unfold mkBondReturnData
    rw [if_neg (not_lt.mpr hA), if_neg (by omega), if_neg (by omega)]
    rfl

end ClaimC7

section ClaimC8

open Domain DynamicOptimiser

/-- C8: at the public API boundary of the optimiser, a negative request
fails with the invalid-argument error before anything is computed, and a
zero request, a zero-month matrix or a zero-tenor matrix all return with
both the CRF list and the path list empty. -/
theorem C8_edge_cases (R : BondReturnData) (k : ℤ) :
    (k < 0 → getOptimalSequences R k = Except.error Err.invalidArg) ∧
    (0 ≤ k → (k = 0 ∨ R.numMonths = 0 ∨ R.tenors.length = 0) →
      getOptimalSequences R k = Except.ok { CRFs := [], decisions := [] }) := by
  constructor
  · intro hk
    unfold getOptimalSequences
    rw [if_pos hk]
  · intro hk hcase
    unfold getOptimalSequences
    rw [if_neg (by omega), if_pos hcase]

/-- Witness for C8 at concrete inputs. -/
theorem C8_edge_cases_witness :
    getOptimalSequences { tenors := [1], numMonths := 1, grid := [0] } (-1) =
      Except.error Err.invalidArg ∧
    getOptimalSequences { tenors := [1], numMonths := 1, grid := [0] } 0 =
      Except.ok { CRFs := [], decisions := [] } :=
  ⟨(C8_edge_cases _ (-1)).1 (by norm_num),
   (C8_edge_cases _ 0).2 (by norm_num) (Or.inl rfl)⟩

end ClaimC8

section GetDHelpers

theorem getD_set_neq {α : Type} (l : List α) (i j : ℕ) (v d : α) (h : i ≠ j) :
    (l.set i v).getD j d = l.getD j d := by
  simp only [List.getD_eq_getElem?_getD]
  rw [List.getElem?_set_ne h]

theorem getD_set_self {α : Type} (l : List α) (i : ℕ) (v d : α)
    (h : i < l.length) : (l.set i v).getD i d = v := by
  simp [List.getD_eq_getElem?_getD, List.getElem?_set, h]

theorem getD_replicate {α : Type} (n i : ℕ) (v d : α) (h : i < n) :
    (List.replicate n v).getD i d = v := by
  simp [List.getD_eq_getElem?_getD, List.getElem?_replicate, h]

end GetDHelpers

section PathCounterLemmas

open PathCounter

theorem pureTable_length (tl : List ℕ) :
    ∀ m, (pureTable tl m).length = m + 1 := by
  intro m
  induction m with
  | zero => rfl
  | succ m ih => simp [pureTable, ih]

/-- The break-style running sum equals the filter-style specification sum
when the tenor list is sorted. -/
theorem rowFoldZ_eq_pureRow (tbl : List ℤ) (m : ℕ) :
    ∀ ts : List ℕ, ts.Pairwise (· ≤ ·) → ∀ cur : ℤ,
      rowFoldZ tbl m ts cur = cur + pureRow ts tbl m := by
  intro ts
  induction ts with
  | nil => intro _ cur; simp [rowFoldZ, pureRow]
  | cons t rest ih =>
    intro hsort cur
    have hhead : ∀ x ∈ rest, t ≤ x := (List.pairwise_cons.mp hsort).1
    have hrest : rest.Pairwise (· ≤ ·) := (List.pairwise_cons.mp hsort).2
    by_cases hmt : m < t
    · rw [rowFoldZ, if_pos hmt]
      have hzero : pureRow rest tbl m = 0 := by
        unfold pureRow
        apply List.sum_eq_zero
        intro x hx
        obtain ⟨y, hy, hxy⟩ := List.mem_map.mp hx
        have : ¬ y ≤ m := by
          have := hhead y hy
          omega
        rw [← hxy, if_neg this]
      unfold pureRow
      simp only [List.map_cons, List.sum_cons]
      rw [if_neg (by omega)]
      unfold pureRow at hzero
      rw [hzero]
      ring
    · rw [rowFoldZ, if_neg hmt]
      rw [ih hrest]
      unfold pureRow
      simp only [List.map_cons, List.sum_cons]
      rw [if_pos (by omega)]
      ring

/-- A flagged counter state stays flagged through the inner loop. -/
theorem countInner_overflowed (M i : ℕ) :
    ∀ (ts : List ℕ) (st : CountState), st.overflowed = true →
      (countInner M i ts st).overflowed = true := by
  intro ts
  induction ts with
  | nil => intro st h; simpa [countInner] using h
  | cons t rest ih =>
    intro st h
    rw [countInner]
    by_cases hmt : i < t
    · rw [if_pos hmt]; exact h
    · rw [if_neg hmt, if_neg (by simp [h])]
      exact ih _ (by simp [h])

/-- In exact mode with every headroom check passing, the inner loop adds
`rowFoldZ` into the cell for month `i` and touches nothing else. -/
theorem countInner_exact (M i : ℕ) (base tail : List ℤ) (ap : List D)
    (hlen : base.length = i) :
    ∀ (ts : List ℕ), (∀ t ∈ ts, 1 ≤ t) → ∀ cur : ℤ,
      rowChecks base i ts cur = true →
      countInner M i ts
          { numPaths := base ++ cur :: tail, numPathsApprox := ap,
            overflowed := false } =
        { numPaths := base ++ (rowFoldZ base i ts cur) :: tail,
          numPathsApprox := ap, overflowed := false } := by
  intro ts
  induction ts with
  | nil => intro _ cur _; simp [countInner, rowFoldZ]
  | cons t rest ih =>
    intro hpos cur hchecks
    have ht1 : 1 ≤ t := hpos t (List.mem_cons_self t rest)
    by_cases hmt : i < t
    · rw [countInner, if_pos hmt, rowFoldZ, if_pos hmt]
    · rw [rowChecks, if_neg hmt] at hchecks
      have hgi : (base ++ cur :: tail).getD i 0 = cur := by
        rw [List.getD_append_right base (cur :: tail) 0 i (by omega)]
        simp [hlen]
      have hgit : (base ++ cur :: tail).getD (i - t) 0 = base.getD (i - t) 0 :=
        List.getD_append base (cur :: tail) 0 (i - t) (by omega)
      have hnolt : ¬ (maxLL - cur < base.getD (i - t) 0) := by
        by_contra hc
        rw [if_pos hc] at hchecks
        exact Bool.false_ne_true hchecks
      rw [if_neg hnolt] at hchecks
      rw [countInner, if_neg hmt]
      simp only [hgi, hgit, eq_self_iff_true, if_true]
      rw [if_neg hnolt]
      have hset : (base ++ cur :: tail).set i (cur + base.getD (i - t) 0) =
          base ++ (cur + base.getD (i - t) 0) :: tail := by
        have h0 : i = base.length + 0 := by omega
        rw [h0, List.set_append]
        simp
      rw [hset]
      rw [ih (fun x hx => hpos x (List.mem_cons_of_mem t hx)) _ hchecks]
      rw [rowFoldZ, if_neg hmt]

/-- In exact mode with a failing headroom check somewhere in the row, the
inner loop promotes and ends flagged. -/
theorem countInner_promotes (M i : ℕ) (base tail : List ℤ) (ap : List D)
    (hlen : base.length = i) :
    ∀ (ts : List ℕ), (∀ t ∈ ts, 1 ≤ t) → ∀ cur : ℤ,
      rowChecks base i ts cur = false →
      (countInner M i ts
          { numPaths := base ++ cur :: tail, numPathsApprox := ap,
            overflowed := false }).overflowed = true := by
  intro ts
  induction ts with
  | nil => intro _ cur h; simp [rowChecks] at h
  | cons t rest ih =>
    intro hpos cur hchecks
    have ht1 : 1 ≤ t := hpos t (List.mem_cons_self t rest)
    by_cases hmt : i < t
    · rw [rowChecks, if_pos hmt] at hchecks
      exact absurd hchecks (by simp)
    · rw [rowChecks, if_neg hmt] at hchecks
      have hgi : (base ++ cur :: tail).getD i 0 = cur := by
        rw [List.getD_append_right base (cur :: tail) 0 i (by omega)]
        simp [hlen]
      have hgit : (base ++ cur :: tail).getD (i - t) 0 = base.getD (i - t) 0 :=
        List.getD_append base (cur :: tail) 0 (i - t) (by omega)
      rw [countInner, if_neg hmt]
      simp only [hgi, hgit, eq_self_iff_true, if_true]
      by_cases hlt : maxLL - cur < base.getD (i - t) 0
      · rw [if_pos hlt]
        exact countInner_overflowed M i rest _ rfl
      · rw [if_neg hlt]
        rw [if_neg hlt] at hchecks
        have hset : (base ++ cur :: tail).set i (cur + base.getD (i - t) 0) =
            base ++ (cur + base.getD (i - t) 0) :: tail := by
          have h0 : i = base.length + 0 := by omega
          rw [h0, List.set_append]
          simp
        rw [hset]
        exact ih (fun x hx => hpos x (List.mem_cons_of_mem t hx)) _ hchecks

end PathCounterLemmas

section PathCounterMain

open PathCounter

/-- While no headroom check has failed, the counting state is the ideal
table padded with zeros, in exact mode. -/
theorem countUpTo_exact (tl : List ℕ) (hpos : ∀ t ∈ tl, 1 ≤ t)
    (hsort : tl.Pairwise (· ≤ ·)) (M : ℕ) :
    ∀ i, i ≤ M → noOverflowUpTo tl i = true →
      countUpTo tl M i =
        { numPaths := pureTable tl i ++ List.replicate (M - i) 0,
          numPathsApprox := [], overflowed := false } := by
  intro i
  induction i with
  | zero =>
    intro _ _
    simp [countUpTo, pureTable]
  | succ i ih =>
    intro hiM hno
    rw [noOverflowUpTo, Bool.and_eq_true] at hno
    have hstate := ih (by omega) hno.1
    rw [countUpTo, hstate]
    have hrep : List.replicate (M - i) (0 : ℤ) =
        (0 : ℤ) :: List.replicate (M - (i + 1)) 0 := by
      have h0 : M - i = (M - (i + 1)) + 1 := by omega
      rw [h0, List.replicate_succ]
    rw [hrep]
    rw [countInner_exact M (i + 1) (pureTable tl i)
      (List.replicate (M - (i + 1)) 0) [] (pureTable_length tl i) tl hpos 0 hno.2]
    have hval : rowFoldZ (pureTable tl i) (i + 1) tl 0 =
        pureRow tl (pureTable tl i) (i + 1) := by
      rw [rowFoldZ_eq_pureRow _ _ tl hsort 0]
      ring
    rw [hval]
    have htbl : pureTable tl (i + 1) =
        pureTable tl i ++ [pureRow tl (pureTable tl i) (i + 1)] := rfl
    rw [htbl]
    simp

/-- Once a headroom check has failed, the state is flagged. -/
theorem countUpTo_overflowed (tl : List ℕ) (hpos : ∀ t ∈ tl, 1 ≤ t)
    (hsort : tl.Pairwise (· ≤ ·)) (M : ℕ) :
    ∀ i, i ≤ M → noOverflowUpTo tl i = false →
      (countUpTo tl M i).overflowed = true := by
  intro i
  induction i with
  | zero => intro _ h; simp [noOverflowUpTo] at h
  | succ i ih =>
    intro hiM hno
    rw [noOverflowUpTo, Bool.and_eq_false_iff] at hno
    rcases hno with hno | hno
    · have := ih (by omega) hno
      rw [countUpTo]
      exact countInner_overflowed M (i + 1) tl _ this
    · by_cases hprev : noOverflowUpTo tl i = true
      · have hstate := countUpTo_exact tl hpos hsort M i (by omega) hprev
        rw [countUpTo, hstate]
        have hrep : List.replicate (M - i) (0 : ℤ) =
            (0 : ℤ) :: List.replicate (M - (i + 1)) 0 := by
          have h0 : M - i = (M - (i + 1)) + 1 := by omega
          rw [h0, List.replicate_succ]
        rw [hrep]
        exact countInner_promotes M (i + 1) (pureTable tl i)
          (List.replicate (M - (i + 1)) 0) [] (pureTable_length tl i) tl hpos 0 hno
      · have := ih (by omega) (by simpa using hprev)
        rw [countUpTo]
        exact countInner_overflowed M (i + 1) tl _ this

/-- The augmented tenor list `1 :: tl` is sorted non-decreasingly and
positive when `tl` is strictly sorted and positive. -/
theorem one_cons_sorted (tl : List ℕ) (hsorted : tl.Pairwise (· < ·))
    (hpos : ∀ t ∈ tl, 0 < t) :
    (∀ t ∈ 1 :: tl, 1 ≤ t) ∧ (1 :: tl).Pairwise (· ≤ ·) := by
  constructor
  · intro t ht
    rcases List.mem_cons.mp ht with h | h
    · omega
    · exact hpos t h
  · rw [List.pairwise_cons]
    exact ⟨fun a ha => hpos a ha, hsorted.imp le_of_lt⟩

end PathCounterMain

section ClaimC4

open PathCounter

/-- C4 counterexample: the Path Counter does not compute the
union-of-tenors recurrence the claim states.  `countPaths` inserts the
wait tenor 1 in front of the tenor list without deduplication, so for
`tenors = [1]`, `M = 1` it counts the one-month buy and the one-month
wait as two distinct paths (`Exact 2`), whereas the claimed recurrence
over `tenors ∪ {1} = {1}` gives 1. -/
theorem C4_counterexample :
    countPaths [1] 1 = PathCount.Exact 2 ∧
    specUnionCount [1] 1 = 1 ∧
    countPaths [1] 1 ≠ PathCount.Exact (specUnionCount [1] 1) := by
  refine ⟨by decide, by decide, by decide⟩

/-- C4, amended: for a strictly sorted positive tenor list and any
horizon whose exact DP never overflows, the Path Counter returns exactly
the count defined by `P[0] = 1`,
`P[m] = sum of P[m - t] over the list 1 :: tenors` (each occurrence
counted, so a tenor equal to 1 contributes in addition to the wait step)
with `P[m - t] = 0` for `t > m`. -/
theorem C4_count_recurrence (tl : List ℕ) (M : ℕ)
    (hsorted : tl.Pairwise (· < ·)) (hpos : ∀ t ∈ tl, 0 < t)
    (hno : noOverflowUpTo (1 :: tl) M = true) :
    countPaths tl M = PathCount.Exact (pureP (1 :: tl) M) := by
  obtain ⟨hpos1, hsort1⟩ := one_cons_sorted tl hsorted hpos
  simp only [countPaths]
  rw [countUpTo_exact (1 :: tl) hpos1 hsort1 M M (le_refl M) hno]
  simp [pureP]

/-- Witness for the amended C4 at a concrete input. -/
theorem C4_count_recurrence_witness :
    noOverflowUpTo [1, 2] 5 = true ∧
    countPaths [2] 5 = PathCount.Exact (pureP [1, 2] 5) :=
  ⟨by decide, C4_count_recurrence [2] 5 (by decide) (by decide) (by decide)⟩

end ClaimC4

section ClaimC6

open PathCounter

/-- C6: the Path Counter runs in exact signed 64-bit arithmetic and
returns an `Exact` count precisely when no addition of the DP would
overflow (headroom never below the addend); when some addition would
overflow it promotes and returns an `Approx` count instead. -/
theorem C6_exact_iff_no_overflow (tl : List ℕ) (M : ℕ)
    (hsorted : tl.Pairwise (· < ·)) (hpos : ∀ t ∈ tl, 0 < t) :
    ((∃ c, countPaths tl M = PathCount.Exact c) ↔
      noOverflowUpTo (1 :: tl) M = true) ∧
    (noOverflowUpTo (1 :: tl) M = false →
      ∃ x, countPaths tl M = PathCount.Approx x) := by
  obtain ⟨hpos1, hsort1⟩ := one_cons_sorted tl hsorted hpos
  have happrox : noOverflowUpTo (1 :: tl) M = false →
      ∃ x, countPaths tl M = PathCount.Approx x := by
    intro hno
    have hflag := countUpTo_overflowed (1 :: tl) hpos1 hsort1 M M (le_refl M) hno
    simp only [countPaths]
    rw [hflag]
    refine ⟨(countUpTo (1 :: tl) M M).numPathsApprox.getD M (D.fin 0), ?_⟩
    simp
  refine ⟨⟨?_, ?_⟩, happrox⟩
  · rintro ⟨c, hc⟩
    by_contra hno
    obtain ⟨x, hx⟩ := happrox (by simpa using hno)
    rw [hc] at hx
    exact PathCount.noConfusion hx
  · intro hno
    simp only [countPaths]
    rw [countUpTo_exact (1 :: tl) hpos1 hsort1 M M (le_refl M) hno]
    refine ⟨(pureTable (1 :: tl) M).getD M 0, ?_⟩
    simp

/-- Witness for C6: with `tenors = [1]` the exact count doubles each
month and first loses headroom at month 63, where the counter promotes
and returns an approximate count. -/
theorem C6_exact_iff_no_overflow_witness :
    ((∃ c, countPaths [1] 62 = PathCount.Exact c) ↔
      noOverflowUpTo [1, 1] 62 = true) ∧
    (noOverflowUpTo [1, 1] 63 = false →
      ∃ x, countPaths [1] 63 = PathCount.Approx x) :=
  ⟨(C6_exact_iff_no_overflow [1] 62 (by decide) (by decide)).1,
   (C6_exact_iff_no_overflow [1] 63 (by decide) (by decide)).2⟩

end ClaimC6

section WalkLemmas

open DynamicOptimiser

theorem bind_ok_eq {e a b : Type} (x : a) (f : a → Except e b) :
    (Except.ok x >>= f) = f x := rfl

theorem bind_error_eq {e a b : Type} (err : e) (f : a → Except e b) :
    ((Except.error err : Except e a) >>= f) = Except.error err := rfl

theorem pure_eq_ok {e a : Type} (x : a) : (pure x : Except e a) = Except.ok x := rfl

theorem mkInvestmentAction_ok {a : ActKind} {cm len : ℤ} {act : InvestmentAction}
    (h : mkInvestmentAction a cm len = Except.ok act) :
    act = { action := a, startMonth := cm, length := len } ∧ 0 ≤ cm ∧ 0 < len := by
  unfold mkInvestmentAction at h
  by_cases h1 : cm < 0
  · rw [if_pos h1] at h; exact Except.noConfusion h
  · rw [if_neg h1] at h
    by_cases h2 : len ≤ 0
    · rw [if_pos h2] at h; exact Except.noConfusion h
    · rw [if_neg h2] at h
      exact ⟨(Except.ok.inj h).symm, by omega, by omega⟩

theorem mkInvestmentAction_ok_of {a : ActKind} {cm len : ℤ}
    (h1 : 0 ≤ cm) (h2 : 0 < len) :
    mkInvestmentAction a cm len =
      Except.ok { action := a, startMonth := cm, length := len } := by
  unfold mkInvestmentAction
  rw [if_neg (by omega), if_neg (by omega)]

theorem mkInvestmentAction_error {a : ActKind} {cm len : ℤ}
    (h : cm < 0 ∨ len ≤ 0) :
    mkInvestmentAction a cm len = Except.error Err.badAction := by
  unfold mkInvestmentAction
  by_cases h1 : cm < 0
  · rw [if_pos h1]
  · rw [if_neg h1, if_pos (by omega)]

theorem noAdjacentWaits_cons_buy {b : InvestmentAction}
    (hb : b.action = ActKind.Buy) (xs : List InvestmentAction)
    (hxs : NoAdjacentWaits xs) : NoAdjacentWaits (b :: xs) := by
  cases xs with
  | nil => trivial
  | cons x rest =>
    refine ⟨fun hc => ?_, hxs⟩
    rw [hb] at hc
    exact ActKind.noConfusion hc.1

/-- Any successful reconstruction walk produces exactly the actions
appended to `acc`, all with positive lengths and non-negative start
months (the constructor checks), with no two adjacent waits, reversed at
the end. -/
theorem walkPath_ok_structure (decs : List (List (ℤ × ℤ))) :
    ∀ (fuel : ℕ) (cm pr : ℤ) (streak : ℕ) (acc out : List InvestmentAction),
      walkPath decs fuel cm pr streak acc = Except.ok out →
      ∃ gen, out = (acc ++ gen).reverse ∧
        (∀ a ∈ gen, 0 < a.length ∧ 0 ≤ a.startMonth) ∧ NoAdjacentWaits gen := by
  intro fuel
  induction fuel with
  | zero => intro cm pr streak acc out h; exact Except.noConfusion h
  | succ fuel ih =>
    intro cm pr streak acc out h
    rw [walkPath] at h
    by_cases hz : cm ≤ 0
    · rw [if_pos hz] at h
      by_cases hs : 0 < streak
      · rw [if_pos hs] at h
        rw [mkInvestmentAction_ok_of (le_refl 0) (by exact_mod_cast hs)] at h
        simp only [bind_ok_eq] at h
        refine ⟨[{ action := ActKind.Wait, startMonth := 0, length := (streak : ℤ) }],
          (Except.ok.inj h).symm, ?_, trivial⟩
        intro a ha
        rw [List.mem_singleton] at ha
        subst ha
        refine ⟨?_, ?_⟩
        · show (0 : ℤ) < (streak : ℤ)
          exact_mod_cast hs
        · show (0 : ℤ) ≤ (0 : ℤ)
          exact le_refl 0
      · rw [if_neg hs] at h
        refine ⟨[], by simpa using (Except.ok.inj h).symm, ?_, trivial⟩
        intro a ha
        cases ha
    · rw [if_neg hz] at h
      by_cases hwait : (getDec decs cm pr).1 = 0
      · rw [if_pos hwait] at h
        exact ih (cm - 1) (getDec decs cm pr).2 (streak + 1) acc out h
      · rw [if_neg hwait] at h
        set t := (getDec decs cm pr).1 with hteq
        by_cases hbuy : 0 < t
        · have hmk : mkInvestmentAction ActKind.Buy cm t =
              Except.ok { action := ActKind.Buy, startMonth := cm, length := t } :=
            mkInvestmentAction_ok_of (by omega) hbuy
          by_cases hs : 0 < streak
          · rw [if_pos hs] at h
            rw [mkInvestmentAction_ok_of (by omega) (by exact_mod_cast hs)] at h
            simp only [bind_ok_eq, pure_eq_ok] at h
            rw [hmk] at h
            simp only [bind_ok_eq] at h
            obtain ⟨gen, hout, hprops, hadj⟩ :=
              ih (cm - t) (getDec decs cm pr).2 0
                ((acc ++ [{ action := ActKind.Wait, startMonth := cm, length := (streak : ℤ) }]) ++
                  [{ action := ActKind.Buy, startMonth := cm, length := t }]) out h
            refine ⟨{ action := ActKind.Wait, startMonth := cm, length := (streak : ℤ) } ::
              { action := ActKind.Buy, startMonth := cm, length := t } :: gen, ?_, ?_, ?_⟩
            · rw [hout]; simp
            · intro a ha
              rcases List.mem_cons.mp ha with ha | ha
              · subst ha
                refine ⟨?_, ?_⟩
                · show (0 : ℤ) < (streak : ℤ)
                  exact_mod_cast hs
                · show (0 : ℤ) ≤ cm
                  omega
              rcases List.mem_cons.mp ha with ha | ha
              · subst ha
                refine ⟨hbuy, ?_⟩
                show (0 : ℤ) ≤ cm
                omega
              · exact hprops a ha
            · refine ⟨fun hc => ActKind.noConfusion hc.2, ?_⟩
              exact noAdjacentWaits_cons_buy rfl gen hadj
          · rw [if_neg hs] at h
            simp only [bind_ok_eq, pure_eq_ok] at h
            rw [hmk] at h
            simp only [bind_ok_eq] at h
            obtain ⟨gen, hout, hprops, hadj⟩ :=
              ih (cm - t) (getDec decs cm pr).2 0
                (acc ++ [{ action := ActKind.Buy, startMonth := cm, length := t }]) out h
            refine ⟨{ action := ActKind.Buy, startMonth := cm, length := t } :: gen, ?_, ?_, ?_⟩
            · rw [hout]; simp
            · intro a ha
              rcases List.mem_cons.mp ha with ha | ha
              · subst ha
                refine ⟨hbuy, ?_⟩
                show (0 : ℤ) ≤ cm
                omega
              · exact hprops a ha
            · exact noAdjacentWaits_cons_buy rfl gen hadj
        · exfalso
          have herr : mkInvestmentAction ActKind.Buy cm t = Except.error Err.badAction :=
            mkInvestmentAction_error (by omega)
          by_cases hs : 0 < streak
          · rw [if_pos hs] at h
            rw [mkInvestmentAction_ok_of (by omega) (by exact_mod_cast hs)] at h
            simp only [bind_ok_eq, pure_eq_ok] at h
            rw [herr] at h
            simp only [bind_error_eq] at h
            exact Except.noConfusion h
          · rw [if_neg hs] at h
            simp only [bind_ok_eq, pure_eq_ok] at h
            rw [herr] at h
            simp only [bind_error_eq] at h
            exact Except.noConfusion h

end WalkLemmas

section ReverseBridges

open DynamicOptimiser

theorem bind_eq_ok {e a b : Type} {x : Except e a} {f : a → Except e b}
    {out : b} (h : (x >>= f) = Except.ok out) :
    ∃ v, x = Except.ok v ∧ f v = Except.ok out := by
  cases x with
  | ok v => exact ⟨v, rfl, h⟩
  | error err => exact Except.noConfusion h

theorem noAdjacentWaits_iff_chain (l : List DynamicOptimiser.InvestmentAction) :
    NoAdjacentWaits l ↔
      l.Chain' (fun a b => ¬(a.action = ActKind.Wait ∧ b.action = ActKind.Wait)) := by
  induction l with
  | nil => simp [NoAdjacentWaits]
  | cons a rest ih =>
    cases rest with
    | nil => simp [NoAdjacentWaits]
    | cons b r2 =>
      rw [List.chain'_cons]
      exact and_congr Iff.rfl ih

theorem noAdjacentWaits_reverse {l : List DynamicOptimiser.InvestmentAction}
    (h : NoAdjacentWaits l) : NoAdjacentWaits l.reverse := by
  rw [noAdjacentWaits_iff_chain] at h ⊢
  rw [List.chain'_reverse]
  exact h.imp (fun {a b} hab => fun hc => hab ⟨hc.2, hc.1⟩)

end ReverseBridges

section ReconMembership

open DynamicOptimiser

theorem reconPathsAux_mem (decs : List (List (ℤ × ℤ))) (numMonths : ℕ) :
    ∀ (ranks : List ℕ) (acc out : List (List InvestmentAction)),
      reconPathsAux decs numMonths ranks acc = Except.ok out →
      ∀ p ∈ out, p ∈ acc ∨
        ∃ r : ℕ, walkPath decs (numMonths + 1) (numMonths : ℤ) (r : ℤ) 0 [] =
          Except.ok p := by
  intro ranks
  induction ranks with
  | nil =>
    intro acc out h p hp
    rw [reconPathsAux] at h
    rw [← Except.ok.inj h] at hp
    exact Or.inl hp
  | cons r rest ih =>
    intro acc out h p hp
    rw [reconPathsAux] at h
    by_cases hbr : (getDec decs (numMonths : ℤ) (r : ℤ)).1 = -1
    · rw [if_pos hbr] at h
      rw [← Except.ok.inj h] at hp
      exact Or.inl hp
    · rw [if_neg hbr] at h
      obtain ⟨q, hq, hrest⟩ := bind_eq_ok h
      rcases ih (acc ++ [q]) out hrest p hp with hmem | hex
      · rcases List.mem_append.mp hmem with hmem | hmem
        · exact Or.inl hmem
        · simp at hmem
          subst hmem
          exact Or.inr ⟨r, hq⟩
      · exact Or.inr hex

/-- Every action sequence produced by a successful `getOptimalSequences`
is the reversal of a backward walk whose actions all have positive
lengths and non-negative start months, with no two adjacent waits. -/
theorem getOptimalSequences_paths (R : Domain.BondReturnData) (k : ℤ)
    (res : OptimalResults) (h : getOptimalSequences R k = Except.ok res) :
    ∀ p ∈ res.decisions, ∃ gen,
      p = gen.reverse ∧ (∀ a ∈ gen, 0 < a.length ∧ 0 ≤ a.startMonth) ∧
      NoAdjacentWaits gen := by
  intro p hp
  unfold getOptimalSequences at h
  by_cases h1 : k < 0
  · rw [if_pos h1] at h; exact Except.noConfusion h
  · rw [if_neg h1] at h
    by_cases h2 : k = 0 ∨ R.numMonths = 0 ∨ R.tenors.length = 0
    · rw [if_pos h2] at h
      rw [← Except.ok.inj h] at hp
      cases hp
    · rw [if_neg h2] at h
      obtain ⟨st, hst, h⟩ := bind_eq_ok h
      obtain ⟨paths, hpaths, h⟩ := bind_eq_ok h
      have hres : res.decisions = paths := by
        rw [← Except.ok.inj h]
      rw [hres] at hp
      unfold reconstructPaths at hpaths
      rcases reconPathsAux_mem st.decisions R.numMonths _ [] paths hpaths p hp with
        hmem | ⟨r, hwalk⟩
      · cases hmem
      · obtain ⟨gen, hout, hprops, hadj⟩ :=
          walkPath_ok_structure st.decisions (R.numMonths + 1) (R.numMonths : ℤ)
            (r : ℤ) 0 [] p hwalk
        exact ⟨gen, by simpa using hout, hprops, hadj⟩

end ReconMembership

section MergeExpand

open DynamicOptimiser

theorem noAdjacentWaits_tail {a : InvestmentAction}
    {rest : List InvestmentAction} (h : NoAdjacentWaits (a :: rest)) :
    NoAdjacentWaits rest := by
  cases rest with
  | nil => trivial
  | cons b r2 => exact h.2

theorem mergeWaits_nil : mergeWaits [] = [] := by
  rw [mergeWaits]

theorem mergeWaits_single (a : InvestmentAction) : mergeWaits [a] = [a] := by
  rw [mergeWaits]

theorem mergeWaits_cons_buy {a : InvestmentAction} (ha : a.action = ActKind.Buy)
    (xs : List InvestmentAction) : mergeWaits (a :: xs) = a :: mergeWaits xs := by
  cases xs with
  | nil => rw [mergeWaits_single, mergeWaits_nil]
  | cons b r =>
    rw [mergeWaits]
    rw [if_neg (fun hc => by rw [ha] at hc; exact ActKind.noConfusion hc.1)]

theorem mergeWaits_merge_mk (ws wl bs bl : ℤ) (xs : List InvestmentAction) :
    mergeWaits (InvestmentAction.mk ActKind.Wait ws wl ::
        InvestmentAction.mk ActKind.Wait bs bl :: xs) =
      mergeWaits (InvestmentAction.mk ActKind.Wait ws (wl + bl) :: xs) := by
  rw [mergeWaits]
  rw [if_pos ⟨rfl, rfl⟩]

/-- A run of `l` unit waits after a wait is absorbed into a single wait
of the summed length, provided the run is followed by a buy or by
nothing. -/
theorem mergeWaits_units (q : List InvestmentAction)
    (hq : q = [] ∨ ∃ b q2, q = b :: q2 ∧ b.action = ActKind.Buy) :
    ∀ (l : ℕ) (s ws wl : ℤ),
      mergeWaits (InvestmentAction.mk ActKind.Wait ws wl ::
          (((List.range l).map
            (fun j : ℕ => InvestmentAction.mk ActKind.Wait (s + (j : ℤ)) 1)) ++ q)) =
        InvestmentAction.mk ActKind.Wait ws (wl + l) :: mergeWaits q := by
  intro l
  induction l with
  | zero =>
    intro s ws wl
    simp only [List.range_zero, List.map_nil, List.nil_append, Nat.cast_zero,
      add_zero]
    rcases hq with hq | ⟨b, q2, hq, hb⟩
    · subst hq
      rw [mergeWaits_single, mergeWaits_nil]
    · subst hq
      rw [mergeWaits]
      rw [if_neg (fun hc => by rw [hb] at hc; exact ActKind.noConfusion hc.2)]
  | succ l ih =>
    intro s ws wl
    rw [List.range_succ_eq_map, List.map_cons, List.map_map]
    have hmaps : (List.range l).map
        ((fun j : ℕ => InvestmentAction.mk ActKind.Wait (s + (j : ℤ)) 1) ∘ Nat.succ) =
        (List.range l).map
          (fun j : ℕ => InvestmentAction.mk ActKind.Wait ((s + 1) + (j : ℤ)) 1) := by
      apply List.map_congr_left
      intro j _
      simp only [Function.comp]
      congr 1
      push_cast
      ring
    rw [hmaps]
    simp only [Nat.cast_zero, add_zero, List.cons_append]
    rw [mergeWaits_merge_mk]
    rw [ih (s + 1) ws (wl + 1)]
    have harith : wl + 1 + (l : ℤ) = wl + ((l + 1 : ℕ) : ℤ) := by
      push_cast
      ring
    rw [harith]

/-- Merging the unit-wait expansion of a path recovers the path, when
the path has no adjacent waits and positive lengths: every maximal run
of unit waits of the underlying chain appears as exactly one wait. -/
theorem mergeWaits_expandUnit :
    ∀ p : List InvestmentAction, NoAdjacentWaits p →
      (∀ a ∈ p, 0 < a.length) → mergeWaits (expandUnit p) = p := by
  intro p
  induction p with
  | nil => intro _ _; exact mergeWaits_nil
  | cons a rest ih =>
    intro hadj hpos
    have htail := noAdjacentWaits_tail hadj
    have hpostail : ∀ x ∈ rest, 0 < x.length :=
      fun x hx => hpos x (List.mem_cons_of_mem a hx)
    have hrec := ih htail hpostail
    cases hact : a.action with
    | Buy =>
      rw [expandUnit, if_neg (by rw [hact]; exact fun hc => ActKind.noConfusion hc)]
      rw [mergeWaits_cons_buy hact, hrec]
    | Wait =>
      have hq : expandUnit rest = [] ∨
          ∃ b q2, expandUnit rest = b :: q2 ∧ b.action = ActKind.Buy := by
        cases rest with
        | nil => exact Or.inl rfl
        | cons b r2 =>
          have hbnw : ¬ b.action = ActKind.Wait := fun hbw => hadj.1 ⟨hact, hbw⟩
          have hbb : b.action = ActKind.Buy := by
            cases hba : b.action
            · rfl
            · exact absurd hba hbnw
          rw [expandUnit, if_neg hbnw]
          exact Or.inr ⟨b, expandUnit r2, rfl, hbb⟩
      have hlenpos : 0 < a.length := hpos a (List.mem_cons_self a rest)
      obtain ⟨act, sm, ln⟩ := a
      have hact2 : act = ActKind.Wait := hact
      subst hact2
      have hlnpos : 0 < ln := hlenpos
      obtain ⟨l, hl⟩ : ∃ l, ln.toNat = l + 1 := ⟨ln.toNat - 1, by omega⟩
      rw [expandUnit, if_pos rfl]
      have htn : (InvestmentAction.mk ActKind.Wait sm ln).length.toNat = l + 1 := hl
      rw [htn]
      rw [List.range_succ_eq_map, List.map_cons, List.map_map]
      have hmaps : (List.range l).map
          ((fun j : ℕ => InvestmentAction.mk ActKind.Wait
            ((InvestmentAction.mk ActKind.Wait sm ln).startMonth + (j : ℤ)) 1) ∘ Nat.succ) =
          (List.range l).map
            (fun j : ℕ => InvestmentAction.mk ActKind.Wait ((sm + 1) + (j : ℤ)) 1) := by
        apply List.map_congr_left
        intro j _
        simp only [Function.comp]
        congr 1
        push_cast
        ring
      rw [hmaps]
      simp only [Nat.cast_zero, add_zero, List.cons_append]
      rw [mergeWaits_units (expandUnit rest) hq l (sm + 1) sm 1]
      rw [hrec]
      have hln : 1 + (l : ℤ) = ln := by omega
      rw [hln]

end MergeExpand


section MAXDValue

/-- The `MAXD` numeral is the usual closed form of the largest finite
IEEE-754 double. -/
theorem MAXD_eq : MAXD = (2 ^ 53 - 1) * 2 ^ 971 := by
  unfold MAXD
  norm_num

end MAXDValue

section ClaimC5

open DynamicOptimiser

set_option maxRecDepth 8000 in
/-- C5 (code bug): the claim's start-month formula does not match the
program.  `reconstructPaths` appends each Buy with start month equal to
the current month — the MATURITY month — and only then steps the month
down by the tenor (src/app/counter/PathCounter.cpp lines 210-215), while
the claim (and the spec, and the older scalar optimiser in
src/optimisers/DynamicOptimiser.cpp lines 102-107) states
start_month = current_month - tenor, the purchase month.  On the valid
matrix tenors = [3], M = 3, all HPRs 1/100, the unique optimal path buys
the tenor-3 bond at month 0, yet the engine returns the single action
Buy with start month 3, not 3 - 3 = 0. -/
theorem C5_buy_start_month :
    getOptimalSequences { tenors := [3], numMonths := 3, grid := [1/100, 1/100, 1/100] } 1 =
      Except.ok (OptimalResults.mk [D.fin (101/100)]
        [[InvestmentAction.mk ActKind.Buy 3 3]]) ∧
    (InvestmentAction.mk ActKind.Buy 3 3).startMonth ≠
      3 - (InvestmentAction.mk ActKind.Buy 3 3).length := by
  refine ⟨by with_unfolding_all decide, by decide⟩

end ClaimC5

section ClaimC9

open DynamicOptimiser

/-- C9: in every action sequence returned by `getOptimalSequences`,
adjacent waits are merged: no two consecutive actions are both waits,
every action (in particular every wait) has positive length, and merging
the adjacent waits of the underlying unit-step chain reproduces the
sequence exactly — a maximal run of `w` unit waits appears as exactly
one wait of length `w`. -/
theorem C9_waits_merged (R : Domain.BondReturnData) (k : ℤ)
    (res : OptimalResults) (h : getOptimalSequences R k = Except.ok res) :
    ∀ p ∈ res.decisions,
      NoAdjacentWaits p ∧ (∀ a ∈ p, 0 < a.length) ∧
      mergeWaits (expandUnit p) = p := by
  intro p hp
  obtain ⟨gen, hrev, hprops, hadj⟩ := getOptimalSequences_paths R k res h p hp
  have hadjp : NoAdjacentWaits p := by
    rw [hrev]
    exact noAdjacentWaits_reverse hadj
  have hposp : ∀ a ∈ p, 0 < a.length := by
    intro a hap
    rw [hrev] at hap
    exact (hprops a (List.mem_reverse.mp hap)).1
  exact ⟨hadjp, hposp, mergeWaits_expandUnit p hadjp hposp⟩

set_option maxRecDepth 8000 in
/-- Witness for C9 at a concrete run whose optimal path contains a
three-month wait merged from three unit waits. -/
theorem C9_waits_merged_witness :
    NoAdjacentWaits [InvestmentAction.mk ActKind.Wait 0 3] ∧
    (∀ a ∈ [InvestmentAction.mk ActKind.Wait 0 3], 0 < a.length) ∧
    mergeWaits (expandUnit [InvestmentAction.mk ActKind.Wait 0 3]) =
      [InvestmentAction.mk ActKind.Wait 0 3] :=
  C9_waits_merged
    { tenors := [1], numMonths := 3, grid := [-1 / 2, -1 / 2, -1 / 2] } 1
    (OptimalResults.mk [D.fin 1] [[InvestmentAction.mk ActKind.Wait 0 3]])
    (by with_unfolding_all decide)
    [InvestmentAction.mk ActKind.Wait 0 3] (by decide)

end ClaimC9

section DLemmas

theorem leD_antisymm {x y : D} (h1 : leD x y) (h2 : leD y x) : x = y := by
  cases x <;> cases y <;> simp_all [leD]
  exact le_antisymm h1 h2

theorem MAXD_pos : (0 : ℚ) < MAXD := by
  unfold MAXD
  norm_num

theorem satD_fin {q q2 : ℚ} (h : satD q = D.fin q2) :
    q2 = q ∧ -MAXD ≤ q ∧ q ≤ MAXD := by
  unfold satD at h
  by_cases h1 : MAXD < q
  · rw [if_pos h1] at h
    exact D.noConfusion h
  · rw [if_neg h1] at h
    by_cases h2 : q < -MAXD
    · rw [if_pos h2] at h
      exact D.noConfusion h
    · rw [if_neg h2] at h
      exact ⟨(D.fin.inj h).symm, by linarith, by linarith⟩

theorem satD_of_bounds {q : ℚ} (h1 : -MAXD ≤ q) (h2 : q ≤ MAXD) :
    satD q = D.fin q := by
  unfold satD
  rw [if_neg (by linarith), if_neg (by linarith)]

theorem mulD_fin_notinf {x : D} {f : ℚ} (h : isinfD (mulD x f) = false) :
    ∃ q, mulD x f = D.fin q ∧ -MAXD ≤ q ∧ q ≤ MAXD := by
  cases x with
  | fin a =>
    simp only [mulD] at h ⊢
    cases hs : satD (a * f) with
    | fin q =>
      obtain ⟨hq, hb1, hb2⟩ := satD_fin hs
      exact ⟨q, rfl, by rw [hq]; exact hb1, by rw [hq]; exact hb2⟩
    | ninf => rw [hs] at h; simp [isinfD] at h
    | pinf => rw [hs] at h; simp [isinfD] at h
  | ninf =>
    simp only [mulD] at h ⊢
    by_cases h1 : 0 < f
    · rw [if_pos h1] at h; simp [isinfD] at h
    · rw [if_neg h1] at h
      by_cases h2 : f < 0
      · rw [if_pos h2] at h; simp [isinfD] at h
      · rw [if_neg h1, if_neg h2]
        exact ⟨0, rfl, by linarith [MAXD_pos], by linarith [MAXD_pos]⟩
  | pinf =>
    simp only [mulD] at h ⊢
    by_cases h1 : 0 < f
    · rw [if_pos h1] at h; simp [isinfD] at h
    · rw [if_neg h1] at h
      by_cases h2 : f < 0
      · rw [if_pos h2] at h; simp [isinfD] at h
      · rw [if_neg h1, if_neg h2]
        exact ⟨0, rfl, by linarith [MAXD_pos], by linarith [MAXD_pos]⟩

theorem mulD_one {q : ℚ} (h1 : -MAXD ≤ q) (h2 : q ≤ MAXD) :
    mulD (D.fin q) 1 = D.fin q := by
  simp only [mulD, mul_one]
  exact satD_of_bounds h1 h2

theorem satD_mono {a b : ℚ} (h : a ≤ b) : leD (satD a) (satD b) := by
  unfold satD
  split_ifs
  all_goals first
  | (simp [leD]; done)
  | (simp only [leD]; linarith)
  | linarith

theorem mulD_mono {x y : D} {f : ℚ} (hf : 0 ≤ f) (h : leD x y) :
    leD (mulD x f) (mulD y f) := by
  rcases eq_or_lt_of_le hf with hf0 | hfpos
  · have hz : f = 0 := hf0.symm
    subst hz
    have hfin0 : satD 0 = D.fin 0 :=
      satD_of_bounds (by linarith [MAXD_pos]) (by linarith [MAXD_pos])
    cases x <;> cases y <;>
      simp_all [mulD, leD, mul_zero, hfin0]
  · cases x with
    | ninf =>
      cases y <;> simp only [mulD, if_pos hfpos] <;> exact leD_ninf _
    | fin a =>
      cases y with
      | ninf => simp [leD] at h
      | fin b =>
        have hab : a ≤ b := h
        simp only [mulD]
        exact satD_mono (by nlinarith)
      | pinf =>
        simp only [mulD, if_pos hfpos]
        unfold satD
        split_ifs <;> simp [leD]
    | pinf =>
      cases y with
      | ninf => simp [leD] at h
      | fin b => simp [leD] at h
      | pinf => simp [mulD, if_pos hfpos, leD]

end DLemmas

section ScalarLemmas

open Domain ScalarOptimiser

theorem scalarTable_length (R : BondReturnData) :
    ∀ m, (scalarTable R m).length = m + 1 := by
  intro m
  induction m with
  | zero => rfl
  | succ m ih => simp [scalarTable, ih]

theorem scalarTable_getD_le (R : BondReturnData) :
    ∀ m j, j ≤ m → (scalarTable R m).getD j D.ninf = scalarBest R j := by
  intro m
  induction m with
  | zero =>
    intro j hj
    interval_cases j
    rfl
  | succ m ih =>
    intro j hj
    rcases Nat.lt_or_ge j (m + 1) with hlt | hge
    · have hjm : j ≤ m := by omega
      rw [scalarTable]
      rw [List.getD_append _ _ _ _ (by rw [scalarTable_length]; omega)]
      exact ih j hjm
    · have hj1 : j = m + 1 := by omega
      subst hj1
      rfl

theorem scalarFold_ge_init (R : BondReturnData) (tbl : List D) (m : ℕ) :
    ∀ (idxs : List ℕ) (best : D), leD best (scalarFold R tbl m idxs best) := by
  intro idxs
  induction idxs with
  | nil => intro best; exact leD_refl _
  | cons i rest ih =>
    intro best
    simp only [scalarFold]
    by_cases hb : m < R.tenors.getD i 0
    · rw [if_pos hb]
      exact leD_refl _
    · rw [if_neg hb]
      by_cases hlt : ltD best (mulD (tbl.getD (m - R.tenors.getD i 0) D.ninf)
          (1 + R.hpr i (m - R.tenors.getD i 0)))
      · rw [if_pos hlt]
        exact leD_trans (leD_of_ltD hlt) (ih _)
      · rw [if_neg hlt]
        exact ih _

theorem scalarFold_mem (R : BondReturnData) (tbl : List D) (m : ℕ) :
    ∀ (idxs : List ℕ) (best : D),
      scalarFold R tbl m idxs best = best ∨
      ∃ i ∈ idxs, ¬(m < R.tenors.getD i 0) ∧
        scalarFold R tbl m idxs best =
          mulD (tbl.getD (m - R.tenors.getD i 0) D.ninf)
            (1 + R.hpr i (m - R.tenors.getD i 0)) := by
  intro idxs
  induction idxs with
  | nil => intro best; exact Or.inl rfl
  | cons i rest ih =>
    intro best
    simp only [scalarFold]
    by_cases hb : m < R.tenors.getD i 0
    · rw [if_pos hb]
      exact Or.inl rfl
    · rw [if_neg hb]
      set cand := mulD (tbl.getD (m - R.tenors.getD i 0) D.ninf)
        (1 + R.hpr i (m - R.tenors.getD i 0)) with hcand
      by_cases hlt : ltD best cand
      · rw [if_pos hlt]
        rcases ih cand with hres | ⟨j, hj, hjle, hres⟩
        · exact Or.inr ⟨i, List.mem_cons_self i rest, hb, hres⟩
        · exact Or.inr ⟨j, List.mem_cons_of_mem i hj, hjle, hres⟩
      · rw [if_neg hlt]
        rcases ih best with hres | ⟨j, hj, hjle, hres⟩
        · exact Or.inl hres
        · exact Or.inr ⟨j, List.mem_cons_of_mem i hj, hjle, hres⟩

theorem scalarFold_ge_cand (R : BondReturnData) (tbl : List D) (m : ℕ) :
    ∀ (idxs : List ℕ),
      idxs.Pairwise (fun i1 i2 => R.tenors.getD i1 0 ≤ R.tenors.getD i2 0) →
      ∀ (best : D) (i : ℕ), i ∈ idxs → ¬(m < R.tenors.getD i 0) →
        leD (mulD (tbl.getD (m - R.tenors.getD i 0) D.ninf)
          (1 + R.hpr i (m - R.tenors.getD i 0)))
          (scalarFold R tbl m idxs best) := by
  intro idxs
  induction idxs with
  | nil => intro _ best i hi; cases hi
  | cons a rest ih =>
    intro hsort best i hi hile
    obtain ⟨hhead, htail⟩ := List.pairwise_cons.mp hsort
    simp only [scalarFold]
    by_cases hb : m < R.tenors.getD a 0
    · exfalso
      rcases List.mem_cons.mp hi with hi | hi
      · subst hi; exact hile hb
      · exact hile (by have := hhead i hi; omega)
    · rw [if_neg hb]
      rcases List.mem_cons.mp hi with hi | hi
      · subst hi
        by_cases hlt : ltD best (mulD (tbl.getD (m - R.tenors.getD i 0) D.ninf)
            (1 + R.hpr i (m - R.tenors.getD i 0)))
        · rw [if_pos hlt]
          exact scalarFold_ge_init R tbl m rest _
        · rw [if_neg hlt]
          exact leD_trans (not_ltD_iff.mp hlt) (scalarFold_ge_init R tbl m rest best)
      · exact ih htail _ i hi hile

theorem range_tenor_pairwise (R : BondReturnData)
    (hsort : R.tenors.Pairwise (· < ·)) :
    (List.range R.tenors.length).Pairwise
      (fun i1 i2 => R.tenors.getD i1 0 ≤ R.tenors.getD i2 0) := by
  have hp := List.pairwise_lt_range R.tenors.length
  refine hp.imp_of_mem ?_
  intro i1 i2 h1 h2 hlt
  rw [List.mem_range] at h1 h2
  have := (List.pairwise_iff_getElem.mp hsort) i1 i2 h1 h2 hlt
  rw [List.getD_eq_getElem?_getD, List.getD_eq_getElem?_getD]
  rw [List.getElem?_eq_getElem h1, List.getElem?_eq_getElem h2]
  simpa using le_of_lt this

theorem scalarBest_zero (R : BondReturnData) : scalarBest R 0 = D.fin 1 := rfl

theorem scalarBest_succ (R : BondReturnData) (m : ℕ) :
    scalarBest R (m + 1) =
      scalarFold R (scalarTable R m) (m + 1) (List.range R.tenors.length)
        (scalarBest R m) := by
  have h1 : scalarBest R (m + 1) =
      scalarFold R (scalarTable R m) (m + 1) (List.range R.tenors.length)
        ((scalarTable R m).getD m D.ninf) := by
    unfold scalarBest
    rw [scalarTable]
    rw [List.getD_append_right _ _ _ _ (by rw [scalarTable_length])]
    rw [scalarTable_length]
    simp
  rw [h1, scalarTable_getD_le R m m (le_refl m)]

theorem scalarBest_mono (R : BondReturnData) (m : ℕ) :
    leD (scalarBest R m) (scalarBest R (m + 1)) := by
  rw [scalarBest_succ]
  exact scalarFold_ge_init _ _ _ _ _

theorem scalarBest_ge_one (R : BondReturnData) :
    ∀ m, leD (D.fin 1) (scalarBest R m) := by
  intro m
  induction m with
  | zero => rw [scalarBest_zero]; exact leD_refl _
  | succ m ih => exact leD_trans ih (scalarBest_mono R m)

end ScalarLemmas

section HeadsLemmas

open Domain DynamicOptimiser

theorem buyHeadsAux_chara (R : BondReturnData) (rows : List (List D))
    (rowIdx : List ℕ) (m : ℕ) :
    ∀ (idxs : List ℕ) (acc heads : List Candidate),
      buyHeadsAux R rows rowIdx m idxs acc = Except.ok heads →
      (∀ x ∈ acc, x ∈ heads) ∧
      (∀ i ∈ idxs, ¬(m < R.tenors.getD i 0) →
        buyCand R rows rowIdx m i ∈ heads) ∧
      (∀ x ∈ heads, x ∈ acc ∨ ∃ i ∈ idxs, ¬(m < R.tenors.getD i 0) ∧
        x = buyCand R rows rowIdx m i ∧ isinfD x.CRF = false) := by
  intro idxs
  induction idxs with
  | nil =>
    intro acc heads h
    rw [buyHeadsAux] at h
    have hacc : acc = heads := Except.ok.inj h
    subst hacc
    exact ⟨fun x hx => hx, fun i hi => absurd hi (List.not_mem_nil i),
      fun x hx => Or.inl hx⟩
  | cons i rest ih =>
    intro acc heads h
    simp only [buyHeadsAux] at h
    by_cases hb : m < R.tenors.getD i 0
    · rw [if_pos hb] at h
      obtain ⟨hsub, hall, hback⟩ := ih acc heads h
      refine ⟨hsub, ?_, ?_⟩
      · intro j hj hjb
        rcases List.mem_cons.mp hj with hj | hj
        · subst hj; exact absurd hb hjb
        · exact hall j hj hjb
      · intro x hx
        rcases hback x hx with hx2 | ⟨j, hj, hjb, heq, hfin⟩
        · exact Or.inl hx2
        · exact Or.inr ⟨j, List.mem_cons_of_mem i hj, hjb, heq, hfin⟩
    · rw [if_neg hb] at h
      by_cases hinf : isinfD (mulD
          (getCRF rows (rowIdx.getD (m - R.tenors.getD i 0) 0) 0)
          (1 + R.hpr i (m - R.tenors.getD i 0))) = true
      · rw [if_pos hinf] at h
        exact Except.noConfusion h
      · rw [if_neg hinf] at h
        obtain ⟨hsub, hall, hback⟩ := ih _ heads h
        have hcandmem : buyCand R rows rowIdx m i ∈ heads :=
          hsub _ (List.mem_cons_self _ _)
        refine ⟨fun x hx => hsub x (List.mem_cons_of_mem _ hx), ?_, ?_⟩
        · intro j hj hjb
          rcases List.mem_cons.mp hj with hj | hj
          · subst hj; exact hcandmem
          · exact hall j hj hjb
        · intro x hx
          rcases hback x hx with hx2 | ⟨j, hj, hjb, heq, hfin⟩
          · rcases List.mem_cons.mp hx2 with hx3 | hx3
            · refine Or.inr ⟨i, List.mem_cons_self i rest, hb, hx3, ?_⟩
              rw [hx3]
              simpa [buyCand] using hinf
            · exact Or.inl hx3
          · exact Or.inr ⟨j, List.mem_cons_of_mem i hj, hjb, heq, hfin⟩

theorem buyHeadsAux_error (R : BondReturnData) (rows : List (List D))
    (rowIdx : List ℕ) (m : ℕ) :
    ∀ (idxs : List ℕ) (acc : List Candidate) (e : Err),
      buyHeadsAux R rows rowIdx m idxs acc = Except.error e →
      ∃ v, isinfD v = true ∧ e = throwCRFOverflow v m := by
  intro idxs
  induction idxs with
  | nil => intro acc e h; rw [buyHeadsAux] at h; exact Except.noConfusion h
  | cons i rest ih =>
    intro acc e h
    simp only [buyHeadsAux] at h
    by_cases hb : m < R.tenors.getD i 0
    · rw [if_pos hb] at h
      exact ih acc e h
    · rw [if_neg hb] at h
      by_cases hinf : isinfD (mulD
          (getCRF rows (rowIdx.getD (m - R.tenors.getD i 0) 0) 0)
          (1 + R.hpr i (m - R.tenors.getD i 0))) = true
      · rw [if_pos hinf] at h
        exact ⟨_, hinf, (Except.error.inj h).symm⟩
      · rw [if_neg hinf] at h
        exact ih _ e h

end HeadsLemmas

section ExtractLemmas

open Domain DynamicOptimiser

theorem extractLoop_error (k : ℕ) (rowIdx : List ℕ) (m : ℕ) :
    ∀ (fuel : ℕ) (heap : List Candidate) (rows : List (List D))
      (decs : List (List (ℤ × ℤ))) (nr : ℕ) (e : Err),
      extractLoop k rowIdx m fuel heap rows decs nr = Except.error e →
      ∃ v, isinfD v = true ∧ e = throwCRFOverflow v m := by
  intro fuel
  induction fuel with
  | zero => intro heap rows decs nr e h; rw [extractLoop] at h; exact Except.noConfusion h
  | succ fuel ih =>
    intro heap rows decs nr e h
    rw [extractLoop] at h
    cases hpop : popMax heap with
    | none => rw [hpop] at h; exact Except.noConfusion h
    | some pr =>
      obtain ⟨c, heap1⟩ := pr
      rw [hpop] at h
      simp only at h
      by_cases hnext : c.prevRank + 1 < k
      · rw [if_pos hnext] at h
        by_cases hninf : getCRF (setCRF rows (rowIdx.getD m 0) nr c.CRF)
            (rowIdx.getD c.prevMonth 0) (c.prevRank + 1) = D.ninf
        · rw [if_pos hninf] at h
          exact ih _ _ _ _ _ h
        · rw [if_neg hninf] at h
          by_cases hinf : isinfD (mulD (getCRF (setCRF rows (rowIdx.getD m 0) nr c.CRF)
              (rowIdx.getD c.prevMonth 0) (c.prevRank + 1)) c.factor) = true
          · rw [if_pos hinf] at h
            exact ⟨_, hinf, (Except.error.inj h).symm⟩
          · rw [if_neg hinf] at h
            exact ih _ _ _ _ _ h
      · rw [if_neg hnext] at h
        exact ih _ _ _ _ _ h

end ExtractLemmas

section SetGetLemmas

open DynamicOptimiser

theorem setCRF_length (rows : List (List D)) (phys nr : ℕ) (v : D) :
    (setCRF rows phys nr v).length = rows.length := by
  unfold setCRF
  exact List.length_set rows phys _

theorem setCRF_other (rows : List (List D)) (phys nr : ℕ) (v : D)
    {ph : ℕ} (h : ph ≠ phys) :
    (setCRF rows phys nr v).getD ph [] = rows.getD ph [] := by
  unfold setCRF
  exact getD_set_neq _ _ _ _ _ (fun hc => h hc.symm)

theorem setCRF_self (rows : List (List D)) (phys nr : ℕ) (v : D)
    (h : phys < rows.length) :
    (setCRF rows phys nr v).getD phys [] = (rows.getD phys []).set nr v := by
  unfold setCRF
  exact getD_set_self _ _ _ _ h

theorem setDec_length (decs : List (List (ℤ × ℤ))) (mo nr : ℕ) (v : ℤ × ℤ) :
    (setDec decs mo nr v).length = decs.length := by
  unfold setDec
  exact List.length_set decs mo _

theorem setDec_other (decs : List (List (ℤ × ℤ))) (mo nr : ℕ) (v : ℤ × ℤ)
    {j : ℕ} (h : j ≠ mo) :
    (setDec decs mo nr v).getD j [] = decs.getD j [] := by
  unfold setDec
  exact getD_set_neq _ _ _ _ _ (fun hc => h hc.symm)

theorem setDec_self (decs : List (List (ℤ × ℤ))) (mo nr : ℕ) (v : ℤ × ℤ)
    (h : mo < decs.length) :
    (setDec decs mo nr v).getD mo [] = (decs.getD mo []).set nr v := by
  unfold setDec
  exact getD_set_self _ _ _ _ h

end SetGetLemmas

section ExtractSpec

open Domain DynamicOptimiser

/-- The main specification of the extraction loop: rank and length
bookkeeping, untouched rows, the written ranks carrying finite bounded
CRFs and non-negative decision tenors, the ranks outside `nr .. nr2`
untouched, and the rank written first being the maximum of the queue. -/
theorem extractLoop_spec (k : ℕ) (rowIdx : List ℕ) (m : ℕ) :
    ∀ (fuel : ℕ) (heap : List Candidate) (rows : List (List D))
      (decs : List (List (ℤ × ℤ))) (nr : ℕ)
      (rows2 : List (List D)) (decs2 : List (List (ℤ × ℤ))) (nr2 : ℕ),
      extractLoop k rowIdx m fuel heap rows decs nr =
        Except.ok (rows2, decs2, nr2) →
      fuel = k - nr →
      nr ≤ k →
      (∀ e ∈ heap, ∃ q, e.CRF = D.fin q ∧ -MAXD ≤ q ∧ q ≤ MAXD) →
      (rows.getD (rowIdx.getD m 0) []).length = k →
      (decs.getD m []).length = k →
      nr ≤ nr2 ∧ nr2 ≤ k ∧
      (heap ≠ [] → nr < k → nr < nr2) ∧
      rows2.length = rows.length ∧
      (∀ ph, ph ≠ rowIdx.getD m 0 → rows2.getD ph [] = rows.getD ph []) ∧
      (rows2.getD (rowIdx.getD m 0) []).length = k ∧
      decs2.length = decs.length ∧
      (∀ j, j ≠ m → decs2.getD j [] = decs.getD j []) ∧
      (decs2.getD m []).length = k ∧
      (∀ r, r < nr ∨ nr2 ≤ r →
        (rows2.getD (rowIdx.getD m 0) []).getD r D.ninf =
          (rows.getD (rowIdx.getD m 0) []).getD r D.ninf ∧
        (decs2.getD m []).getD r (-1, -1) = (decs.getD m []).getD r (-1, -1)) ∧
      (∀ r, nr ≤ r → r < nr2 →
        (∃ q, (rows2.getD (rowIdx.getD m 0) []).getD r D.ninf = D.fin q ∧
          -MAXD ≤ q ∧ q ≤ MAXD) ∧
        0 ≤ ((decs2.getD m []).getD r (-1, -1)).1) ∧
      (nr = 0 → 0 < k → ∀ c heap1, popMax heap = some (c, heap1) →
        (rows2.getD (rowIdx.getD m 0) []).getD 0 D.ninf = c.CRF) := by
  intro fuel
  induction fuel with
  | zero =>
    intro heap rows decs nr rows2 decs2 nr2 h hfuel hnk hfin hlr hld
    rw [extractLoop] at h
    have h1 : rows = rows2 := congrArg Prod.fst (Except.ok.inj h)
    have h2 : decs = decs2 := congrArg (fun p => p.2.1) (Except.ok.inj h)
    have h3 : nr = nr2 := congrArg (fun p => p.2.2) (Except.ok.inj h)
    subst h1; subst h2; subst h3
    refine ⟨le_refl _, hnk, ?_, rfl, fun _ _ => rfl, hlr, rfl,
      fun _ _ => rfl, hld, fun r _ => ⟨rfl, rfl⟩,
      fun r h1 h2 => absurd h2 (by omega), ?_⟩
    · intro _ h2
      omega
    · intro h0 hk
      subst h0
      exact absurd hk (by omega)
  | succ fuel ih =>
    intro heap rows decs nr rows2 decs2 nr2 h hfuel hnk hfin hlr hld
    rw [extractLoop] at h
    cases hpop : popMax heap with
    | none =>
      rw [hpop] at h
      simp only at h
      have h1 : rows = rows2 := congrArg Prod.fst (Except.ok.inj h)
      have h2 : decs = decs2 := congrArg (fun p => p.2.1) (Except.ok.inj h)
      have h3 : nr = nr2 := congrArg (fun p => p.2.2) (Except.ok.inj h)
      subst h1; subst h2; subst h3
      have hempty : heap = [] := by
        cases heap with
        | nil => rfl
        | cons a rest => exact absurd hpop (popMax_ne_none (by simp))
      refine ⟨le_refl _, hnk, ?_, rfl, fun _ _ => rfl, hlr, rfl,
        fun _ _ => rfl, hld, fun r _ => ⟨rfl, rfl⟩,
        fun r h1 h2 => absurd h2 (by omega), ?_⟩
      · intro hne _
        exact absurd hempty hne
      · intro _ _ c heap1 hpop2
        exact Option.noConfusion hpop2
    | some pr =>
      obtain ⟨c, heap1⟩ := pr
      rw [hpop] at h
      simp only at h
      have hcmem : c ∈ heap :=
        (popMax_perm hpop).symm.subset (List.mem_cons_self c heap1)
      have hsub1 : ∀ e ∈ heap1, e ∈ heap :=
        fun e he => (popMax_perm hpop).symm.subset (List.mem_cons_of_mem c he)
      have hnrk : nr < k := by omega
      have hk0 : 0 < k := by omega
      have hophys : rowIdx.getD m 0 < rows.length := by
        by_contra hc
        push_neg at hc
        rw [List.getD_eq_default _ _ hc] at hlr
        simp at hlr
        omega
      have homd : m < decs.length := by
        by_contra hc
        push_neg at hc
        rw [List.getD_eq_default _ _ hc] at hld
        simp at hld
        omega
      obtain ⟨cq, hcq, hcb1, hcb2⟩ := hfin c hcmem
      have hrow1self : (setCRF rows (rowIdx.getD m 0) nr c.CRF).getD (rowIdx.getD m 0) [] =
          (rows.getD (rowIdx.getD m 0) []).set nr c.CRF :=
        setCRF_self _ _ _ _ hophys
      have hrow1len : ((setCRF rows (rowIdx.getD m 0) nr c.CRF).getD (rowIdx.getD m 0) []).length = k := by
        rw [hrow1self, List.length_set]
        exact hlr
      have hdec1self : (setDec decs m nr ((c.tenor : ℤ), (c.prevRank : ℤ))).getD m [] =
          (decs.getD m []).set nr ((c.tenor : ℤ), (c.prevRank : ℤ)) :=
        setDec_self _ _ _ _ homd
      have hdec1len : ((setDec decs m nr ((c.tenor : ℤ), (c.prevRank : ℤ))).getD m []).length = k := by
        rw [hdec1self, List.length_set]
        exact hld
      have hrow1at : ∀ r, r ≠ nr →
          ((setCRF rows (rowIdx.getD m 0) nr c.CRF).getD (rowIdx.getD m 0) []).getD r D.ninf =
          (rows.getD (rowIdx.getD m 0) []).getD r D.ninf := by
        intro r hr
        rw [hrow1self]
        exact getD_set_neq _ _ _ _ _ (fun hc2 => hr hc2.symm)
      have hrow1nr :
          ((setCRF rows (rowIdx.getD m 0) nr c.CRF).getD (rowIdx.getD m 0) []).getD nr D.ninf = c.CRF := by
        rw [hrow1self]
        exact getD_set_self _ _ _ _ (by omega)
      have hdec1at : ∀ r, r ≠ nr →
          ((setDec decs m nr ((c.tenor : ℤ), (c.prevRank : ℤ))).getD m []).getD r (-1, -1) =
          (decs.getD m []).getD r (-1, -1) := by
        intro r hr
        rw [hdec1self]
        exact getD_set_neq _ _ _ _ _ (fun hc2 => hr hc2.symm)
      have hdec1nr :
          ((setDec decs m nr ((c.tenor : ℤ), (c.prevRank : ℤ))).getD m []).getD nr (-1, -1) =
          ((c.tenor : ℤ), (c.prevRank : ℤ)) := by
        rw [hdec1self]
        exact getD_set_self _ _ _ _ (by omega)
      -- combine outputs of a recursive call with the single write
      have hassemble : ∀ heap2 : List Candidate,
          (∀ e ∈ heap2, ∃ q, e.CRF = D.fin q ∧ -MAXD ≤ q ∧ q ≤ MAXD) →
          extractLoop k rowIdx m fuel heap2
            (setCRF rows (rowIdx.getD m 0) nr c.CRF)
            (setDec decs m nr ((c.tenor : ℤ), (c.prevRank : ℤ))) (nr + 1) =
            Except.ok (rows2, decs2, nr2) →
          (nr ≤ nr2 ∧ nr2 ≤ k ∧
          (heap ≠ [] → nr < k → nr < nr2) ∧
          rows2.length = rows.length ∧
          (∀ ph, ph ≠ rowIdx.getD m 0 → rows2.getD ph [] = rows.getD ph []) ∧
          (rows2.getD (rowIdx.getD m 0) []).length = k ∧
          decs2.length = decs.length ∧
          (∀ j, j ≠ m → decs2.getD j [] = decs.getD j []) ∧
          (decs2.getD m []).length = k ∧
          (∀ r, r < nr ∨ nr2 ≤ r →
            (rows2.getD (rowIdx.getD m 0) []).getD r D.ninf =
              (rows.getD (rowIdx.getD m 0) []).getD r D.ninf ∧
            (decs2.getD m []).getD r (-1, -1) = (decs.getD m []).getD r (-1, -1)) ∧
          (∀ r, nr ≤ r → r < nr2 →
            (∃ q, (rows2.getD (rowIdx.getD m 0) []).getD r D.ninf = D.fin q ∧
              -MAXD ≤ q ∧ q ≤ MAXD) ∧
            0 ≤ ((decs2.getD m []).getD r (-1, -1)).1) ∧
          (nr = 0 → 0 < k → ∀ c2 heap3, some (c, heap1) = some (c2, heap3) →
            (rows2.getD (rowIdx.getD m 0) []).getD 0 D.ninf = c2.CRF)) := by
        intro heap2 hfin2 hrec
        obtain ⟨i1, i2, i3, i4, i5, i6, i7, i8, i9, i10, i11, i12⟩ :=
          ih heap2 _ _ (nr + 1) rows2 decs2 nr2 hrec (by omega) (by omega) hfin2 hrow1len hdec1len
        refine ⟨by omega, i2, fun _ _ => by omega, ?_, ?_, i6, ?_, ?_, i9, ?_, ?_, ?_⟩
        · rw [i4, setCRF_length]
        · intro ph hph
          rw [i5 ph hph, setCRF_other _ _ _ _ hph]
        · rw [i7, setDec_length]
        · intro j hj
          rw [i8 j hj, setDec_other _ _ _ _ hj]
        · intro r hr
          have hr1 : r < nr + 1 ∨ nr2 ≤ r := by omega
          have hrne : r ≠ nr := by omega
          obtain ⟨hrow, hdec⟩ := i10 r hr1
          exact ⟨by rw [hrow, hrow1at r hrne], by rw [hdec, hdec1at r hrne]⟩
        · intro r hrl hru
          rcases Nat.eq_or_lt_of_le hrl with hreq | hrgt
          · subst hreq
            obtain ⟨hrow, hdec⟩ := i10 nr (Or.inl (by omega))
            refine ⟨⟨cq, ?_, hcb1, hcb2⟩, ?_⟩
            · rw [hrow, hrow1nr, hcq]
            · rw [hdec, hdec1nr]
              exact Int.natCast_nonneg _
          · exact i11 r (by omega) hru
        · intro h0 _ c2 heap3 hpop2
          have hc2 : c2 = c := by
            have := Option.some.inj hpop2
            exact (congrArg Prod.fst this).symm
          subst hc2
          subst h0
          obtain ⟨hrow, _⟩ := i10 0 (Or.inl (by omega))
          rw [hrow, hrow1nr]
      by_cases hnext : c.prevRank + 1 < k
      · rw [if_pos hnext] at h
        by_cases hninf : getCRF (setCRF rows (rowIdx.getD m 0) nr c.CRF)
            (rowIdx.getD c.prevMonth 0) (c.prevRank + 1) = D.ninf
        · rw [if_pos hninf] at h
          exact hassemble heap1 (fun e he => hfin e (hsub1 e he)) h
        · rw [if_neg hninf] at h
          by_cases hinf : isinfD (mulD (getCRF (setCRF rows (rowIdx.getD m 0) nr c.CRF)
              (rowIdx.getD c.prevMonth 0) (c.prevRank + 1)) c.factor) = true
          · rw [if_pos hinf] at h
            exact Except.noConfusion h
          · rw [if_neg hinf] at h
            refine hassemble _ ?_ h
            intro e he
            rcases List.mem_cons.mp he with he | he
            · subst he
              exact mulD_fin_notinf (by simpa using hinf)
            · exact hfin e (hsub1 e he)
      · rw [if_neg hnext] at h
        exact hassemble heap1 (fun e he => hfin e (hsub1 e he)) h

end ExtractSpec

section WindowHelpers

open Domain DynamicOptimiser

theorem getD_mem {α : Type} (l : List α) (i : ℕ) (d : α) (h : i < l.length) :
    l.getD i d ∈ l := by
  rw [List.getD_eq_getElem l d h]
  exact List.getElem_mem h

theorem forall_mem_of_getD {α : Type} (l : List α) (d : α) (P : α → Prop)
    (h : ∀ i, i < l.length → P (l.getD i d)) : ∀ x ∈ l, P x := by
  intro x hx
  obtain ⟨i, hi, heq⟩ := List.mem_iff_getElem.mp hx
  have hP := h i hi
  rw [List.getD_eq_getElem l d hi] at hP
  rwa [heq] at hP

theorem mod_ne_of_close {a b w : ℕ} (hab : a < b) (hw : b - a < w) :
    a % w ≠ b % w := by
  intro hmod
  have hmeq : Nat.ModEq w a b := hmod
  have hd : w ∣ b - a := (Nat.modEq_iff_dvd' (le_of_lt hab)).mp hmeq
  have hpos : 0 < b - a := by omega
  have := Nat.le_of_dvd hpos hd
  omega

theorem wc_succ_mod (w a : ℕ) (hw : 2 ≤ w) :
    (if a % w + 1 = w then 0 else a % w + 1) = (a + 1) % w := by
  have hr : a % w < w := Nat.mod_lt _ (by omega)
  have h2 : (a + 1) % w = (a % w + 1) % w := by
    rw [Nat.add_mod, Nat.mod_eq_of_lt (show 1 < w by omega)]
  by_cases h : a % w + 1 = w
  · rw [if_pos h, h2, h, Nat.mod_self]
  · rw [if_neg h, h2]
    exact (Nat.mod_eq_of_lt (by omega)).symm

theorem numMonths_pos {R : BondReturnData} (hv : ValidData R) :
    1 ≤ R.numMonths := by
  obtain ⟨hne, _, hpos, hhead, _⟩ := hv
  cases hl : R.tenors with
  | nil => exact absurd hl hne
  | cons a rest =>
    have ha : 0 < a := hpos a (by rw [hl]; exact List.mem_cons_self a rest)
    have hh : R.tenors.headI = a := by rw [hl]; rfl
    omega

theorem last_tenor_pos {R : BondReturnData} (hv : ValidData R) :
    1 ≤ R.tenors.getLastD 0 := by
  obtain ⟨hne, _, hpos, _, _⟩ := hv
  cases hl : R.tenors with
  | nil => exact absurd hl hne
  | cons a rest =>
    have hmem : (a :: rest).getLastD 0 ∈ a :: rest := by
      rw [List.getLastD_cons]
      exact List.getLastD_mem_cons rest a
    have := hpos _ (by rw [hl]; exact hmem)
    omega

theorem window_ge_two {R : BondReturnData} (hv : ValidData R) :
    2 ≤ window R := by
  have h1 := last_tenor_pos hv
  have h2 := numMonths_pos hv
  unfold window
  have := le_min h1 h2
  omega

theorem tenor_le_last {R : BondReturnData} (hv : ValidData R) {i : ℕ}
    (hi : i < R.tenors.length) : R.tenors.getD i 0 ≤ R.tenors.getLastD 0 := by
  have hne : R.tenors ≠ [] := hv.1
  have hlen : 0 < R.tenors.length := List.length_pos.mpr hne
  have hlast : R.tenors.getLastD 0 = R.tenors.getD (R.tenors.length - 1) 0 := by
    rw [List.getD_eq_getElem _ _ (show R.tenors.length - 1 < R.tenors.length by omega)]
    rw [List.getLastD_eq_getLast?, List.getLast?_eq_getLast _ hne]
    simp [List.getLast_eq_getElem]
  rcases Nat.lt_or_ge i (R.tenors.length - 1) with hlt | hge
  · have hmono := (List.pairwise_iff_getElem.mp hv.2.1) i (R.tenors.length - 1)
      (by omega) (by omega) hlt
    rw [hlast, List.getD_eq_getElem _ _ hi,
      List.getD_eq_getElem _ _ (show R.tenors.length - 1 < R.tenors.length by omega)]
    exact le_of_lt hmono
  · have hieq : i = R.tenors.length - 1 := by omega
    rw [hieq, hlast]

theorem tenor_pos {R : BondReturnData} (hv : ValidData R) {i : ℕ}
    (hi : i < R.tenors.length) : 1 ≤ R.tenors.getD i 0 := by
  have := hv.2.2.1 _ (getD_mem R.tenors i 0 hi)
  omega

theorem tenor_lt_window {R : BondReturnData} (hv : ValidData R) {i m : ℕ}
    (hi : i < R.tenors.length) (hm : R.tenors.getD i 0 ≤ m)
    (hmM : m ≤ R.numMonths) : R.tenors.getD i 0 < window R := by
  have h1 := tenor_le_last hv hi
  unfold window
  have h2 : R.tenors.getD i 0 ≤ R.numMonths := le_trans hm hmM
  have := le_min h1 h2
  omega

end WindowHelpers

section ExtractSorted

open Domain DynamicOptimiser

/-- Under non-negative factors, the extraction loop writes the target row
in non-increasing order: every heap candidate is linked by
`CRF = prev * factor` into a sorted source row distinct from the target,
every heap candidate is at most every already-written entry, and the
already-written prefix is sorted; then the whole written prefix of the
output row is sorted. -/
theorem extractLoop_sorted (k : ℕ) (rowIdx : List ℕ) (m : ℕ) :
    ∀ (fuel : ℕ) (heap : List Candidate) (rows : List (List D))
      (decs : List (List (ℤ × ℤ))) (nr : ℕ)
      (rows2 : List (List D)) (decs2 : List (List (ℤ × ℤ))) (nr2 : ℕ),
      extractLoop k rowIdx m fuel heap rows decs nr =
        Except.ok (rows2, decs2, nr2) →
      fuel = k - nr →
      (rows.getD (rowIdx.getD m 0) []).length = k →
      rowIdx.getD m 0 < rows.length →
      (∀ e ∈ heap, 0 ≤ e.factor ∧
        rowIdx.getD e.prevMonth 0 ≠ rowIdx.getD m 0 ∧
        e.CRF = mulD (getCRF rows (rowIdx.getD e.prevMonth 0) e.prevRank) e.factor ∧
        RowSorted (rows.getD (rowIdx.getD e.prevMonth 0) [])) →
      (∀ e ∈ heap, ∀ r, r < nr →
        leD e.CRF ((rows.getD (rowIdx.getD m 0) []).getD r D.ninf)) →
      (∀ r1 r2, r1 ≤ r2 → r2 < nr →
        leD ((rows.getD (rowIdx.getD m 0) []).getD r2 D.ninf)
          ((rows.getD (rowIdx.getD m 0) []).getD r1 D.ninf)) →
      ∀ r1 r2, r1 ≤ r2 → r2 < nr2 →
        leD ((rows2.getD (rowIdx.getD m 0) []).getD r2 D.ninf)
          ((rows2.getD (rowIdx.getD m 0) []).getD r1 D.ninf) := by
  intro fuel
  induction fuel with
  | zero =>
    intro heap rows decs nr rows2 decs2 nr2 h hfuel hlr hphys hlink hbnd hpref
    rw [extractLoop] at h
    have h1 : rows = rows2 := congrArg Prod.fst (Except.ok.inj h)
    have h3 : nr = nr2 := congrArg (fun p => p.2.2) (Except.ok.inj h)
    subst h1; subst h3
    exact hpref
  | succ fuel ih =>
    intro heap rows decs nr rows2 decs2 nr2 h hfuel hlr hphys hlink hbnd hpref
    rw [extractLoop] at h
    cases hpop : popMax heap with
    | none =>
      rw [hpop] at h
      simp only at h
      have h1 : rows = rows2 := congrArg Prod.fst (Except.ok.inj h)
      have h3 : nr = nr2 := congrArg (fun p => p.2.2) (Except.ok.inj h)
      subst h1; subst h3
      exact hpref
    | some pr =>
      obtain ⟨c, heap1⟩ := pr
      rw [hpop] at h
      simp only at h
      have hcmem : c ∈ heap :=
        (popMax_perm hpop).symm.subset (List.mem_cons_self c heap1)
      have hsub1 : ∀ e ∈ heap1, e ∈ heap :=
        fun e he => (popMax_perm hpop).symm.subset (List.mem_cons_of_mem c he)
      have hnrk : nr < k := by omega
      have hrow1self : (setCRF rows (rowIdx.getD m 0) nr c.CRF).getD (rowIdx.getD m 0) [] =
          (rows.getD (rowIdx.getD m 0) []).set nr c.CRF :=
        setCRF_self _ _ _ _ hphys
      have hrow1len : ((setCRF rows (rowIdx.getD m 0) nr c.CRF).getD (rowIdx.getD m 0) []).length = k := by
        rw [hrow1self, List.length_set]
        exact hlr
      have hrow1at : ∀ r, r ≠ nr →
          ((setCRF rows (rowIdx.getD m 0) nr c.CRF).getD (rowIdx.getD m 0) []).getD r D.ninf =
          (rows.getD (rowIdx.getD m 0) []).getD r D.ninf := by
        intro r hr
        rw [hrow1self]
        exact getD_set_neq _ _ _ _ _ (fun hc2 => hr hc2.symm)
      have hrow1nr :
          ((setCRF rows (rowIdx.getD m 0) nr c.CRF).getD (rowIdx.getD m 0) []).getD nr D.ninf = c.CRF := by
        rw [hrow1self]
        exact getD_set_self _ _ _ _ (by omega)
      have hother : ∀ ph, ph ≠ rowIdx.getD m 0 →
          (setCRF rows (rowIdx.getD m 0) nr c.CRF).getD ph [] = rows.getD ph [] :=
        fun ph hph => setCRF_other _ _ _ _ hph
      -- the hypotheses of any recursive call stay available
      have hlink1 : ∀ e ∈ heap1, 0 ≤ e.factor ∧
          rowIdx.getD e.prevMonth 0 ≠ rowIdx.getD m 0 ∧
          e.CRF = mulD (getCRF (setCRF rows (rowIdx.getD m 0) nr c.CRF)
            (rowIdx.getD e.prevMonth 0) e.prevRank) e.factor ∧
          RowSorted ((setCRF rows (rowIdx.getD m 0) nr c.CRF).getD
            (rowIdx.getD e.prevMonth 0) []) := by
        intro e he
        obtain ⟨hf, hne, hl, hs⟩ := hlink e (hsub1 e he)
        refine ⟨hf, hne, ?_, ?_⟩
        · rw [show getCRF (setCRF rows (rowIdx.getD m 0) nr c.CRF)
              (rowIdx.getD e.prevMonth 0) e.prevRank =
              getCRF rows (rowIdx.getD e.prevMonth 0) e.prevRank by
            unfold getCRF; rw [hother _ hne]]
          exact hl
        · rw [hother _ hne]
          exact hs
      have hbnd1 : ∀ e ∈ heap1, ∀ r, r < nr + 1 →
          leD e.CRF (((setCRF rows (rowIdx.getD m 0) nr c.CRF).getD
            (rowIdx.getD m 0) []).getD r D.ninf) := by
        intro e he r hr
        rcases Nat.lt_or_ge r nr with hrn | hrn
        · rw [hrow1at r (by omega)]
          exact hbnd e (hsub1 e he) r hrn
        · have hreq : r = nr := by omega
          rw [hreq, hrow1nr]
          exact popMax_max hpop e (hsub1 e he)
      have hpref1 : ∀ r1 r2, r1 ≤ r2 → r2 < nr + 1 →
          leD (((setCRF rows (rowIdx.getD m 0) nr c.CRF).getD
            (rowIdx.getD m 0) []).getD r2 D.ninf)
            (((setCRF rows (rowIdx.getD m 0) nr c.CRF).getD
            (rowIdx.getD m 0) []).getD r1 D.ninf) := by
        intro r1 r2 h12 hr2
        rcases Nat.lt_or_ge r2 nr with hr2n | hr2n
        · rw [hrow1at r1 (by omega), hrow1at r2 (by omega)]
          exact hpref r1 r2 h12 hr2n
        · have hreq : r2 = nr := by omega
          rw [hreq, hrow1nr]
          rcases Nat.lt_or_ge r1 nr with hr1n | hr1n
          · rw [hrow1at r1 (by omega)]
            exact hbnd c hcmem r1 hr1n
          · have hreq1 : r1 = nr := by omega
            rw [hreq1, hrow1nr]
            exact leD_refl _
      by_cases hnext : c.prevRank + 1 < k
      · rw [if_pos hnext] at h
        by_cases hninf : getCRF (setCRF rows (rowIdx.getD m 0) nr c.CRF)
            (rowIdx.getD c.prevMonth 0) (c.prevRank + 1) = D.ninf
        · rw [if_pos hninf] at h
          exact ih heap1 _ _ (nr + 1) rows2 decs2 nr2 h (by omega) hrow1len
            (by rw [setCRF_length]; exact hphys) hlink1 hbnd1 hpref1
        · rw [if_neg hninf] at h
          by_cases hinf : isinfD (mulD (getCRF (setCRF rows (rowIdx.getD m 0) nr c.CRF)
              (rowIdx.getD c.prevMonth 0) (c.prevRank + 1)) c.factor) = true
          · rw [if_pos hinf] at h
            exact Except.noConfusion h
          · rw [if_neg hinf] at h
            obtain ⟨hf, hne, hl, hs⟩ := hlink c hcmem
            have hpushle : leD (mulD (getCRF (setCRF rows (rowIdx.getD m 0) nr c.CRF)
                (rowIdx.getD c.prevMonth 0) (c.prevRank + 1)) c.factor) c.CRF := by
              have hprev : getCRF (setCRF rows (rowIdx.getD m 0) nr c.CRF)
                  (rowIdx.getD c.prevMonth 0) (c.prevRank + 1) =
                  getCRF rows (rowIdx.getD c.prevMonth 0) (c.prevRank + 1) := by
                unfold getCRF; rw [hother _ hne]
              have hstep : leD (mulD (getCRF rows (rowIdx.getD c.prevMonth 0)
                  (c.prevRank + 1)) c.factor)
                  (mulD (getCRF rows (rowIdx.getD c.prevMonth 0) c.prevRank) c.factor) :=
                mulD_mono hf (hs c.prevRank (c.prevRank + 1) (by omega))
              rw [hprev]
              rw [← hl] at hstep
              exact hstep
            have hcbnd1 : ∀ r, r < nr + 1 →
                leD c.CRF (((setCRF rows (rowIdx.getD m 0) nr c.CRF).getD
                  (rowIdx.getD m 0) []).getD r D.ninf) := by
              intro r hr
              rcases Nat.lt_or_ge r nr with hrn | hrn
              · rw [hrow1at r (by omega)]
                exact hbnd c hcmem r hrn
              · rw [show r = nr by omega, hrow1nr]
                exact leD_refl _
            refine ih _ _ _ (nr + 1) rows2 decs2 nr2 h (by omega) hrow1len
              (by rw [setCRF_length]; exact hphys) ?_ ?_ hpref1
            · intro e he
              rcases List.mem_cons.mp he with he | he
              · subst he
                refine ⟨hf, hne, rfl, ?_⟩
                show RowSorted ((setCRF rows (rowIdx.getD m 0) nr c.CRF).getD
                  (rowIdx.getD c.prevMonth 0) [])
                rw [hother _ hne]
                exact hs
              · exact hlink1 e he
            · intro e he r hr
              rcases List.mem_cons.mp he with he | he
              · subst he
                exact leD_trans hpushle (hcbnd1 r hr)
              · exact hbnd1 e he r hr
      · rw [if_neg hnext] at h
        exact ih heap1 _ _ (nr + 1) rows2 decs2 nr2 h (by omega) hrow1len
          (by rw [setCRF_length]; exact hphys) hlink1 hbnd1 hpref1

end ExtractSorted

section ExtractChain

open Domain DynamicOptimiser

/-- The extraction loop writes only well-formed decision entries: every
heap candidate carries a tenor/previous-month pair consistent with the
processed month, a previous rank below `k` whose CRF cell is filled, and
the decision row of its previous month marks filled CRF cells as filled
decisions; then every written entry of the target decision row is
`GoodDec`. -/
theorem extractLoop_chain (k : ℕ) (rowIdx : List ℕ) (m : ℕ) (hm : 1 ≤ m) :
    ∀ (fuel : ℕ) (heap : List Candidate) (rows : List (List D))
      (decs : List (List (ℤ × ℤ))) (nr : ℕ)
      (rows2 : List (List D)) (decs2 : List (List (ℤ × ℤ))) (nr2 : ℕ),
      extractLoop k rowIdx m fuel heap rows decs nr =
        Except.ok (rows2, decs2, nr2) →
      fuel = k - nr →
      m < decs.length →
      (decs.getD m []).length = k →
      (∀ e ∈ heap,
        (e.tenor = 0 → e.prevMonth + 1 = m) ∧
        (e.tenor ≠ 0 → e.prevMonth + e.tenor = m) ∧
        e.prevRank < k ∧
        e.prevMonth ≠ m ∧
        rowIdx.getD e.prevMonth 0 ≠ rowIdx.getD m 0 ∧
        getCRF rows (rowIdx.getD e.prevMonth 0) e.prevRank ≠ D.ninf ∧
        (∀ r2 : ℕ, getCRF rows (rowIdx.getD e.prevMonth 0) r2 ≠ D.ninf →
          0 ≤ ((decs.getD e.prevMonth []).getD r2 (-1, -1)).1)) →
      (∀ r, r < nr → GoodDec k decs m ((decs.getD m []).getD r (-1, -1))) →
      ∀ r, r < nr2 → GoodDec k decs2 m ((decs2.getD m []).getD r (-1, -1)) := by
  intro fuel
  induction fuel with
  | zero =>
    intro heap rows decs nr rows2 decs2 nr2 h hfuel hmd hld hQ hprev
    rw [extractLoop] at h
    have h2 : decs = decs2 := congrArg (fun p => p.2.1) (Except.ok.inj h)
    have h3 : nr = nr2 := congrArg (fun p => p.2.2) (Except.ok.inj h)
    subst h2; subst h3
    exact hprev
  | succ fuel ih =>
    intro heap rows decs nr rows2 decs2 nr2 h hfuel hmd hld hQ hprev
    rw [extractLoop] at h
    cases hpop : popMax heap with
    | none =>
      rw [hpop] at h
      simp only at h
      have h2 : decs = decs2 := congrArg (fun p => p.2.1) (Except.ok.inj h)
      have h3 : nr = nr2 := congrArg (fun p => p.2.2) (Except.ok.inj h)
      subst h2; subst h3
      exact hprev
    | some pr =>
      obtain ⟨c, heap1⟩ := pr
      rw [hpop] at h
      simp only at h
      have hcmem : c ∈ heap :=
        (popMax_perm hpop).symm.subset (List.mem_cons_self c heap1)
      have hsub1 : ∀ e ∈ heap1, e ∈ heap :=
        fun e he => (popMax_perm hpop).symm.subset (List.mem_cons_of_mem c he)
      have hnrk : nr < k := by omega
      have hdec1self : (setDec decs m nr ((c.tenor : ℤ), (c.prevRank : ℤ))).getD m [] =
          (decs.getD m []).set nr ((c.tenor : ℤ), (c.prevRank : ℤ)) :=
        setDec_self _ _ _ _ hmd
      have hdec1len : ((setDec decs m nr ((c.tenor : ℤ), (c.prevRank : ℤ))).getD m []).length = k := by
        rw [hdec1self, List.length_set]
        exact hld
      have hdec1other : ∀ j, j ≠ m →
          (setDec decs m nr ((c.tenor : ℤ), (c.prevRank : ℤ))).getD j [] = decs.getD j [] :=
        fun j hj => setDec_other _ _ _ _ hj
      have hdec1at : ∀ r, r ≠ nr →
          ((setDec decs m nr ((c.tenor : ℤ), (c.prevRank : ℤ))).getD m []).getD r (-1, -1) =
          (decs.getD m []).getD r (-1, -1) := by
        intro r hr
        rw [hdec1self]
        exact getD_set_neq _ _ _ _ _ (fun hc2 => hr hc2.symm)
      have hdec1nr :
          ((setDec decs m nr ((c.tenor : ℤ), (c.prevRank : ℤ))).getD m []).getD nr (-1, -1) =
          ((c.tenor : ℤ), (c.prevRank : ℤ)) := by
        rw [hdec1self]
        exact getD_set_self _ _ _ _ (by omega)
      obtain ⟨q1, q2, q3, q4, q5, q6, q7⟩ := hQ c hcmem
      -- the written entry is well formed with respect to the updated buffer
      have hgoodc : GoodDec k (setDec decs m nr ((c.tenor : ℤ), (c.prevRank : ℤ))) m
          ((c.tenor : ℤ), (c.prevRank : ℤ)) := by
        have hpmlt : c.prevMonth < m := by
          by_cases ht : c.tenor = 0
          · have := q1 ht; omega
          · have := q2 ht; omega
        have hpmsel : (if ((c.tenor : ℤ)) = 0 then m - 1 else m - ((c.tenor : ℤ)).toNat) =
            c.prevMonth := by
          by_cases ht : c.tenor = 0
          · rw [if_pos (by exact_mod_cast ht)]
            have := q1 ht; omega
          · rw [if_neg (by exact_mod_cast ht)]
            have := q2 ht
            simp only [Int.toNat_natCast]
            omega
        refine ⟨?_, ?_, ?_, ?_, ?_⟩
        · show (0 : ℤ) ≤ ((c.tenor : ℤ))
          exact Int.natCast_nonneg _
        · show ((c.tenor : ℤ)) ≤ (m : ℤ)
          by_cases ht : c.tenor = 0
          · rw [ht]
            exact_mod_cast Nat.zero_le m
          · have := q2 ht
            exact_mod_cast show c.tenor ≤ m by omega
        · show (0 : ℤ) ≤ ((c.prevRank : ℤ))
          exact Int.natCast_nonneg _
        · show ((c.prevRank : ℤ)) < (k : ℤ)
          exact_mod_cast q3
        · show 0 ≤ (((setDec decs m nr ((c.tenor : ℤ), (c.prevRank : ℤ))).getD
            (if ((c.tenor : ℤ)) = 0 then m - 1 else m - ((c.tenor : ℤ)).toNat) []).getD
            ((c.prevRank : ℤ)).toNat (-1, -1)).1
          rw [hpmsel, hdec1other _ (by omega), Int.toNat_natCast]
          exact q7 c.prevRank q6
      -- the prior entries stay well formed
      have hprev1 : ∀ r, r < nr + 1 →
          GoodDec k (setDec decs m nr ((c.tenor : ℤ), (c.prevRank : ℤ))) m
            (((setDec decs m nr ((c.tenor : ℤ), (c.prevRank : ℤ))).getD m []).getD r (-1, -1)) := by
        intro r hr
        rcases Nat.lt_or_ge r nr with hrn | hrn
        · rw [hdec1at r (by omega)]
          obtain ⟨g1, g2, g3, g4, g5⟩ := hprev r hrn
          refine ⟨g1, g2, g3, g4, ?_⟩
          have hpm : (if ((decs.getD m []).getD r (-1, -1)).1 = 0 then m - 1
              else m - ((decs.getD m []).getD r (-1, -1)).1.toNat) ≠ m := by
            by_cases ht : ((decs.getD m []).getD r (-1, -1)).1 = 0
            · rw [if_pos ht]; omega
            · rw [if_neg ht]
              have h1 : 1 ≤ ((decs.getD m []).getD r (-1, -1)).1 := by omega
              have h2 : 1 ≤ ((decs.getD m []).getD r (-1, -1)).1.toNat := by omega
              omega
          rw [hdec1other _ hpm]
          exact g5
        · rw [show r = nr by omega, hdec1nr]
          exact hgoodc
      -- the heap hypotheses survive every recursive call
      have hQ1 : ∀ heap2 : List Candidate, (∀ e ∈ heap2, e ∈ heap1) →
          ∀ e ∈ heap2,
          (e.tenor = 0 → e.prevMonth + 1 = m) ∧
          (e.tenor ≠ 0 → e.prevMonth + e.tenor = m) ∧
          e.prevRank < k ∧
          e.prevMonth ≠ m ∧
          rowIdx.getD e.prevMonth 0 ≠ rowIdx.getD m 0 ∧
          getCRF (setCRF rows (rowIdx.getD m 0) nr c.CRF)
            (rowIdx.getD e.prevMonth 0) e.prevRank ≠ D.ninf ∧
          (∀ r2 : ℕ, getCRF (setCRF rows (rowIdx.getD m 0) nr c.CRF)
              (rowIdx.getD e.prevMonth 0) r2 ≠ D.ninf →
            0 ≤ (((setDec decs m nr ((c.tenor : ℤ), (c.prevRank : ℤ))).getD
              e.prevMonth []).getD r2 (-1, -1)).1) := by
        intro heap2 hsub e he
        obtain ⟨p1, p2, p3, p4, p5, p6, p7⟩ := hQ e (hsub1 e (hsub e he))
        have hrow : ∀ r2 : ℕ, getCRF (setCRF rows (rowIdx.getD m 0) nr c.CRF)
            (rowIdx.getD e.prevMonth 0) r2 = getCRF rows (rowIdx.getD e.prevMonth 0) r2 := by
          intro r2
          unfold getCRF
          rw [setCRF_other _ _ _ _ p5]
        refine ⟨p1, p2, p3, p4, p5, by rw [hrow]; exact p6, ?_⟩
        intro r2 hr2
        rw [hdec1other _ p4]
        exact p7 r2 (by rw [hrow] at hr2; exact hr2)
      by_cases hnext : c.prevRank + 1 < k
      · rw [if_pos hnext] at h
        by_cases hninf : getCRF (setCRF rows (rowIdx.getD m 0) nr c.CRF)
            (rowIdx.getD c.prevMonth 0) (c.prevRank + 1) = D.ninf
        · rw [if_pos hninf] at h
          exact ih heap1 _ _ (nr + 1) rows2 decs2 nr2 h (by omega)
            (by rw [setDec_length]; exact hmd) hdec1len
            (hQ1 heap1 (fun e he => he)) hprev1
        · rw [if_neg hninf] at h
          by_cases hinf : isinfD (mulD (getCRF (setCRF rows (rowIdx.getD m 0) nr c.CRF)
              (rowIdx.getD c.prevMonth 0) (c.prevRank + 1)) c.factor) = true
          · rw [if_pos hinf] at h
            exact Except.noConfusion h
          · rw [if_neg hinf] at h
            refine ih _ _ _ (nr + 1) rows2 decs2 nr2 h (by omega)
              (by rw [setDec_length]; exact hmd) hdec1len ?_ hprev1
            intro e he
            rcases List.mem_cons.mp he with he | he
            · subst he
              obtain ⟨p1, p2, p3, p4, p5, p6, p7⟩ := hQ c hcmem
              refine ⟨?_, ?_, hnext, p4, p5, hninf, ?_⟩
              · intro ht; exact p1 ht
              · intro ht; exact p2 ht
              · intro r2 hr2
                show 0 ≤ (((setDec decs m nr ((c.tenor : ℤ), (c.prevRank : ℤ))).getD
                  c.prevMonth []).getD r2 (-1, -1)).1
                rw [hdec1other _ p4]
                refine p7 r2 ?_
                have hrow : getCRF (setCRF rows (rowIdx.getD m 0) nr c.CRF)
                    (rowIdx.getD c.prevMonth 0) r2 =
                    getCRF rows (rowIdx.getD c.prevMonth 0) r2 := by
                  unfold getCRF
                  rw [setCRF_other _ _ _ _ p5]
                rw [hrow] at hr2
                exact hr2
            · exact hQ1 heap1 (fun e2 he2 => he2) e he
      · rw [if_neg hnext] at h
        exact ih heap1 _ _ (nr + 1) rows2 decs2 nr2 h (by omega)
          (by rw [setDec_length]; exact hmd) hdec1len
          (hQ1 heap1 (fun e he => he)) hprev1

end ExtractChain

section ProcessParts

open Domain DynamicOptimiser

theorem getD_replicate_self {α : Type} (n i : ℕ) (v : α) :
    (List.replicate n v).getD i v = v := by
  rcases Nat.lt_or_ge i n with h | h
  · exact getD_replicate n i v v h
  · rw [List.getD_eq_default _ _ (by rw [List.length_replicate]; omega)]

/-- Splitting a successful `processMonth` run into its three stages. -/
theorem processMonth_parts {R : BondReturnData} {k : ℕ} {st st2 : EngState}
    {m1 : ℕ} (h : processMonth R k st m1 = Except.ok st2) :
    ∃ heads rows1 decs1 nr,
      buyHeadsAux R (st.crfRows.set st.windowCounter (List.replicate k D.ninf))
        (st.rowIndex.set m1 st.windowCounter) m1 (List.range R.tenors.length)
        [{ CRF := getCRF (st.crfRows.set st.windowCounter (List.replicate k D.ninf))
            ((st.rowIndex.set m1 st.windowCounter).getD (m1 - 1) 0) 0,
           tenor := 0, prevRank := 0, prevMonth := m1 - 1, factor := 1 }] =
        Except.ok heads ∧
      extractLoop k (st.rowIndex.set m1 st.windowCounter) m1 k heads
        (st.crfRows.set st.windowCounter (List.replicate k D.ninf)) st.decisions 0 =
        Except.ok (rows1, decs1, nr) ∧
      st2 = { crfRows := rows1, decisions := decs1,
              rowIndex := st.rowIndex.set m1 st.windowCounter,
              windowCounter := if st.windowCounter + 1 = window R then 0
                else st.windowCounter + 1,
              numResultsFound := nr } := by
  simp only [processMonth] at h
  obtain ⟨heads, hheads, h2⟩ := bind_eq_ok h
  obtain ⟨trip, hext, h3⟩ := bind_eq_ok h2
  obtain ⟨rows1, decs1, nr⟩ := trip
  simp only at h3
  exact ⟨heads, rows1, decs1, nr, hheads, hext, (Except.ok.inj h3).symm⟩

end ProcessParts

section BuyCandLemmas

open Domain DynamicOptimiser

theorem buyCand_CRF (R : BondReturnData) (rows : List (List D))
    (rowIdx : List ℕ) (m i : ℕ) :
    (buyCand R rows rowIdx m i).CRF =
      mulD (getCRF rows (rowIdx.getD (m - R.tenors.getD i 0) 0) 0)
        (1 + R.hpr i (m - R.tenors.getD i 0)) := rfl

theorem buyCand_tenor (R : BondReturnData) (rows : List (List D))
    (rowIdx : List ℕ) (m i : ℕ) :
    (buyCand R rows rowIdx m i).tenor = R.tenors.getD i 0 := rfl

theorem buyCand_prevRank (R : BondReturnData) (rows : List (List D))
    (rowIdx : List ℕ) (m i : ℕ) :
    (buyCand R rows rowIdx m i).prevRank = 0 := rfl

theorem buyCand_prevMonth (R : BondReturnData) (rows : List (List D))
    (rowIdx : List ℕ) (m i : ℕ) :
    (buyCand R rows rowIdx m i).prevMonth = m - R.tenors.getD i 0 := rfl

theorem buyCand_factor (R : BondReturnData) (rows : List (List D))
    (rowIdx : List ℕ) (m i : ℕ) :
    (buyCand R rows rowIdx m i).factor =
      1 + R.hpr i (m - R.tenors.getD i 0) := rfl

end BuyCandLemmas

section ProcessStep

open Domain DynamicOptimiser ScalarOptimiser

/-- One month of the engine loop preserves the structural, chain and
(under non-negative factors) sortedness invariants. -/
theorem processMonth_step (R : BondReturnData) (k m : ℕ) (st st2 : EngState)
    (hv : ValidData R) (hk : 1 ≤ k) (hm1 : m + 1 ≤ R.numMonths)
    (hinv : InvBase R k m st) (hch : InvChain k m st)
    (h : processMonth R k st (m + 1) = Except.ok st2) :
    InvBase R k (m + 1) st2 ∧ InvChain k (m + 1) st2 ∧
      (FactorsNonneg R → InvSort R m st → InvSort R (m + 1) st2) := by
  obtain ⟨heads, rows1, decs1, nr, hheads, hext, hst2⟩ := processMonth_parts h
  obtain ⟨b1, b2, b3, b4, b5, b6, b7, b8, b9, b10⟩ := hinv
  have hw2 : 2 ≤ window R := window_ge_two hv
  have hMpos : 1 ≤ R.numMonths := numMonths_pos hv
  simp only [Nat.add_sub_cancel] at hheads
  set rows0 := st.crfRows.set st.windowCounter (List.replicate k D.ninf) with hrows0
  set rowIdx1 := st.rowIndex.set (m + 1) st.windowCounter with hrI
  set wh : Candidate :=
    { CRF := getCRF rows0 (rowIdx1.getD m 0) 0, tenor := 0, prevRank := 0,
      prevMonth := m, factor := 1 } with hwh
  have hphyslt : (m + 1) % window R < window R := Nat.mod_lt _ (by omega)
  have hidx : ∀ j, j ≤ m + 1 → rowIdx1.getD j 0 = j % window R := by
    intro j hj
    rcases Nat.lt_or_ge j (m + 1) with hjm | hjm
    · rw [hrI, getD_set_neq _ _ _ _ _ (by omega)]
      exact b4 j (by omega)
    · have hje : j = m + 1 := by omega
      subst hje
      rw [hrI, getD_set_self _ _ _ _ (by rw [b3]; omega), b5]
  have hrows0len : rows0.length = window R := by
    rw [hrows0, List.length_set, b1]
  have hrows0phys : rows0.getD ((m + 1) % window R) [] = List.replicate k D.ninf := by
    rw [hrows0, ← b5]
    exact getD_set_self _ _ _ _ (by rw [b1, b5]; exact hphyslt)
  have hrows0other : ∀ ph, ph ≠ (m + 1) % window R →
      rows0.getD ph [] = st.crfRows.getD ph [] := by
    intro ph hph
    rw [hrows0]
    refine getD_set_neq _ _ _ _ _ ?_
    rw [b5]
    intro hc
    exact hph hc.symm
  have hres : ∀ j, j ≤ m → m + 1 < j + window R → j % window R ≠ (m + 1) % window R := by
    intro j hj hjw
    exact mod_ne_of_close (by omega) (by omega)
  have hRowOK0 : ∀ j, j ≤ m → m + 1 < j + window R →
      ∃ c, RowOK R k j c (rows0.getD (j % window R) []) (st.decisions.getD j []) := by
    intro j hj hjw
    obtain ⟨c, hc⟩ := b9 j hj (by omega)
    refine ⟨c, ?_⟩
    rw [hrows0other _ (hres j hj hjw)]
    exact hc
  have hscal : ∀ j, j ≤ m → m + 1 < j + window R →
      (rows0.getD (j % window R) []).getD 0 D.ninf = scalarBest R j ∧
      ∃ q, scalarBest R j = D.fin q ∧ -MAXD ≤ q ∧ q ≤ MAXD := by
    intro j hj hjw
    obtain ⟨c, hc1, hck, hc0, hcfin, hcninf, hcd1, hcd2⟩ := hRowOK0 j hj hjw
    refine ⟨hc0, ?_⟩
    obtain ⟨q, hq, hqb1, hqb2⟩ := hcfin 0 (by omega)
    refine ⟨q, ?_, hqb1, hqb2⟩
    rw [← hc0]
    exact hq
  have hm_le : m ≤ m := le_refl m
  have hmw : m + 1 < m + window R := by omega
  have hwait0 : getCRF rows0 (rowIdx1.getD m 0) 0 = scalarBest R m := by
    unfold getCRF
    rw [hidx m (by omega)]
    exact (hscal m hm_le hmw).1
  have hbuy : ∀ i, i < R.tenors.length → ¬(m + 1 < R.tenors.getD i 0) →
      1 ≤ R.tenors.getD i 0 ∧
      R.tenors.getD i 0 < window R ∧
      m + 1 - R.tenors.getD i 0 ≤ m ∧
      m + 1 < (m + 1 - R.tenors.getD i 0) + window R ∧
      getCRF rows0 (rowIdx1.getD (m + 1 - R.tenors.getD i 0) 0) 0 =
        scalarBest R (m + 1 - R.tenors.getD i 0) := by
    intro i hi ht
    have h1 := tenor_pos hv hi
    have h2 := tenor_lt_window hv hi (by omega) hm1
    refine ⟨h1, h2, by omega, by omega, ?_⟩
    unfold getCRF
    rw [hidx _ (by omega)]
    exact (hscal _ (by omega) (by omega)).1
  obtain ⟨hWsub, hBall, hback⟩ :=
    buyHeadsAux_chara R rows0 rowIdx1 (m + 1) (List.range R.tenors.length) [wh] heads hheads
  have hWmem : wh ∈ heads := hWsub wh (List.mem_cons_self _ _)
  have hfinheads : ∀ e ∈ heads, ∃ q, e.CRF = D.fin q ∧ -MAXD ≤ q ∧ q ≤ MAXD := by
    intro e he
    rcases hback e he with hw | ⟨i, hi, ht, heq, hfin⟩
    · have hew : e = wh := List.mem_singleton.mp hw
      subst hew
      obtain ⟨q, hq, hb1, hb2⟩ := (hscal m hm_le hmw).2
      refine ⟨q, ?_, hb1, hb2⟩
      show getCRF rows0 (rowIdx1.getD m 0) 0 = D.fin q
      rw [hwait0, hq]
    · subst heq
      exact mulD_fin_notinf hfin
  have hle_all : ∀ e ∈ heads, leD e.CRF (scalarBest R (m + 1)) := by
    intro e he
    rcases hback e he with hw | ⟨i, hi, ht, heq, hfin⟩
    · have hew : e = wh := List.mem_singleton.mp hw
      subst hew
      show leD (getCRF rows0 (rowIdx1.getD m 0) 0) (scalarBest R (m + 1))
      rw [hwait0]
      exact scalarBest_mono R m
    · subst heq
      have hi' := List.mem_range.mp hi
      rw [buyCand_CRF, (hbuy i hi' ht).2.2.2.2, scalarBest_succ]
      have hpair := range_tenor_pairwise R hv.2.1
      have hcand := scalarFold_ge_cand R (scalarTable R m) (m + 1)
        (List.range R.tenors.length) hpair (scalarBest R m) i hi ht
      rw [scalarTable_getD_le R m _ (by
        have := (hbuy i hi' ht).1; omega)] at hcand
      exact hcand
  have hge_best : ∀ c heap1, popMax heads = some (c, heap1) →
      c.CRF = scalarBest R (m + 1) := by
    intro c heap1 hpop
    have hcmem : c ∈ heads :=
      (popMax_perm hpop).symm.subset (List.mem_cons_self _ _)
    have hmax := popMax_max hpop
    refine leD_antisymm (hle_all c hcmem) ?_
    rw [scalarBest_succ]
    rcases scalarFold_mem R (scalarTable R m) (m + 1) (List.range R.tenors.length)
        (scalarBest R m) with hmem | ⟨i, hi, ht, hres2⟩
    · rw [hmem]
      have h2 : leD (getCRF rows0 (rowIdx1.getD m 0) 0) c.CRF := hmax wh hWmem
      rw [← hwait0]
      exact h2
    · have hi' := List.mem_range.mp hi
      rw [hres2, scalarTable_getD_le R m _ (by
        have := (hbuy i hi' ht).1; omega)]
      have hcand : buyCand R rows0 rowIdx1 (m + 1) i ∈ heads := hBall i hi ht
      have h2 := hmax _ hcand
      rw [buyCand_CRF, (hbuy i hi' ht).2.2.2.2] at h2
      exact h2
  have hlr0 : (rows0.getD (rowIdx1.getD (m + 1) 0) []).length = k := by
    rw [hidx (m + 1) (le_refl _), hrows0phys, List.length_replicate]
  have hdecm1 : st.decisions.getD (m + 1) [] = List.replicate k (-1, -1) :=
    b8 (m + 1) (by omega) hm1
  have hld0 : (st.decisions.getD (m + 1) []).length = k := by
    rw [hdecm1, List.length_replicate]
  obtain ⟨i1, i2, i3, i4, i5, i6, i7, i8, i9, i10, i11, i12⟩ :=
    extractLoop_spec k rowIdx1 (m + 1) k heads rows0 st.decisions 0 rows1 decs1 nr
      hext rfl (Nat.zero_le k) hfinheads hlr0 hld0
  have hheadsne : heads ≠ [] := by
    intro hnil
    rw [hnil] at hWmem
    exact List.not_mem_nil _ hWmem
  have hnr1 : 1 ≤ nr := i3 hheadsne (by omega)
  have hphys1 : rowIdx1.getD (m + 1) 0 = (m + 1) % window R := hidx (m + 1) (le_refl _)
  have hrank0 : (rows1.getD ((m + 1) % window R) []).getD 0 D.ninf = scalarBest R (m + 1) := by
    cases hpop : popMax heads with
    | none => exact absurd hpop (popMax_ne_none hheadsne)
    | some pr =>
      obtain ⟨c, heap1⟩ := pr
      have h12 := i12 rfl (by omega) c heap1 hpop
      rw [hphys1] at h12
      rw [h12]
      exact hge_best c heap1 hpop
  have hR1 : RowOK R k (m + 1) nr (rows1.getD ((m + 1) % window R) [])
      (decs1.getD (m + 1) []) := by
    refine ⟨hnr1, i2, hrank0, ?_, ?_, ?_, ?_⟩
    · intro r hr
      have h2 := (i11 r (Nat.zero_le r) hr).1
      rw [hphys1] at h2
      exact h2
    · intro r hr
      have h2 := (i10 r (Or.inr hr)).1
      rw [hphys1] at h2
      rw [h2, hrows0phys, getD_replicate_self]
    · intro r hr
      exact (i11 r (Nat.zero_le r) hr).2
    · intro r hr
      have h2 := (i10 r (Or.inr hr)).2
      rw [h2, hdecm1, getD_replicate_self]
  subst hst2
  refine ⟨⟨?_, ?_, ?_, ?_, ?_, ?_, ?_, ?_, ?_, ?_⟩, ?_, ?_⟩
  · -- lengths of the CRF buffer
    show rows1.length = window R
    rw [i4, hrows0len]
  · -- row lengths
    show ∀ row ∈ rows1, row.length = k
    refine forall_mem_of_getD rows1 [] _ ?_
    intro ph hph
    by_cases hpe : ph = rowIdx1.getD (m + 1) 0
    · rw [hpe]
      exact i6
    · rw [i5 ph hpe]
      have hpe2 : ph ≠ (m + 1) % window R := by
        rw [← hphys1]
        exact hpe
      rw [hrows0other ph hpe2]
      refine b2 _ (getD_mem _ _ _ ?_)
      rw [i4, hrows0len] at hph
      rw [b1]
      exact hph
  · -- rowIndex length
    show rowIdx1.length = R.numMonths + 1
    rw [hrI, List.length_set, b3]
  · -- rowIndex values
    show ∀ j, j ≤ m + 1 → rowIdx1.getD j 0 = j % window R
    exact hidx
  · -- window counter
    show (if st.windowCounter + 1 = window R then 0 else st.windowCounter + 1) =
      (m + 1 + 1) % window R
    rw [b5]
    exact wc_succ_mod (window R) (m + 1) hw2
  · -- decisions length
    show decs1.length = R.numMonths + 1
    rw [i7, b6]
  · -- decision row lengths
    show ∀ drow ∈ decs1, drow.length = k
    refine forall_mem_of_getD decs1 [] _ ?_
    intro j hj
    by_cases hje : j = m + 1
    · rw [hje]
      exact i9
    · rw [i8 j hje]
      refine b7 _ (getD_mem _ _ _ ?_)
      rw [i7] at hj
      exact hj
  · -- future decision rows
    show ∀ j, m + 1 < j → j ≤ R.numMonths →
      decs1.getD j [] = List.replicate k (-1, -1)
    intro j hj hjM
    rw [i8 j (by omega)]
    exact b8 j (by omega) hjM
  · -- RowOK for the retained window
    show ∀ j, j ≤ m + 1 → m + 1 < j + window R →
      ∃ c, RowOK R k j c (rows1.getD (j % window R) []) (decs1.getD j [])
    intro j hj hjw
    rcases Nat.lt_or_ge j (m + 1) with hjm | hjm
    · obtain ⟨c, hc⟩ := hRowOK0 j (by omega) hjw
      refine ⟨c, ?_⟩
      have hne : j % window R ≠ rowIdx1.getD (m + 1) 0 := by
        rw [hphys1]
        exact hres j (by omega) hjw
      rw [i5 _ hne, i8 j (by omega)]
      exact hc
    · have hje : j = m + 1 := by omega
      subst hje
      exact ⟨nr, hR1⟩
  · -- the filled count of the current month
    intro hm0
    exact ⟨nr, rfl, hR1⟩
  · -- the chain invariant
    show InvChain k (m + 1)
      { crfRows := rows1, decisions := decs1, rowIndex := rowIdx1,
        windowCounter := if st.windowCounter + 1 = window R then 0
          else st.windowCounter + 1,
        numResultsFound := nr }
    intro j hj1 hjm r hfill
    show GoodDec k decs1 j ((decs1.getD j []).getD r (-1, -1))
    rcases Nat.lt_or_ge j (m + 1) with hjlt | hjge
    · have hent : decs1.getD j [] = st.decisions.getD j [] := i8 j (by omega)
      rw [hent] at hfill ⊢
      obtain ⟨g1, g2, g3, g4, g5⟩ := hch j hj1 (by omega) r hfill
      refine ⟨g1, g2, g3, g4, ?_⟩
      have hpm_ne : (if ((st.decisions.getD j []).getD r (-1, -1)).1 = 0 then j - 1
          else j - ((st.decisions.getD j []).getD r (-1, -1)).1.toNat) ≠ m + 1 := by
        by_cases ht : ((st.decisions.getD j []).getD r (-1, -1)).1 = 0
        · rw [if_pos ht]
          omega
        · rw [if_neg ht]
          have h1 : 1 ≤ ((st.decisions.getD j []).getD r (-1, -1)).1 := by omega
          have h2 : 1 ≤ ((st.decisions.getD j []).getD r (-1, -1)).1.toNat := by omega
          omega
      rw [i8 _ hpm_ne]
      exact g5
    · have hje : j = m + 1 := by omega
      subst hje
      have hrlt : r < nr := by
        by_contra hc
        push_neg at hc
        have h2 := (i10 r (Or.inr hc)).2
        rw [h2, hdecm1, getD_replicate_self] at hfill
        simp at hfill
      refine extractLoop_chain k rowIdx1 (m + 1) (by omega) k heads rows0
        st.decisions 0 rows1 decs1 nr hext rfl (by rw [b6]; omega) hld0 ?_
        (fun r2 hr2 => absurd hr2 (Nat.not_lt_zero r2)) r hrlt
      intro e he
      rcases hback e he with hw | ⟨i, hi, ht, heq, hfin⟩
      · have hew : e = wh := List.mem_singleton.mp hw
        subst hew
        obtain ⟨cm, hc1, hck, hc0, hcfin, hcninf, hcd1, hcd2⟩ := hRowOK0 m hm_le hmw
        refine ⟨fun _ => rfl, ?_, hk, (show m ≠ m + 1 by omega), ?_, ?_, ?_⟩
        · intro h0
          exact absurd rfl h0
        · show rowIdx1.getD m 0 ≠ rowIdx1.getD (m + 1) 0
          rw [hidx m (by omega), hphys1]
          exact hres m hm_le hmw
        · show getCRF rows0 (rowIdx1.getD m 0) 0 ≠ D.ninf
          rw [hwait0]
          obtain ⟨q, hq, _, _⟩ := (hscal m hm_le hmw).2
          rw [hq]
          simp
        · intro r2 hr2
          show 0 ≤ ((st.decisions.getD m []).getD r2 (-1, -1)).1
          have hcell : getCRF rows0 (rowIdx1.getD m 0) r2 =
              (rows0.getD (m % window R) []).getD r2 D.ninf := by
            unfold getCRF
            rw [hidx m (by omega)]
          rw [hcell] at hr2
          rcases Nat.lt_or_ge r2 cm with hlt | hge
          · exact hcd1 r2 hlt
          · exact absurd (hcninf r2 hge) hr2
      · subst heq
        have hi' := List.mem_range.mp hi
        obtain ⟨ht1, htw, hpm, hret, hprev⟩ := hbuy i hi' ht
        obtain ⟨cm, hc1, hck, hc0, hcfin, hcninf, hcd1, hcd2⟩ :=
          hRowOK0 (m + 1 - R.tenors.getD i 0) hpm hret
        refine ⟨?_, ?_, ?_, ?_, ?_, ?_, ?_⟩
        · intro h0
          rw [buyCand_tenor] at h0
          omega
        · intro _
          rw [buyCand_tenor, buyCand_prevMonth]
          omega
        · rw [buyCand_prevRank]
          omega
        · rw [buyCand_prevMonth]
          omega
        · rw [buyCand_prevMonth, hidx _ (by omega), hphys1]
          exact hres _ hpm hret
        · rw [buyCand_prevMonth, buyCand_prevRank]
          rw [show getCRF rows0 (rowIdx1.getD (m + 1 - R.tenors.getD i 0) 0) 0 =
            scalarBest R (m + 1 - R.tenors.getD i 0) from hprev]
          obtain ⟨q, hq, _, _⟩ := (hscal _ hpm hret).2
          rw [hq]
          simp
        · intro r2 hr2
          rw [buyCand_prevMonth] at hr2 ⊢
          have hcell : getCRF rows0 (rowIdx1.getD (m + 1 - R.tenors.getD i 0) 0) r2 =
              (rows0.getD ((m + 1 - R.tenors.getD i 0) % window R) []).getD r2 D.ninf := by
            unfold getCRF
            rw [hidx _ (by omega)]
          rw [hcell] at hr2
          rcases Nat.lt_or_ge r2 cm with hlt | hge
          · exact hcd1 r2 hlt
          · exact absurd (hcninf r2 hge) hr2
  · -- the sortedness invariant
    intro hf hsortm
    show InvSort R (m + 1)
      { crfRows := rows1, decisions := decs1, rowIndex := rowIdx1,
        windowCounter := if st.windowCounter + 1 = window R then 0
          else st.windowCounter + 1,
        numResultsFound := nr }
    intro j hj hjw
    show RowSorted (rows1.getD (j % window R) [])
    rcases Nat.lt_or_ge j (m + 1) with hjlt | hjge
    · have hne : j % window R ≠ rowIdx1.getD (m + 1) 0 := by
        rw [hphys1]
        exact hres j (by omega) hjw
      rw [i5 _ hne, hrows0other _ (hres j (by omega) hjw)]
      exact hsortm j (by omega) (by omega)
    · have hje : j = m + 1 := by omega
      subst hje
      intro r1 r2 h12
      rcases Nat.lt_or_ge r2 nr with hlt | hge
      · have hsorted := extractLoop_sorted k rowIdx1 (m + 1) k heads rows0
          st.decisions 0 rows1 decs1 nr hext rfl hlr0
          (by rw [hphys1, hrows0len]; exact hphyslt) ?_
          (fun e he r hr => absurd hr (Nat.not_lt_zero r))
          (fun s1 s2 hs12 hs2 => absurd hs2 (Nat.not_lt_zero s2)) r1 r2 h12 hlt
        · rw [hphys1] at hsorted
          exact hsorted
        · intro e he
          rcases hback e he with hw | ⟨i, hi, ht, heq, hfin⟩
          · have hew : e = wh := List.mem_singleton.mp hw
            subst hew
            refine ⟨by norm_num, ?_, ?_, ?_⟩
            · show rowIdx1.getD m 0 ≠ rowIdx1.getD (m + 1) 0
              rw [hidx m (by omega), hphys1]
              exact hres m hm_le hmw
            · show getCRF rows0 (rowIdx1.getD m 0) 0 =
                mulD (getCRF rows0 (rowIdx1.getD m 0) 0) 1
              rw [hwait0]
              obtain ⟨q, hq, hb1, hb2⟩ := (hscal m hm_le hmw).2
              rw [hq]
              exact (mulD_one hb1 hb2).symm
            · show RowSorted (rows0.getD (rowIdx1.getD m 0) [])
              rw [hidx m (by omega), hrows0other _ (hres m hm_le hmw)]
              exact hsortm m hm_le (by omega)
          · subst heq
            have hi' := List.mem_range.mp hi
            obtain ⟨ht1, htw, hpm, hret, hprev⟩ := hbuy i hi' ht
            refine ⟨?_, ?_, ?_, ?_⟩
            · rw [buyCand_factor]
              exact hf i hi' _ (by omega)
            · rw [buyCand_prevMonth, hidx _ (by omega), hphys1]
              exact hres _ hpm hret
            · rfl
            · rw [buyCand_prevMonth, hidx _ (by omega),
                hrows0other _ (hres _ hpm hret)]
              exact hsortm _ hpm (by omega)
      · have h2 := (i10 r2 (Or.inr hge)).1
        rw [hphys1] at h2
        rw [h2, hrows0phys, getD_replicate_self]
        exact leD_ninf _

end ProcessStep

section RunLemmas

open Domain DynamicOptimiser ScalarOptimiser

theorem MAXD_ge_one : (1 : ℚ) ≤ MAXD := by
  unfold MAXD
  norm_num

theorem initState_invBase (R : BondReturnData) (k : ℕ) (hv : ValidData R)
    (hk : 1 ≤ k) : InvBase R k 0 (initState R k) := by
  have hw2 : 2 ≤ window R := window_ge_two hv
  have hclen : (initState R k).crfRows.length = window R := by
    show (setCRF (List.replicate (window R) (List.replicate k D.ninf)) 0 0
      (D.fin 1)).length = window R
    rw [setCRF_length, List.length_replicate]
  have hdlen : (initState R k).decisions.length = R.numMonths + 1 := by
    show (setDec (List.replicate (R.numMonths + 1)
      (List.replicate k ((-1 : ℤ), (-1 : ℤ)))) 0 0 (0, -1)).length = R.numMonths + 1
    rw [setDec_length, List.length_replicate]
  have hrow : (initState R k).crfRows.getD 0 [] =
      (List.replicate k D.ninf).set 0 (D.fin 1) := by
    show (setCRF (List.replicate (window R) (List.replicate k D.ninf)) 0 0
      (D.fin 1)).getD 0 [] = _
    rw [setCRF_self _ _ _ _ (by rw [List.length_replicate]; omega),
      getD_replicate _ _ _ _ (by omega)]
  have hdrow : (initState R k).decisions.getD 0 [] =
      (List.replicate k ((-1 : ℤ), (-1 : ℤ))).set 0 (0, -1) := by
    show (setDec (List.replicate (R.numMonths + 1)
      (List.replicate k ((-1 : ℤ), (-1 : ℤ)))) 0 0 (0, -1)).getD 0 [] = _
    rw [setDec_self _ _ _ _ (by rw [List.length_replicate]; omega),
      getD_replicate _ _ _ _ (by omega)]
  refine ⟨hclen, ?_, ?_, ?_, ?_, hdlen, ?_, ?_, ?_, ?_⟩
  · refine forall_mem_of_getD _ [] _ ?_
    intro ph hph
    by_cases hpe : ph = 0
    · rw [hpe, hrow, List.length_set, List.length_replicate]
    · have h2 : (initState R k).crfRows.getD ph [] = List.replicate k D.ninf := by
        show (setCRF (List.replicate (window R) (List.replicate k D.ninf)) 0 0
          (D.fin 1)).getD ph [] = _
        rw [setCRF_other _ _ _ _ hpe,
          getD_replicate _ _ _ _ (by rw [hclen] at hph; exact hph)]
      rw [h2, List.length_replicate]
  · show (List.replicate (R.numMonths + 1) 0).length = R.numMonths + 1
    rw [List.length_replicate]
  · intro j hj
    have hj0 : j = 0 := by omega
    subst hj0
    show (List.replicate (R.numMonths + 1) 0).getD 0 0 = 0 % window R
    rw [Nat.zero_mod, getD_replicate _ _ _ _ (by omega)]
  · show 1 = (0 + 1) % window R
    rw [show (0 : ℕ) + 1 = 1 from rfl, Nat.mod_eq_of_lt (by omega)]
  · refine forall_mem_of_getD _ [] _ ?_
    intro j hj
    by_cases hje : j = 0
    · rw [hje, hdrow, List.length_set, List.length_replicate]
    · have h2 : (initState R k).decisions.getD j [] =
          List.replicate k ((-1 : ℤ), (-1 : ℤ)) := by
        show (setDec (List.replicate (R.numMonths + 1)
          (List.replicate k ((-1 : ℤ), (-1 : ℤ)))) 0 0 (0, -1)).getD j [] = _
        rw [setDec_other _ _ _ _ hje,
          getD_replicate _ _ _ _ (by rw [hdlen] at hj; exact hj)]
      rw [h2, List.length_replicate]
  · intro j hj hjM
    show (setDec (List.replicate (R.numMonths + 1)
      (List.replicate k ((-1 : ℤ), (-1 : ℤ)))) 0 0 (0, -1)).getD j [] = _
    rw [setDec_other _ _ _ _ (by omega), getD_replicate _ _ _ _ (by omega)]
  · intro j hj hjw
    have hj0 : j = 0 := by omega
    subst hj0
    refine ⟨1, le_refl 1, hk, ?_, ?_, ?_, ?_, ?_⟩
    · show (((initState R k).crfRows.getD (0 % window R) []).getD 0 D.ninf) =
        scalarBest R 0
      rw [Nat.zero_mod, hrow, scalarBest_zero]
      exact getD_set_self _ _ _ _ (by rw [List.length_replicate]; omega)
    · intro r hr
      have hr0 : r = 0 := by omega
      subst hr0
      refine ⟨1, ?_, by linarith [MAXD_ge_one], MAXD_ge_one⟩
      show (((initState R k).crfRows.getD (0 % window R) []).getD 0 D.ninf) = D.fin 1
      rw [Nat.zero_mod, hrow]
      exact getD_set_self _ _ _ _ (by rw [List.length_replicate]; omega)
    · intro r hr
      show (((initState R k).crfRows.getD (0 % window R) []).getD r D.ninf) = D.ninf
      rw [Nat.zero_mod, hrow, getD_set_neq _ _ _ _ _ (by omega), getD_replicate_self]
    · intro r hr
      have hr0 : r = 0 := by omega
      subst hr0
      show 0 ≤ (((initState R k).decisions.getD 0 []).getD 0 (-1, -1)).1
      rw [hdrow, getD_set_self _ _ _ _ (by rw [List.length_replicate]; omega)]
    · intro r hr
      show ((initState R k).decisions.getD 0 []).getD r (-1, -1) = (-1, -1)
      rw [hdrow, getD_set_neq _ _ _ _ _ (by omega), getD_replicate_self]
  · intro h0
    exact absurd h0 (by omega)

theorem initState_invChain (R : BondReturnData) (k : ℕ) :
    InvChain k 0 (initState R k) := by
  intro j h1 h2
  exact absurd (le_trans h1 h2) (by omega)

theorem initState_invSort (R : BondReturnData) (k : ℕ) :
    InvSort R 0 (initState R k) := by
  intro j hj hjw
  have hj0 : j = 0 := by omega
  subst hj0
  have hrow : (initState R k).crfRows.getD (0 % window R) [] =
      (List.replicate k D.ninf).set 0 (D.fin 1) := by
    show (setCRF (List.replicate (window R) (List.replicate k D.ninf)) 0 0
      (D.fin 1)).getD (0 % window R) [] = _
    rw [Nat.zero_mod]
    rw [setCRF_self _ _ _ _ (by rw [List.length_replicate]; unfold window; omega),
      getD_replicate _ _ _ _ (by unfold window; omega)]
  show RowSorted ((initState R k).crfRows.getD (0 % window R) [])
  rw [hrow]
  intro r1 r2 h12
  by_cases h2 : r2 = 0
  · have h1 : r1 = 0 := by omega
    rw [h1, h2]
    exact leD_refl _
  · rw [getD_set_neq _ _ _ _ _ (fun hc => h2 hc.symm), getD_replicate_self]
    exact leD_ninf _

theorem bind_eq_error {ε α β : Type} {x : Except ε α} {f : α → Except ε β} {err : ε}
    (h : x >>= f = Except.error err) :
    x = Except.error err ∨ ∃ v, x = Except.ok v ∧ f v = Except.error err := by
  cases x with
  | error e2 =>
    left
    rw [bind_error_eq] at h
    rw [Except.error.inj h]
  | ok v =>
    right
    rw [bind_ok_eq] at h
    exact ⟨v, rfl, h⟩

theorem processMonth_error {R : BondReturnData} {k : ℕ} {st : EngState}
    {m1 : ℕ} {e : Err} (h : processMonth R k st m1 = Except.error e) :
    ∃ v, isinfD v = true ∧ e = throwCRFOverflow v m1 := by
  simp only [processMonth] at h
  rcases bind_eq_error h with h1 | ⟨heads, hheads, h2⟩
  · exact buyHeadsAux_error _ _ _ _ _ _ _ h1
  · rcases bind_eq_error h2 with h3 | ⟨trip, htrip, h4⟩
    · exact extractLoop_error _ _ _ _ _ _ _ _ _ h3
    · obtain ⟨rows1, decs1, nr⟩ := trip
      simp only at h4
      exact Except.noConfusion h4

theorem runMonths_succ_ok {R : BondReturnData} {k M : ℕ} {st' : EngState}
    (h : runMonths R k (M + 1) = Except.ok st') :
    ∃ st, runMonths R k M = Except.ok st ∧
      processMonth R k st (M + 1) = Except.ok st' := by
  rw [runMonths] at h
  exact bind_eq_ok h

theorem runMonths_error {R : BondReturnData} {k : ℕ} :
    ∀ (M : ℕ) (e : Err), runMonths R k M = Except.error e →
    ∃ m st, 1 ≤ m ∧ m ≤ M ∧ runMonths R k (m - 1) = Except.ok st ∧
      processMonth R k st m = Except.error e := by
  intro M
  induction M with
  | zero =>
    intro e h
    rw [runMonths] at h
    exact Except.noConfusion h
  | succ M ih =>
    intro e h
    rw [runMonths] at h
    rcases bind_eq_error h with h1 | ⟨st, hst, h2⟩
    · obtain ⟨m, st, hm1, hmM, hrun, hproc⟩ := ih e h1
      exact ⟨m, st, hm1, by omega, hrun, hproc⟩
    · refine ⟨M + 1, st, by omega, le_refl _, ?_, h2⟩
      rw [show M + 1 - 1 = M from rfl]
      exact hst

theorem runMonths_inv (R : BondReturnData) (k : ℕ) (hv : ValidData R) (hk : 1 ≤ k) :
    ∀ m, m ≤ R.numMonths → ∀ st, runMonths R k m = Except.ok st →
      InvBase R k m st ∧ InvChain k m st := by
  intro m
  induction m with
  | zero =>
    intro _ st h
    rw [runMonths] at h
    have h2 : initState R k = st := Except.ok.inj h
    subst h2
    exact ⟨initState_invBase R k hv hk, initState_invChain R k⟩
  | succ m ih =>
    intro hm st h
    obtain ⟨st0, hrun, hstep⟩ := runMonths_succ_ok h
    obtain ⟨hb, hc⟩ := ih (by omega) st0 hrun
    obtain ⟨hb1, hc1, _⟩ := processMonth_step R k m st0 st hv hk hm hb hc hstep
    exact ⟨hb1, hc1⟩

theorem runMonths_sort (R : BondReturnData) (k : ℕ) (hv : ValidData R) (hk : 1 ≤ k)
    (hf : FactorsNonneg R) :
    ∀ m, m ≤ R.numMonths → ∀ st, runMonths R k m = Except.ok st →
      InvSort R m st := by
  intro m
  induction m with
  | zero =>
    intro _ st h
    rw [runMonths] at h
    have h2 : initState R k = st := Except.ok.inj h
    subst h2
    exact initState_invSort R k
  | succ m ih =>
    intro hm st h
    obtain ⟨st0, hrun, hstep⟩ := runMonths_succ_ok h
    obtain ⟨hb, hc⟩ := runMonths_inv R k hv hk m (by omega) st0 hrun
    obtain ⟨_, _, hs⟩ := processMonth_step R k m st0 st hv hk hm hb hc hstep
    exact hs hf (ih (by omega) st0 hrun)

end RunLemmas

section ReconOk

open Domain DynamicOptimiser

theorem getDec_nonneg (decs : List (List (ℤ × ℤ))) {month rank : ℤ}
    (h1 : 0 ≤ month) (h2 : 0 ≤ rank) :
    getDec decs month rank = (decs.getD month.toNat []).getD rank.toNat (-1, -1) := by
  unfold getDec
  rw [if_pos ⟨h1, h2⟩]

/-- Under the chain invariant the backward walk always succeeds within
fuel exceeding the current month. -/
theorem walkPath_ok (decs : List (List (ℤ × ℤ))) (k M : ℕ)
    (hchain : ∀ j : ℕ, 1 ≤ j → j ≤ M → ∀ r : ℕ,
      0 ≤ ((decs.getD j []).getD r (-1, -1)).1 →
      GoodDec k decs j ((decs.getD j []).getD r (-1, -1))) :
    ∀ (fuel : ℕ) (cm pr : ℤ) (ws : ℕ) (acc : List InvestmentAction),
      0 ≤ cm → cm ≤ (M : ℤ) → 0 ≤ pr → cm < (fuel : ℤ) →
      (1 ≤ cm → 0 ≤ (getDec decs cm pr).1) →
      ∃ out, walkPath decs fuel cm pr ws acc = Except.ok out := by
  intro fuel
  induction fuel with
  | zero =>
    intro cm pr ws acc h0 hM hpr hfuel hfill
    exact absurd hfuel (by push_cast; omega)
  | succ fuel ih =>
    intro cm pr ws acc h0 hM hpr hfuel hfill
    rw [walkPath]
    by_cases hcm : cm ≤ 0
    · rw [if_pos hcm]
      by_cases hws : 0 < ws
      · rw [if_pos hws]
        rw [mkInvestmentAction_ok_of (le_refl 0) (by exact_mod_cast hws), bind_ok_eq]
        exact ⟨_, rfl⟩
      · rw [if_neg hws]
        exact ⟨_, rfl⟩
    · rw [if_neg hcm]
      have hcm1 : 1 ≤ cm := by omega
      have hfill1 := hfill hcm1
      have hge : getDec decs cm pr = (decs.getD cm.toNat []).getD pr.toNat (-1, -1) := by
        unfold getDec
        rw [if_pos ⟨by omega, hpr⟩]
      rw [hge] at hfill1
      obtain ⟨g1, g2, g3, g4, g5⟩ :=
        hchain cm.toNat (by omega) (by omega) pr.toNat hfill1
      have hcmnat : ((cm.toNat : ℕ) : ℤ) = cm := Int.toNat_of_nonneg h0
      by_cases he0 : (getDec decs cm pr).1 = 0
      · rw [if_pos he0]
        refine ih (cm - 1) (getDec decs cm pr).2 (ws + 1) acc (by omega) (by omega)
          (by rw [hge]; exact g3) (by push_cast at hfuel ⊢; omega) ?_
        intro hcm2
        have hpm : ((decs.getD cm.toNat []).getD pr.toNat (-1, -1)).1 = 0 := by
          rw [← hge]
          exact he0
        rw [if_pos hpm] at g5
        have hgd2 : getDec decs (cm - 1) (getDec decs cm pr).2 =
            (decs.getD (cm.toNat - 1) []).getD
              ((decs.getD cm.toNat []).getD pr.toNat (-1, -1)).2.toNat (-1, -1) := by
          rw [getDec_nonneg decs (by omega) (by rw [hge]; exact g3), hge,
            show (cm - 1).toNat = cm.toNat - 1 by omega]
        rw [hgd2]
        exact g5
      · rw [if_neg he0]
        have he1e : 1 ≤ ((decs.getD cm.toNat []).getD pr.toNat (-1, -1)).1 := by
          rw [hge] at he0
          omega
        have he2e : ((decs.getD cm.toNat []).getD pr.toNat (-1, -1)).1 ≤ cm := by
          rw [← hcmnat]
          exact g2
        have he1 : 1 ≤ (getDec decs cm pr).1 := by
          rw [hge]
          exact he1e
        have he2 : (getDec decs cm pr).1 ≤ cm := by
          rw [hge]
          exact he2e
        have hbuy : mkInvestmentAction ActKind.Buy cm
            (getDec decs cm pr).1 = Except.ok
            { action := ActKind.Buy, startMonth := cm,
              length := (getDec decs cm pr).1 } :=
          mkInvestmentAction_ok_of (by omega) (by omega)
        have hrec : ∀ acc1 : List InvestmentAction,
            ∃ out, walkPath decs fuel (cm - (getDec decs cm pr).1)
              (getDec decs cm pr).2 0 acc1 = Except.ok out := by
          intro acc1
          refine ih (cm - (getDec decs cm pr).1) (getDec decs cm pr).2 0 acc1
            (by omega) (by omega) (by rw [hge]; exact g3)
            (by push_cast at hfuel ⊢; omega) ?_
          intro hcm2
          have hpm : ¬((decs.getD cm.toNat []).getD pr.toNat (-1, -1)).1 = 0 := by
            rw [← hge]
            exact he0
          rw [if_neg hpm] at g5
          have hgd2 : getDec decs (cm - (getDec decs cm pr).1) (getDec decs cm pr).2 =
              (decs.getD (cm.toNat - ((decs.getD cm.toNat []).getD pr.toNat (-1, -1)).1.toNat) []).getD
                ((decs.getD cm.toNat []).getD pr.toNat (-1, -1)).2.toNat (-1, -1) := by
            rw [getDec_nonneg decs (by omega) (by rw [hge]; exact g3), hge,
              show (cm - ((decs.getD cm.toNat []).getD pr.toNat (-1, -1)).1).toNat =
                cm.toNat - ((decs.getD cm.toNat []).getD pr.toNat (-1, -1)).1.toNat by omega]
          rw [hgd2]
          exact g5
        by_cases hws : 0 < ws
        · rw [if_pos hws]
          rw [mkInvestmentAction_ok_of (by omega) (by exact_mod_cast hws)]
          simp only [bind_ok_eq, pure_eq_ok, hbuy]
          exact hrec _
        · rw [if_neg hws]
          simp only [bind_ok_eq, pure_eq_ok, hbuy]
          exact hrec _

/-- The rank loop succeeds and returns one path per requested rank when
every requested final-month decision is filled. -/
theorem reconPathsAux_ok (decs : List (List (ℤ × ℤ))) (k M : ℕ)
    (hchain : ∀ j : ℕ, 1 ≤ j → j ≤ M → ∀ r : ℕ,
      0 ≤ ((decs.getD j []).getD r (-1, -1)).1 →
      GoodDec k decs j ((decs.getD j []).getD r (-1, -1))) :
    ∀ (ranks : List ℕ) (acc : List (List InvestmentAction)),
      (∀ r ∈ ranks, 0 ≤ (getDec decs (M : ℤ) (r : ℤ)).1) →
      ∃ ps, reconPathsAux decs M ranks acc = Except.ok ps ∧
        ps.length = acc.length + ranks.length := by
  intro ranks
  induction ranks with
  | nil =>
    intro acc hfill
    exact ⟨acc, rfl, by simp⟩
  | cons r rest ih =>
    intro acc hfill
    rw [reconPathsAux]
    have hr := hfill r (List.mem_cons_self r rest)
    rw [if_neg (by omega)]
    obtain ⟨out, hout⟩ := walkPath_ok decs k M hchain (M + 1) (M : ℤ) (r : ℤ) 0 []
      (by positivity) (le_refl _) (by positivity) (by push_cast; omega)
      (fun _ => hr)
    rw [hout, bind_ok_eq]
    obtain ⟨ps, hps, hlen⟩ := ih (acc ++ [out]) (fun r2 hr2 => hfill r2 (List.mem_cons_of_mem r hr2))
    refine ⟨ps, hps, ?_⟩
    rw [hlen, List.length_append]
    simp [List.length_cons]
    omega

/-- When the rank loop succeeds with every requested rank filled, the
number of returned paths equals the number of ranks. -/
theorem reconPathsAux_length (decs : List (List (ℤ × ℤ))) (M : ℕ) :
    ∀ (ranks : List ℕ) (acc ps : List (List InvestmentAction)),
      reconPathsAux decs M ranks acc = Except.ok ps →
      (∀ r ∈ ranks, (getDec decs (M : ℤ) (r : ℤ)).1 ≠ -1) →
      ps.length = acc.length + ranks.length := by
  intro ranks
  induction ranks with
  | nil =>
    intro acc ps h _
    rw [reconPathsAux] at h
    rw [← Except.ok.inj h]
    simp
  | cons r rest ih =>
    intro acc ps h hfill
    rw [reconPathsAux] at h
    rw [if_neg (hfill r (List.mem_cons_self r rest))] at h
    obtain ⟨out, hout, h2⟩ := bind_eq_ok h
    have := ih (acc ++ [out]) ps h2 (fun r2 hr2 => hfill r2 (List.mem_cons_of_mem r hr2))
    rw [this, List.length_append]
    simp [List.length_cons]
    omega

end ReconOk

section FinalState

open Domain DynamicOptimiser ScalarOptimiser

theorem getOptimalSequences_ok_parts {R : BondReturnData} {kZ : ℤ}
    {res : OptimalResults} (hk : 1 ≤ kZ) (hM : R.numMonths ≠ 0)
    (hn : R.tenors.length ≠ 0)
    (h : getOptimalSequences R kZ = Except.ok res) :
    ∃ st paths,
      runMonths R kZ.toNat R.numMonths = Except.ok st ∧
      reconstructPaths st.decisions R.numMonths st.numResultsFound =
        Except.ok paths ∧
      res = OptimalResults.mk
        ((List.range st.numResultsFound).map
          (fun i => getCRF st.crfRows (st.rowIndex.getD R.numMonths 0) i))
        paths := by
  simp only [getOptimalSequences] at h
  rw [if_neg (by omega)] at h
  rw [if_neg (by push_neg; exact ⟨by omega, hM, hn⟩)] at h
  obtain ⟨st, hst, h2⟩ := bind_eq_ok h
  obtain ⟨paths, hpaths, h3⟩ := bind_eq_ok h2
  exact ⟨st, paths, hst, hpaths, (Except.ok.inj h3).symm⟩

theorem getOptimalSequences_error_parts {R : BondReturnData} {kZ : ℤ}
    {e : Err} (hk : 1 ≤ kZ) (hM : R.numMonths ≠ 0)
    (hn : R.tenors.length ≠ 0)
    (h : getOptimalSequences R kZ = Except.error e) :
    runMonths R kZ.toNat R.numMonths = Except.error e ∨
    ∃ st, runMonths R kZ.toNat R.numMonths = Except.ok st ∧
      reconstructPaths st.decisions R.numMonths st.numResultsFound =
        Except.error e := by
  simp only [getOptimalSequences] at h
  rw [if_neg (by omega)] at h
  rw [if_neg (by push_neg; exact ⟨by omega, hM, hn⟩)] at h
  rcases bind_eq_error h with h1 | ⟨st, hst, h2⟩
  · exact Or.inl h1
  · rcases bind_eq_error h2 with h3 | ⟨paths, hpaths, h4⟩
    · exact Or.inr ⟨st, hst, h3⟩
    · exact Except.noConfusion h4

theorem final_RowOK (R : BondReturnData) (k : ℕ) (st : EngState)
    (hv : ValidData R) (hk : 1 ≤ k)
    (hrun : runMonths R k R.numMonths = Except.ok st) :
    InvBase R k R.numMonths st ∧ InvChain k R.numMonths st ∧
    RowOK R k R.numMonths st.numResultsFound
      (st.crfRows.getD (R.numMonths % window R) [])
      (st.decisions.getD R.numMonths []) := by
  obtain ⟨hb, hc⟩ := runMonths_inv R k hv hk R.numMonths (le_refl _) st hrun
  obtain ⟨c, hceq, hok⟩ :=
    hb.2.2.2.2.2.2.2.2.2 (numMonths_pos hv)
  subst hceq
  exact ⟨hb, hc, hok⟩

theorem readCRF_rank0 (R : BondReturnData) (k m : ℕ) (st : EngState)
    (hv : ValidData R) (hk : 1 ≤ k) (hm : m ≤ R.numMonths)
    (hrun : runMonths R k m = Except.ok st) :
    readCRF st m 0 = scalarBest R m := by
  obtain ⟨hb, _⟩ := runMonths_inv R k hv hk m hm st hrun
  obtain ⟨c, hok⟩ := hb.2.2.2.2.2.2.2.2.1 m (le_refl _)
    (by have := window_ge_two hv; omega)
  unfold readCRF getCRF
  rw [hb.2.2.2.1 m (le_refl _)]
  exact hok.2.2.1

theorem map_range_getD_zero {t : ℕ} (f : ℕ → D) :
    ((List.range (t + 1)).map f).getD 0 D.ninf = f 0 := by
  rw [List.range_succ_eq_map]
  rfl

theorem map_range_head {t : ℕ} (f : ℕ → D) :
    ((List.range (t + 1)).map f).head? = some (f 0) := by
  rw [List.range_succ_eq_map]
  rfl

end FinalState

section ClaimC1

open Domain DynamicOptimiser ScalarOptimiser

set_option maxRecDepth 8000 in
/-- C1 (counterexample): on the valid matrix tenors = [1], M = 2,
grid = [1/2, -2] with k = 4 the engine succeeds with four results, but
the CRF list [3/2, 1, -3/2, -1] is not non-increasing — the claimed
sortedness fails once a return factor 1 + g is negative, because the
k-way merge assumes multiplying by the factor preserves order. -/
theorem C1_counterexample :
    ValidData { tenors := [1], numMonths := 2, grid := [1/2, -2] } ∧
    (0 : ℤ) ≤ 4 ∧
    getOptimalSequences { tenors := [1], numMonths := 2, grid := [1/2, -2] } 4 =
      Except.ok (OptimalResults.mk
        [D.fin (3/2), D.fin 1, D.fin (-3/2), D.fin (-1)]
        [[InvestmentAction.mk ActKind.Buy 1 1, InvestmentAction.mk ActKind.Wait 1 1],
         [InvestmentAction.mk ActKind.Wait 0 2],
         [InvestmentAction.mk ActKind.Buy 1 1, InvestmentAction.mk ActKind.Buy 2 1],
         [InvestmentAction.mk ActKind.Wait 0 1, InvestmentAction.mk ActKind.Buy 2 1]]) ∧
    ¬ CRFsSortedDesc [D.fin (3/2), D.fin 1, D.fin (-3/2), D.fin (-1)] := by
  refine ⟨by decide, by decide, by with_unfolding_all decide, ?_⟩
  intro hs
  unfold CRFsSortedDesc at hs
  rw [List.chain'_cons, List.chain'_cons, List.chain'_cons] at hs
  have h3 : (-1 : ℚ) ≤ (-3/2 : ℚ) := hs.2.2.1
  norm_num at h3

/-- C1 (amended): for every valid Return Matrix all of whose return
factors 1 + g(i, m) are non-negative and every k ≥ 0, a successful
getOptimalSequences returns a CRF list and a path list of equal length,
that length is at most k, and the CRF list is sorted in non-increasing
order.  (Without the non-negativity hypothesis the sortedness clause is
false: see the counterexample.) -/
theorem C1_results_sorted (R : BondReturnData) (kZ : ℤ) (res : OptimalResults)
    (hv : ValidData R) (hf : FactorsNonneg R) (hk : 0 ≤ kZ)
    (h : getOptimalSequences R kZ = Except.ok res) :
    res.CRFs.length = res.decisions.length ∧
    res.CRFs.length ≤ kZ.toNat ∧
    CRFsSortedDesc res.CRFs := by
  by_cases hk0 : kZ = 0
  · simp only [getOptimalSequences] at h
    rw [if_neg (by omega), if_pos (Or.inl hk0)] at h
    rw [← Except.ok.inj h]
    refine ⟨rfl, by simp, ?_⟩
    show List.Chain' _ ([] : List D)
    exact List.chain'_nil
  · have hk1 : 1 ≤ kZ := by omega
    have hM : R.numMonths ≠ 0 := by have := numMonths_pos hv; omega
    have hn : R.tenors.length ≠ 0 := by
      have := List.length_pos.mpr hv.1
      omega
    obtain ⟨st, paths, hrun, hrec, hres⟩ := getOptimalSequences_ok_parts hk1 hM hn h
    have hkk : 1 ≤ kZ.toNat := by omega
    obtain ⟨hb, hc, hok⟩ := final_RowOK R kZ.toNat st hv hkk hrun
    have hsort := runMonths_sort R kZ.toNat hv hkk hf R.numMonths (le_refl _) st hrun
    have hw2 := window_ge_two hv
    subst hres
    refine ⟨?_, ?_, ?_⟩
    · show ((List.range st.numResultsFound).map _).length = paths.length
      rw [List.length_map, List.length_range]
      unfold reconstructPaths at hrec
      have hlen := reconPathsAux_length st.decisions R.numMonths
        (List.range st.numResultsFound) [] paths hrec ?_
      · rw [hlen]
        simp
      · intro r hr
        rw [List.mem_range] at hr
        rw [getDec_nonneg st.decisions (by positivity) (by positivity),
          Int.toNat_natCast, Int.toNat_natCast]
        have := hok.2.2.2.2.2.1 r hr
        omega
    · show ((List.range st.numResultsFound).map _).length ≤ kZ.toNat
      rw [List.length_map, List.length_range]
      exact hok.2.1
    · show CRFsSortedDesc ((List.range st.numResultsFound).map _)
      unfold CRFsSortedDesc
      rw [List.chain'_map]
      cases hnr : st.numResultsFound with
      | zero =>
        rw [List.range_zero]
        exact List.chain'_nil
      | succ t =>
        rw [List.chain'_range_succ]
        intro i hi
        have hRS : RowSorted (st.crfRows.getD (R.numMonths % window R) []) :=
          hsort R.numMonths (le_refl _) (by omega)
        have hidxM : st.rowIndex.getD R.numMonths 0 = R.numMonths % window R :=
          hb.2.2.2.1 R.numMonths (le_refl _)
        show leD (getCRF st.crfRows (st.rowIndex.getD R.numMonths 0) (i + 1))
          (getCRF st.crfRows (st.rowIndex.getD R.numMonths 0) i)
        unfold getCRF
        rw [hidxM]
        exact hRS i (i + 1) (by omega)

set_option maxRecDepth 8000 in
theorem C1_results_sorted_witness :
    (OptimalResults.mk [D.fin (3/2)]
        [[InvestmentAction.mk ActKind.Buy 1 1]]).CRFs.length =
      (OptimalResults.mk [D.fin (3/2)]
        [[InvestmentAction.mk ActKind.Buy 1 1]]).decisions.length ∧
    (OptimalResults.mk [D.fin (3/2)]
        [[InvestmentAction.mk ActKind.Buy 1 1]]).CRFs.length ≤ (1 : ℤ).toNat ∧
    CRFsSortedDesc (OptimalResults.mk [D.fin (3/2)]
        [[InvestmentAction.mk ActKind.Buy 1 1]]).CRFs :=
  C1_results_sorted { tenors := [1], numMonths := 1, grid := [1/2] } 1
    (OptimalResults.mk [D.fin (3/2)] [[InvestmentAction.mk ActKind.Buy 1 1]])
    (by decide) (by with_unfolding_all decide) (by decide)
    (by with_unfolding_all decide)

end ClaimC1

section ClaimC2

open Domain DynamicOptimiser ScalarOptimiser

theorem crfs_head (R : BondReturnData) (kZ : ℤ) (res : OptimalResults)
    (hv : ValidData R) (hk : 1 ≤ kZ)
    (h : getOptimalSequences R kZ = Except.ok res) :
    res.CRFs.head? = some (optimiseCRF R) := by
  have hM : R.numMonths ≠ 0 := by have := numMonths_pos hv; omega
  have hn : R.tenors.length ≠ 0 := by
    have := List.length_pos.mpr hv.1
    omega
  obtain ⟨st, paths, hrun, hrec, hres⟩ := getOptimalSequences_ok_parts hk hM hn h
  have hkk : 1 ≤ kZ.toNat := by omega
  obtain ⟨hb, hc, hok⟩ := final_RowOK R kZ.toNat st hv hkk hrun
  subst hres
  obtain ⟨t, ht⟩ : ∃ t, st.numResultsFound = t + 1 :=
    ⟨st.numResultsFound - 1, by have := hok.1; omega⟩
  show ((List.range st.numResultsFound).map _).head? = _
  rw [ht, map_range_head]
  congr 1
  show getCRF st.crfRows (st.rowIndex.getD R.numMonths 0) 0 = optimiseCRF R
  unfold getCRF optimiseCRF
  rw [hb.2.2.2.1 R.numMonths (le_refl _)]
  exact hok.2.2.1

/-- C2: for a valid Return Matrix, when the engine succeeds both with
k = 1 and with any K ≥ 1, the two runs record the same top CRF, and that
value is exactly the one computed by the independent scalar
dynamic-programming optimiser optimiseCRF. -/
theorem C2_top_result (R : BondReturnData) (K : ℤ) (res1 resK : OptimalResults)
    (hv : ValidData R) (hK : 1 ≤ K)
    (h1 : getOptimalSequences R 1 = Except.ok res1)
    (hK2 : getOptimalSequences R K = Except.ok resK) :
    res1.CRFs.head? = resK.CRFs.head? ∧
    res1.CRFs.head? = some (optimiseCRF R) ∧
    resK.CRFs.head? = some (optimiseCRF R) := by
  have ha := crfs_head R 1 res1 hv (le_refl 1) h1
  have hb := crfs_head R K resK hv hK hK2
  exact ⟨ha.trans hb.symm, ha, hb⟩

set_option maxRecDepth 8000 in
theorem C2_top_result_witness :
    (OptimalResults.mk [D.fin (3/2)]
        [[InvestmentAction.mk ActKind.Buy 1 1]]).CRFs.head? =
      (OptimalResults.mk [D.fin (3/2)]
        [[InvestmentAction.mk ActKind.Buy 1 1]]).CRFs.head? ∧
    (OptimalResults.mk [D.fin (3/2)]
        [[InvestmentAction.mk ActKind.Buy 1 1]]).CRFs.head? =
      some (optimiseCRF { tenors := [1], numMonths := 1, grid := [1/2] }) ∧
    (OptimalResults.mk [D.fin (3/2)]
        [[InvestmentAction.mk ActKind.Buy 1 1]]).CRFs.head? =
      some (optimiseCRF { tenors := [1], numMonths := 1, grid := [1/2] }) :=
  C2_top_result { tenors := [1], numMonths := 1, grid := [1/2] } 1
    (OptimalResults.mk [D.fin (3/2)] [[InvestmentAction.mk ActKind.Buy 1 1]])
    (OptimalResults.mk [D.fin (3/2)] [[InvestmentAction.mk ActKind.Buy 1 1]])
    (by decide) (by decide)
    (by with_unfolding_all decide) (by with_unfolding_all decide)

end ClaimC2

section ClaimC3

open Domain DynamicOptimiser ScalarOptimiser

/-- C3: with a valid Return Matrix and k ≥ 1, (a) a successful run never
surfaces a non-finite CRF; (b) every failure of the engine is an overflow
error produced by throwCRFOverflow from an infinite candidate at the first
failing month m in 1..M (all earlier months having succeeded); and
(c, d) throwCRFOverflow reports direction above with the maximum finite
double when the sign bit is clear (non-negative value) and direction
below with the lowest finite double when it is set. -/
theorem C3_overflow (R : BondReturnData) (kZ : ℤ)
    (hv : ValidData R) (hk : 1 ≤ kZ) :
    (∀ res, getOptimalSequences R kZ = Except.ok res →
      ∀ x ∈ res.CRFs, isFinD x) ∧
    (∀ e, getOptimalSequences R kZ = Except.error e →
      ∃ v m, isinfD v = true ∧ 1 ≤ m ∧ m ≤ R.numMonths ∧
        e = throwCRFOverflow v m ∧
        ∃ st, runMonths R kZ.toNat (m - 1) = Except.ok st ∧
          processMonth R kZ.toNat st m = Except.error e) ∧
    (∀ (v : D) (m : ℕ), signbitD v = false →
      throwCRFOverflow v m = Err.overflow true MAXD m) ∧
    (∀ (v : D) (m : ℕ), signbitD v = true →
      throwCRFOverflow v m = Err.overflow false (-MAXD) m) := by
  have hM : R.numMonths ≠ 0 := by have := numMonths_pos hv; omega
  have hn : R.tenors.length ≠ 0 := by
    have := List.length_pos.mpr hv.1
    omega
  have hkk : 1 ≤ kZ.toNat := by omega
  refine ⟨?_, ?_, ?_, ?_⟩
  · intro res h x hx
    obtain ⟨st, paths, hrun, hrec, hres⟩ := getOptimalSequences_ok_parts hk hM hn h
    obtain ⟨hb, hc, hok⟩ := final_RowOK R kZ.toNat st hv hkk hrun
    subst hres
    obtain ⟨i, hi, hfx⟩ := List.mem_map.mp hx
    rw [List.mem_range] at hi
    obtain ⟨q, hq, _, _⟩ := hok.2.2.2.1 i hi
    rw [← hfx]
    show isFinD (getCRF st.crfRows (st.rowIndex.getD R.numMonths 0) i)
    unfold getCRF
    rw [hb.2.2.2.1 R.numMonths (le_refl _), hq]
    trivial
  · intro e h
    rcases getOptimalSequences_error_parts hk hM hn h with h1 | ⟨st, hst, h2⟩
    · obtain ⟨m, st, hm1, hmM, hrunpref, hproc⟩ := runMonths_error R.numMonths e h1
      obtain ⟨v, hvinf, hev⟩ := processMonth_error hproc
      exact ⟨v, m, hvinf, hm1, hmM, hev, st, hrunpref, hproc⟩
    · exfalso
      obtain ⟨hb, hc, hok⟩ := final_RowOK R kZ.toNat st hv hkk hst
      have hfill : ∀ r ∈ List.range st.numResultsFound,
          0 ≤ (getDec st.decisions (R.numMonths : ℤ) (r : ℤ)).1 := by
        intro r hr
        rw [List.mem_range] at hr
        rw [getDec_nonneg st.decisions (by positivity) (by positivity),
          Int.toNat_natCast, Int.toNat_natCast]
        exact hok.2.2.2.2.2.1 r hr
      obtain ⟨ps, hps, _⟩ := reconPathsAux_ok st.decisions kZ.toNat R.numMonths hc
        (List.range st.numResultsFound) [] hfill
      unfold reconstructPaths at h2
      rw [h2] at hps
      exact Except.noConfusion hps
  · intro v m hsb
    unfold throwCRFOverflow
    rw [if_pos hsb]
  · intro v m hsb
    unfold throwCRFOverflow
    rw [if_neg (by rw [hsb]; simp)]

set_option maxRecDepth 8000 in
theorem C3_overflow_witness :
    isFinD (D.fin (3/2)) ∧
    throwCRFOverflow D.pinf 1 = Err.overflow true MAXD 1 ∧
    throwCRFOverflow D.ninf 1 = Err.overflow false (-MAXD) 1 :=
  ⟨(C3_overflow { tenors := [1], numMonths := 1, grid := [1/2] } 1
      (by decide) (by decide)).1
      (OptimalResults.mk [D.fin (3/2)] [[InvestmentAction.mk ActKind.Buy 1 1]])
      (by with_unfolding_all decide) (D.fin (3/2)) (by with_unfolding_all decide),
   (C3_overflow { tenors := [1], numMonths := 1, grid := [1/2] } 1
      (by decide) (by decide)).2.2.1 D.pinf 1 (by decide),
   (C3_overflow { tenors := [1], numMonths := 1, grid := [1/2] } 1
      (by decide) (by decide)).2.2.2 D.ninf 1 (by decide)⟩

end ClaimC3

section ClaimC10

open Domain DynamicOptimiser ScalarOptimiser

/-- C10 (implicit): with a valid Return Matrix and k ≥ 1, the rank-0 CRF
the engine records is monotonically non-decreasing across consecutive
months of the loop (the wait head always carries the previous month's
best forward), and consequently the returned top CRF is at least 1.0 even
when every HPR is negative. -/
theorem C10_rank0_monotone (R : BondReturnData) (kZ : ℤ) (res : OptimalResults)
    (hv : ValidData R) (hk : 1 ≤ kZ)
    (hok : getOptimalSequences R kZ = Except.ok res) :
    (∀ m st st', m + 1 ≤ R.numMonths →
      runMonths R kZ.toNat m = Except.ok st →
      runMonths R kZ.toNat (m + 1) = Except.ok st' →
      leD (readCRF st m 0) (readCRF st' (m + 1) 0)) ∧
    ∃ x, res.CRFs.head? = some x ∧ leD (D.fin 1) x := by
  have hkk : 1 ≤ kZ.toNat := by omega
  constructor
  · intro m st st' hm hr hr'
    rw [readCRF_rank0 R kZ.toNat m st hv hkk (by omega) hr,
      readCRF_rank0 R kZ.toNat (m + 1) st' hv hkk hm hr']
    exact scalarBest_mono R m
  · refine ⟨optimiseCRF R, crfs_head R kZ res hv hk hok, ?_⟩
    exact scalarBest_ge_one R R.numMonths

set_option maxRecDepth 8000 in
theorem C10_rank0_monotone_witness :
    ∃ x, (OptimalResults.mk [D.fin (3/2)]
        [[InvestmentAction.mk ActKind.Buy 1 1]]).CRFs.head? = some x ∧
      leD (D.fin 1) x :=
  (C10_rank0_monotone { tenors := [1], numMonths := 1, grid := [1/2] } 1
    (OptimalResults.mk [D.fin (3/2)] [[InvestmentAction.mk ActKind.Buy 1 1]])
    (by decide) (by decide) (by with_unfolding_all decide)).2

end ClaimC10
